import Mathlib

/-!
Verification development for the pip-compile-multi lock orchestrator
(`pipcompilemulti.py`).

Strings are modelled as `List Char`.  The two dependency-line regular
expressions (`RE_DEPENDENCY`, `RE_VCS_DEPENDENCY`) are modelled by explicit
backtracking parsers that mirror Python's leftmost, greedy-with-backtracking
matching discipline: every greedy quantifier is modelled by trying the longest
admissible match first and falling back to shorter ones.  File-system and
subprocess concerns are out of scope; functions that read files take the file
contents (or the list of its lines) as arguments.
-/

namespace PipCompileMulti

/-- The whitespace characters of Python's `str.strip` / `\s` (ASCII range). -/
def pySpace (c : Char) : Bool :=
  c == ' ' || c == '\t' || c == '\n' || c == '\r' || c == '\x0b' || c == '\x0c'

/-- Negation of `pySpace`, the model of the regex class `\S`. -/
def nonspace (c : Char) : Bool := !pySpace c

/-- Strings are lists of characters. -/
abbrev Str := List Char

/-- Python's `str.lstrip()`. -/
def lstrip (s : Str) : Str := s.dropWhile pySpace

/-- Python's `str.rstrip()`. -/
def rstrip (s : Str) : Str := (s.reverse.dropWhile pySpace).reverse

/-- Python's `str.strip()`. -/
def strip (s : Str) : Str := lstrip (rstrip s)

/-- Python's `str.endswith('\\')`. -/
def endsWithBS (s : Str) : Bool := s.getLast? == some '\\'

/-- Python's `' '.join`. -/
def joinSpace (parts : List Str) : Str := List.intercalate [' '] parts

/-- Helper for `splitWS`: accumulates the current word in reverse. -/
def splitWSGo : Str → Str → List Str
  | [], acc => if acc = [] then [] else [acc.reverse]
  | c :: t, acc =>
    if pySpace c then
      if acc = [] then splitWSGo t [] else acc.reverse :: splitWSGo t []
    else splitWSGo t (c :: acc)

/-- Python's `str.split()` (split on runs of whitespace, no empty pieces). -/
def splitWS (s : Str) : List Str := splitWSGo s []

/-- Python's `str.ljust(n)` (pad on the right with spaces). -/
def ljust (n : Nat) (s : Str) : Str := s ++ List.replicate (n - s.length) ' '

/-- Index of the first occurrence of `pat` in a string (Python's `str.find`),
`none` when absent. -/
def findSub (pat : Str) : Str → Option Nat
  | [] => if pat.isPrefixOf ([] : Str) then some 0 else none
  | c :: t => if pat.isPrefixOf (c :: t) then some 0 else (findSub pat t).map (· + 1)

/-- Python's `pat in s` substring test. -/
def containsSub (pat s : Str) : Bool := (findSub pat s).isSome

/-- Split a string on newline characters (Python file/line iteration of a
serialized multi-line string). -/
def splitNLGo : Str → Str → List Str
  | [], acc => [acc.reverse]
  | c :: t, acc => if c == '\n' then acc.reverse :: splitNLGo t [] else splitNLGo t (c :: acc)

/-- Split on `'\n'`. -/
def splitNL (s : Str) : List Str := splitNLGo s []

/-- The countdown list `[n, n-1, ..., 1]`: the candidate lengths a greedy
`\S+`-style quantifier tries, longest first. -/
def cdown : Nat → List Nat
  | 0 => []
  | n + 1 => (n + 1) :: cdown n

/-! ## The `Dependency` line model

`Dependency.__init__` tries `RE_DEPENDENCY` first and `RE_VCS_DEPENDENCY`
second; an invalid line is modelled by `none`. -/

/-- One parsed dependency line (the attributes of class `Dependency`).
For a pinned line `is_vcs = false` and `line` is the whole input line;
for a source-controlled line `version = hashes = []`. -/
structure Dep where
  package : Str
  version : Str
  hashes : Str
  comment : Str
  is_vcs : Bool
  line : Str
deriving DecidableEq, Repr

/-- The tail grammar `(?P<comment>#.*)?$`: succeeds on the empty string (no
comment, modelled as `[]` like the `or ''` in the source) or on a string
starting with `#` (the comment runs to the end of the line). -/
def endOrComment (s : Str) : Option Str :=
  if s = [] then some [] else if s.head? = some '#' then some s else none

/-- Backtracking matcher for `(?:--hash=\S+\s*)+(?P<comment>#.*)?$`:
returns the length of the text consumed by the hash group together with the
comment.  Greedy order: within an iteration the `\S+` token tries longest
first; after an iteration another iteration is preferred to ending the
group.  `fuel` dominates the recursion depth (each iteration consumes at
least the literal `--hash=`). -/
def hashIters : Nat → Str → Option (Nat × Str)
  | 0, _ => none
  | fuel + 1, s =>
    if ("--hash=".data).isPrefixOf s then
      let s1 := s.drop 7
      let run := s1.takeWhile nonspace
      (cdown run.length).findSome? fun k =>
        let s2 := s1.drop k
        let sp := (s2.takeWhile pySpace).length
        let s3 := s2.drop sp
        match hashIters fuel s3 with
        | some (m, c) => some (7 + k + sp + m, c)
        | none => (endOrComment s3).map fun c => (7 + k + sp, c)
    else none

/-- The grammar after the version group:
`\s*(?P<hashes>(?:--hash=\S+\s*)+)?(?P<comment>#.*)?$`.
Returns the raw text captured by the optional hashes group (`[]` when the
group did not participate, like the `or ''` in the source) and the comment.
The `\s*` is deterministic: everything that can follow it starts with a
non-space character or is the end of the line. -/
def afterVersion (s : Str) : Option (Str × Str) :=
  let s1 := s.dropWhile pySpace
  match hashIters (s1.length + 1) s1 with
  | some (m, c) => some (s1.take m, c)
  | none => (endOrComment s1).map fun c => ([], c)

/-- The grammar `(?P<version>\S+)\s*(hashes)?(comment)?$`: the greedy version
token tries every nonempty prefix of the leading non-space run, longest
first. -/
def parseVHC (s : Str) : Option (Str × Str × Str) :=
  let run := s.takeWhile nonspace
  (cdown run.length).findSome? fun k =>
    (afterVersion (s.drop k)).map fun hc => (s.take k, hc.1, hc.2)

/-- Candidate package lengths for `RE_DEPENDENCY`: positions `i` (longest
first) such that `s.take i` is a nonempty all-non-space prefix and the
literal `==` follows. -/
def pkgCandidates (s : Str) : List Nat :=
  (cdown (s.takeWhile nonspace).length).filter fun i => ("==".data).isPrefixOf (s.drop i)

/-- Model of `RE_DEPENDENCY.match`:
`(?iu)(?P<package>\S+)==(?P<version>\S+)\s*(?P<hashes>(?:--hash=\S+\s*)+)?(?P<comment>#.*)?$`,
together with the attribute assignments of `Dependency.__init__` (the
`.strip()` on version, hashes and comment). -/
def re_dependency (s : Str) : Option Dep :=
  (pkgCandidates s).findSome? fun i =>
    (parseVHC (s.drop (i + 2))).map fun vhc =>
      { package := s.take i, version := strip vhc.1, hashes := strip vhc.2.1,
        comment := strip vhc.2.2, is_vcs := false, line := s }

/-- The character class `[a-z0-9-_.]` under `re.I` (ASCII). -/
def eggChar (c : Char) : Bool := c.isAlpha || c.isDigit || c == '-' || c == '_' || c == '.'

/-- The part of `RE_VCS_DEPENDENCY` after the optional editable flag:
`\s*(?P<prefix>\S+#egg=)(?P<package>[a-z0-9-_.]+)(?P<postfix>\S+)\s*(?P<comment>#.*)?$`.
`j` ranges over candidate end positions of the `#egg=` literal (the greedy
inner `\S+` tries longest first), then the package and postfix tokens
backtrack greedily. -/
def re_vcs_after (s : Str) (line : Str) : Option Dep :=
  let s1 := s.dropWhile pySpace
  let run := s1.takeWhile nonspace
  (cdown run.length).findSome? fun j =>
    if 6 ≤ j ∧ ("#egg=".data).isPrefixOf (s1.drop (j - 5)) then
      let prun := (s1.drop j).takeWhile eggChar
      (cdown prun.length).findSome? fun p =>
        let s2 := s1.drop (j + p)
        let porun := s2.takeWhile nonspace
        (cdown porun.length).findSome? fun q =>
          let s3 := (s2.drop q).dropWhile pySpace
          (endOrComment s3).map fun c =>
            { package := (s1.drop j).take p, version := [], hashes := [],
              comment := strip c, is_vcs := true, line := line }
    else none

/-- Model of `RE_VCS_DEPENDENCY.match`: the greedy optional `(?P<editable>-e)?`
tries to consume a literal `-e` first and falls back to the empty match. -/
def re_vcs (s : Str) : Option Dep :=
  (if ("-e".data).isPrefixOf s then re_vcs_after (s.drop 2) s else none).orElse
    fun _ => re_vcs_after s s

/-- `Dependency.__init__`: try the pinned grammar, then the source-controlled
grammar; `none` models `valid = False`. -/
def parseDep (s : Str) : Option Dep :=
  (re_dependency s).orElse fun _ => re_vcs s

/-- `Dependency.without_editable`: drop a leading `-e ` flag unless the line
uses a raw `git+git@` transport. -/
def without_editable (l : Str) : Str :=
  if containsSub ("git+git@".data) l then l
  else if ("-e ".data).isPrefixOf l then l.drop 3 else l

/-- `Dependency.drop_post`: truncate the version at the first `.post`. -/
def drop_post (v : Str) : Str :=
  match findSub (".post".data) v with
  | some i => v.take i
  | none => v

/-- `Dependency.serialize`.  `compat` is the `is_compatible` predicate of the
source (its value on the package name); it abstracts
`any(fnmatch(package.lower(), pat) for pat in OPTIONS['compatible_patterns'])`.
`26` is `COMMENT_JUSTIFICATION`. -/
def Dep.serialize (compat : Str → Bool) (d : Dep) : Str :=
  if d.is_vcs then strip (without_editable d.line)
  else
    let equal := if compat d.package then "~=".data else "==".data
    let pv := without_editable d.package ++ equal ++ d.version ++ "  ".data
    if d.hashes ≠ [] then
      List.intercalate (" \\\n    ".data)
        (strip pv :: (splitWS d.hashes ++ if d.comment ≠ [] then [d.comment] else []))
    else rstrip (ljust 26 pv ++ d.comment)

/-! ## The `Environment` line pipeline -/

/-- Lookup in an association list (a Python `dict` read). -/
def alookup {β : Type} (k : Str) : List (Str × β) → Option β
  | [] => none
  | (k', v) :: t => if k' = k then some v else alookup k t

/-- Assignment in an association list (a Python `dict` write: replace in
place, else append). -/
def aset {β : Type} (k : Str) (v : β) : List (Str × β) → List (Str × β)
  | [] => [(k, v)]
  | (k', v') :: t => if k' = k then (k, v) :: t else (k', v') :: aset k v t

/-- The per-environment state that `fix_pin` reads and writes: the ignore
table (`None` values disable conflict detection), the `forbid_post` flag and
the accumulated `packages` table. -/
structure Env where
  ignore : List (Str × Option Str)
  forbid_post : Bool
  packages : List (Str × Str)
deriving DecidableEq, Repr

/-- `Environment.fix_pin` on one logical line.  `.error` is the
`VersionConflictError` (`RuntimeError` in the source) carrying the reported
(package, version, ignored version) triple; `.ok (o, env)` returns the
emitted line (`none` = drop) and the updated state. -/
def fix_pin (compat : Str → Bool) (env : Env) (line : Str) :
    Except (Str × Str × Str) (Option Str × Env) :=
  match parseDep line with
  | some dep =>
    match alookup dep.package env.ignore with
    | some ignored_version =>
      match ignored_version with
      | some iv =>
        if dep.version ≠ [] ∧ dep.version ≠ iv then .error (dep.package, dep.version, iv)
        else .ok (none, env)
      | none => .ok (none, env)
    | none =>
      let env' := { env with packages := aset dep.package dep.version env.packages }
      let dep' :=
        if env.forbid_post || compat dep.package then { dep with version := drop_post dep.version }
        else dep
      .ok (some (dep'.serialize compat), env')
  | none => .ok (some (strip line), env)

/-- `Environment.concatenated`: join physical lines on trailing backslashes.
The first argument is the pending `line_parts` accumulator; the exception is
the `MalformedArtifactError` (`RuntimeError("Compiled file ends with
backslash \\")`). -/
def concatenated (line_parts : List Str) : List Str → Except Unit (List Str)
  | [] => if line_parts = [] then .ok [] else .error ()
  | l :: rest =>
    let s := strip l
    if endsWithBS s then concatenated (line_parts ++ [rstrip s.dropLast]) rest
    else
      match concatenated [] rest with
      | .ok r => .ok (joinSpace (line_parts ++ [s]) :: r)
      | .error e => .error e

/-! ## `merged_packages` -/

/-- Code-point comparison of strings, Python's `<` on `str`. -/
def strLt : Str → Str → Bool
  | [], [] => false
  | [], _ :: _ => true
  | _ :: _, [] => false
  | a :: s, b :: t => if a = b then strLt s t else decide (a < b)

/-- Python's tuple comparison on `(name, version)` pairs, as used by
`sorted(...)` in `merged_packages`. -/
def pairLe (a b : Str × Str) : Prop :=
  strLt a.1 b.1 = true ∨ (a.1 = b.1 ∧ (strLt a.2 b.2 = true ∨ a.2 = b.2))

instance : DecidableRel pairLe := fun a b => by unfold pairLe; infer_instance

/-- Python's tuple comparison on error triples, as used by `sorted(errors)`. -/
def tripLe (a b : Str × Str × Str) : Prop :=
  strLt a.1 b.1 = true ∨
    (a.1 = b.1 ∧ (strLt a.2.1 b.2.1 = true ∨
      (a.2.1 = b.2.1 ∧ (strLt a.2.2 b.2.2 = true ∨ a.2.2 = b.2.2))))

instance : DecidableRel tripLe := fun a b => by unfold tripLe; infer_instance

/-- The accumulation loop of `merged_packages`: `result` is the growing
package dict (an association list, new keys appended), `errors` the set of
conflict triples (set semantics: a triple is added only once). -/
def merge_loop : List (Str × Str) → List (Str × Str) → List (Str × Str × Str) →
    List (Str × Str) × List (Str × Str × Str)
  | [], result, errors => (result, errors)
  | (name, version) :: rest, result, errors =>
    match alookup name result with
    | some v0 =>
      if v0 = version then merge_loop rest result errors
      else
        merge_loop rest result
          (if (name, version, v0) ∈ errors then errors else errors ++ [(name, version, v0)])
    | none => merge_loop rest (result ++ [(name, version)]) errors

/-- `merged_packages(env_packages, names)`: the union of the package tables of
the given environment names; `.error` is the `VersionConflictError`
(`RuntimeError` in the source) carrying the sorted list of reported
(package, version, first seen version) conflict triples. -/
def merged_packages (env_packages : String → List (Str × Str)) (names : List String) :
    Except (List (Str × Str × Str)) (List (Str × Str)) :=
  let combined := List.insertionSort pairLe (names.flatMap fun n => env_packages n)
  let rs := merge_loop combined [] []
  if rs.2 = [] then .ok rs.1 else .error (List.insertionSort tripLe rs.2)

/-! ## The environment graph -/

/-- One discovered environment configuration: its name and the names it
references (`{'name': ..., 'refs': ...}`). -/
structure Conf where
  name : String
  refs : List String
deriving DecidableEq, Repr

/-- The `refs_by_name` dict built inside `recursive_refs`; `none` models the
`KeyError` on a name that is not in the graph. -/
def refs_by_name (envs : List Conf) (n : String) : Option (List String) :=
  (envs.find? fun e => e.name == n).map Conf.refs

/-- `recursive_refs(envs, name)`: the union of the direct refs and the
recursive refs of each of them.  The source recurses directly (and hence
diverges on a cyclic graph); the explicit `fuel` bounds the recursion depth
and is irrelevant on acyclic graphs once it exceeds the longest reference
chain.  A missing name (Python `KeyError`) yields `∅`. -/
def recursive_refs (envs : List Conf) : Nat → String → Finset String
  | 0, _ => ∅
  | fuel + 1, name =>
    match refs_by_name envs name with
    | none => ∅
    | some rs =>
      let refs := rs.toFinset
      refs ∪ refs.biUnion fun r => recursive_refs envs fuel r

/-- The undirected edge list of `reference_cluster`: one two-element set
`{env.name, ref}` per reference. -/
def cluster_edges (envs : List Conf) : List (Finset String) :=
  envs.flatMap fun e => e.refs.map fun r => {e.name, r}

/-- One pass of the `reference_cluster` loop over the remaining edges:
absorb every edge adjacent to the growing cluster, keep the others (the
`to_visit` list) for the next round. -/
def cluster_pass : List (Finset String) → Finset String → Finset String × List (Finset String)
  | [], c => (c, [])
  | e :: rest, c =>
    if c ∩ e ≠ ∅ then cluster_pass rest (c ∪ e)
    else
      let r := cluster_pass rest c
      (r.1, e :: r.2)

/-- The `while prev != cluster` loop of `reference_cluster`.  Each productive
round removes at least one edge, so `edges.length + 1` fuel always
suffices. -/
def cluster_loop : Nat → List (Finset String) → Finset String → Finset String
  | 0, _, c => c
  | fuel + 1, edges, c =>
    let r := cluster_pass edges c
    if r.1 = c then c else cluster_loop fuel r.2 r.1

/-- `reference_cluster(envs, name)`: every environment connected to `name` by
reference edges in either direction. -/
def reference_cluster (envs : List Conf) (name : String) : Finset String :=
  cluster_loop ((cluster_edges envs).length + 1) (cluster_edges envs) {name}

/-! ## Topological ordering

The topological sort itself lives in the external `toposort` library
(`from toposort import toposort_flatten`), whose code is not part of this
repository. -/

/-- The `topology` dict of `order_by_refs`: direct dependencies by name. -/
def topology (envs : List Conf) (n : String) : List String :=
  ((envs.find? fun e => e.name == n).map Conf.refs).getD []

/-- The environments of `remaining` whose dependencies have all been emitted
already: the next batch of the topological sort. -/
def readySet (deps : String → List String) (emitted remaining : List String) : List String :=
  remaining.filter fun n => (deps n).all fun d => emitted.contains d

/-- Modelled from the spec: the `toposort_flatten` function of the external
`toposort` library is not part of this repository's source.  Following §4.1
("Ordering: topological sort over the reference graph. Fails with a
`CycleError` if the graph is not acyclic"), the model repeatedly emits the
batch of environments whose dependencies are all already emitted (each batch
sorted by name for determinism, as the library does), and fails with `none`
(the `CycleError`) when no progress is possible.  `fuel ≥ remaining.length`
always suffices because every successful round shrinks `remaining`. -/
def kahn (deps : String → List String) : Nat → List String → List String → Option (List String)
  | 0, emitted, remaining => if remaining = [] then some emitted else none
  | fuel + 1, emitted, remaining =>
    if remaining = [] then some emitted
    else
      let r := readySet deps emitted remaining
      if r = [] then none
      else
        kahn deps fuel (emitted ++ List.insertionSort (fun a b : String => strLt a.data b.data) r)
          (remaining.filter fun n => !r.contains n)

/-- `order_by_refs(envs)`: the environment configurations reordered according
to the flattened topological sort of the reference graph. -/
def order_by_refs (envs : List Conf) : Option (List Conf) :=
  (kahn (topology envs) (envs.length + 1) [] (envs.map Conf.name)).map fun names =>
    names.filterMap fun n => envs.find? fun e => e.name == n

/-! ## Digest verification

`generate_hash_comment` reads the input file and hashes it with
`hashlib.sha1`; the SHA-1 primitive is an external library collaborator, so
it is a parameter `digest` (a hex digest of the stripped file content) of the
model.  Functions take file contents instead of paths. -/

/-- `generate_hash_comment(file_path)`: the provenance tag line
`# SHA1:<hexdigest of the stripped content>\n`. -/
def generate_hash_comment (digest : Str → Str) (content : Str) : Str :=
  ("# SHA1:".data) ++ digest (strip content) ++ ['\n']

/-- `parse_hash_comment(file_path)`: the first line (with its newline) that
starts with `# SHA1:`, else `None`. -/
def parse_hash_comment (outLines : List Str) : Option Str :=
  outLines.find? fun l => ("# SHA1:".data).isPrefixOf l

/-- One environment as seen by the `verify` command: the content of its input
file and the raw lines (each including its trailing newline, as Python file
iteration yields them) of its output file. -/
structure VerifyEnv where
  inContent : Str
  outLines : List Str

/-- One environment's check inside `verify`: recompute the input digest
comment and compare it with the tag found in the output file.  Total: a
missing tag (`none`) compares unequal, nothing is raised. -/
def verify_env (digest : Str → Str) (e : VerifyEnv) : Bool :=
  match parse_hash_comment e.outLines with
  | some existing => generate_hash_comment digest e.inContent == existing
  | none => false

/-- The `verify` command over the discovered environments: the per-environment
match reports (in discovery order) and the process exit code (`ctx.exit(1)`
if and only if some environment failed). -/
def verify (digest : Str → Str) (envs : List VerifyEnv) : List Bool × Nat :=
  let reports := envs.map (verify_env digest)
  (reports, if reports.all (fun b => b) then 0 else 1)

/-! ## Derived notions used in the statements -/

/-- The logical line `concatenated` produces from one block of physical lines
(all but the last ending, after stripping, in a backslash): the parts with
their markers stripped, joined by single spaces. -/
def blockJoin (b : List Str) : Str :=
  joinSpace ((b.dropLast.map fun l => rstrip (strip l).dropLast) ++ [strip (b.getLastD [])])

/-- An association list with no repeated keys (the image of a Python dict). -/
def keysNodup {β : Type} (l : List (Str × β)) : Prop := (l.map Prod.fst).Nodup

instance {β : Type} (l : List (Str × β)) : Decidable (keysNodup l) :=
  List.nodupDecidable _

instance {ε α : Type} [DecidableEq ε] [DecidableEq α] : DecidableEq (Except ε α) := fun a b =>
  match a, b with
  | .ok x, .ok y =>
    if h : x = y then .isTrue (by rw [h]) else .isFalse fun hc => h (Except.ok.inj hc)
  | .error x, .error y =>
    if h : x = y then .isTrue (by rw [h]) else .isFalse fun hc => h (Except.error.inj hc)
  | .ok _, .error _ => .isFalse fun hc => Except.noConfusion hc
  | .error _, .ok _ => .isFalse fun hc => Except.noConfusion hc

/-- One reference step in the environment graph: `b` is a direct ref of `a`. -/
def RefStep (envs : List Conf) (a b : String) : Prop :=
  ∃ rs, refs_by_name envs a = some rs ∧ b ∈ rs

/-- Adjacency through the undirected edge list of `reference_cluster`. -/
def EdgeAdj (edges : List (Finset String)) (a b : String) : Prop :=
  ∃ e ∈ edges, a ∈ e ∧ b ∈ e

/-! # Association list lemmas -/

theorem alookup_cons {β : Type} (k k' : Str) (v : β) (t : List (Str × β)) :
    alookup k ((k', v) :: t) = if k' = k then some v else alookup k t := rfl

theorem alookup_eq_none {β : Type} {k : Str} {l : List (Str × β)} :
    alookup k l = none ↔ k ∉ l.map Prod.fst := by
  induction l with
  | nil => simp [alookup]
  | cons p t ih =>
    obtain ⟨k', v⟩ := p
    by_cases h : k' = k
    · subst h
      rw [alookup_cons, if_pos rfl]
      constructor
      · intro hsv
        exact Option.noConfusion hsv
      · intro hm
        exact absurd (List.mem_cons_self _ _) hm
    · rw [alookup_cons, if_neg h]
      simp only [List.map_cons, List.mem_cons]
      rw [ih]
      constructor
      · intro hk hor
        rcases hor with h1 | h1
        · exact h h1.symm
        · exact hk h1
      · intro hall hm
        exact hall (Or.inr hm)

theorem alookup_some_mem {β : Type} {k : Str} {v : β} {l : List (Str × β)}
    (h : alookup k l = some v) : (k, v) ∈ l := by
  induction l with
  | nil => exact Option.noConfusion h
  | cons p t ih =>
    obtain ⟨k', v'⟩ := p
    by_cases hk : k' = k
    · subst hk
      rw [alookup_cons, if_pos rfl] at h
      obtain rfl := Option.some.inj h
      exact List.mem_cons_self _ _
    · rw [alookup_cons, if_neg hk] at h
      exact List.mem_cons_of_mem _ (ih h)

theorem mem_alookup_isSome {β : Type} {k : Str} {v : β} {l : List (Str × β)}
    (h : (k, v) ∈ l) : ∃ w, alookup k l = some w := by
  induction l with
  | nil => simp at h
  | cons p t ih =>
    obtain ⟨k', v'⟩ := p
    by_cases hk : k' = k
    · exact ⟨v', by rw [alookup_cons, if_pos hk]⟩
    · rcases List.mem_cons.1 h with h' | h'
      · exact absurd (congrArg Prod.fst h').symm hk
      · obtain ⟨w, hw⟩ := ih h'
        exact ⟨w, by rw [alookup_cons, if_neg hk]; exact hw⟩

theorem alookup_append_of_some {β : Type} {k : Str} {v : β} {l1 l2 : List (Str × β)}
    (h : alookup k l1 = some v) : alookup k (l1 ++ l2) = some v := by
  induction l1 with
  | nil => exact Option.noConfusion h
  | cons p t ih =>
    obtain ⟨k', v'⟩ := p
    by_cases hk : k' = k
    · rw [alookup_cons, if_pos hk] at h
      rw [List.cons_append, alookup_cons, if_pos hk]
      exact h
    · rw [alookup_cons, if_neg hk] at h
      rw [List.cons_append, alookup_cons, if_neg hk]
      exact ih h

theorem alookup_append_of_none {β : Type} {k : Str} {l1 l2 : List (Str × β)}
    (h : alookup k l1 = none) : alookup k (l1 ++ l2) = alookup k l2 := by
  induction l1 with
  | nil => simp
  | cons p t ih =>
    obtain ⟨k', v'⟩ := p
    by_cases hk : k' = k
    · rw [alookup_cons, if_pos hk] at h
      exact Option.noConfusion h
    · rw [alookup_cons, if_neg hk] at h
      rw [List.cons_append, alookup_cons, if_neg hk]
      exact ih h

theorem alookup_mem_iff {β : Type} {k : Str} {v : β} {l : List (Str × β)}
    (h : keysNodup l) : (k, v) ∈ l ↔ alookup k l = some v := by
  induction l with
  | nil => simp [alookup]
  | cons p t ih =>
    obtain ⟨k', v'⟩ := p
    have ht : keysNodup t := (List.nodup_cons.1 h).2
    have hk' : k' ∉ t.map Prod.fst := (List.nodup_cons.1 h).1
    by_cases hk : k' = k
    · subst hk
      constructor
      · intro hm
        rcases List.mem_cons.1 hm with h' | h'
        · have hv : v = v' := congrArg Prod.snd h'
          rw [alookup_cons, if_pos rfl, hv]
        · exact absurd (List.mem_map.2 ⟨_, h', rfl⟩) hk'
      · intro hl
        rw [alookup_cons, if_pos rfl] at hl
        obtain rfl := Option.some.inj hl
        exact List.mem_cons_self _ _
    · constructor
      · intro hm
        rcases List.mem_cons.1 hm with h' | h'
        · exact absurd (congrArg Prod.fst h').symm hk
        · rw [alookup_cons, if_neg hk]
          exact (ih ht).1 h'
      · intro hl
        rw [alookup_cons, if_neg hk] at hl
        exact List.mem_cons.2 (Or.inr ((ih ht).2 hl))

theorem keysNodup_mem_unique {β : Type} {k : Str} {v1 v2 : β} {l : List (Str × β)}
    (h : keysNodup l) (h1 : (k, v1) ∈ l) (h2 : (k, v2) ∈ l) : v1 = v2 := by
  have e1 := (alookup_mem_iff h).1 h1
  have e2 := (alookup_mem_iff h).1 h2
  exact Option.some.inj (e1.symm.trans e2)

/-! # C6: digest verification -/

/-- C6: `verify` recomputes every environment's digest comment, compares it to
the tag found in the output file (a total comparison, nothing is raised),
reports one result per discovered environment, and signals a non-zero exit
code exactly when at least one environment mismatches. -/
theorem verify_spec (digest : Str → Str) (envs : List VerifyEnv) :
    (verify digest envs).1 = envs.map (verify_env digest) ∧
    ((verify digest envs).2 ≠ 0 ↔ ∃ e ∈ envs, verify_env digest e = false) ∧
    ((verify digest envs).2 = 0 ∨ (verify digest envs).2 = 1) := by
  have hall : ((envs.map (verify_env digest)).all (fun b => b) = true) ↔
      ∀ e ∈ envs, verify_env digest e = true := by
    simp [List.all_eq_true]
  by_cases h : ∀ e ∈ envs, verify_env digest e = true
  · have hb := hall.mpr h
    have h0 : (verify digest envs).2 = 0 := by simp [verify, hb]
    refine ⟨rfl, ?_, Or.inl h0⟩
    rw [h0]
    simp only [ne_eq, not_true_eq_false, false_iff, not_exists, not_and]
    intro e he hf
    rw [h e he] at hf
    exact Bool.noConfusion hf
  · have hb : ((envs.map (verify_env digest)).all (fun b => b)) = false := by
      cases hx : (envs.map (verify_env digest)).all (fun b => b)
      · rfl
      · exact absurd (hall.mp hx) h
    have h1 : (verify digest envs).2 = 1 := by simp [verify, hb]
    refine ⟨rfl, ?_, Or.inr h1⟩
    rw [h1]
    simp only [ne_eq, one_ne_zero, not_false_eq_true, true_iff]
    push_neg at h
    obtain ⟨e, he, hf⟩ := h
    exact ⟨e, he, by simpa using hf⟩

/-! # C5: continuation joining -/

theorem concatenated_nil (parts : List Str) :
    concatenated parts [] = if parts = [] then .ok [] else .error () := rfl

theorem concatenated_cons (parts : List Str) (l : Str) (rest : List Str) :
    concatenated parts (l :: rest) =
      (if endsWithBS (strip l) then concatenated (parts ++ [rstrip (strip l).dropLast]) rest
       else
        match concatenated [] rest with
        | .ok r => .ok (joinSpace (parts ++ [strip l]) :: r)
        | .error e => .error e) := rfl

theorem concatenated_error_aux (lines : List Str) : ∀ parts,
    (concatenated parts lines = .error () ↔
      (∃ l, lines.getLast? = some l ∧ endsWithBS (strip l) = true) ∨
        (lines = [] ∧ parts ≠ [])) := by
  induction lines with
  | nil =>
    intro parts
    rw [concatenated_nil]
    by_cases h : parts = [] <;> simp [h]
  | cons l rest ih =>
    intro parts
    rw [concatenated_cons]
    by_cases h : endsWithBS (strip l) = true
    · rw [if_pos h, ih]
      rcases rest with _ | ⟨l2, rest'⟩
      · simp [h]
      · simp [List.getLast?_cons_cons]
    · rw [if_neg h]
      rcases rest with _ | ⟨l2, rest'⟩
      · simp [h, concatenated_nil]
      · cases hcc : concatenated [] (l2 :: rest') with
        | ok r =>
          simp only [List.getLast?_cons_cons]
          constructor
          · intro habs
            exact Except.noConfusion habs
          · intro hr
            rcases hr with h1 | h1
            · have hx : concatenated [] (l2 :: rest') = .error () :=
                (ih ([] : List Str)).2 (Or.inl h1)
              rw [hcc] at hx
              exact Except.noConfusion hx
            · exact List.noConfusion h1.1
        | error e =>
          obtain ⟨⟩ := e
          rcases (ih ([] : List Str)).1 hcc with h1 | h1
          · simp only [List.getLast?_cons_cons]
            exact ⟨fun _ => Or.inl h1, fun _ => trivial⟩
          · exact absurd h1.1 (by simp)

theorem concatenated_block (b : List Str) : ∀ parts tail r, b ≠ [] →
    (∀ l ∈ b.dropLast, endsWithBS (strip l) = true) →
    endsWithBS (strip (b.getLastD [])) = false →
    concatenated [] tail = .ok r →
    concatenated parts (b ++ tail) =
      .ok (joinSpace (parts ++ ((b.dropLast.map fun l => rstrip (strip l).dropLast) ++
        [strip (b.getLastD [])])) :: r) := by
  induction b with
  | nil => intro _ _ _ h; exact absurd rfl h
  | cons l t ih =>
    intro parts tail r _ hmid hlast htail
    rcases t with _ | ⟨l2, t'⟩
    · have hbs : endsWithBS (strip l) = false := by simpa using hlast
      rw [List.cons_append, List.nil_append, concatenated_cons, if_neg (by simp [hbs]), htail]
      simp
    · have hbs : endsWithBS (strip l) = true := hmid l (by simp)
      have hmid' : ∀ x ∈ (l2 :: t').dropLast, endsWithBS (strip x) = true := by
        intro x hx
        refine hmid x ?_
        rw [List.dropLast_cons_of_ne_nil (by simp)]
        exact List.mem_cons_of_mem l hx
      have hlast' : endsWithBS (strip ((l2 :: t').getLastD [])) = false := by
        simpa using hlast
      have hrec := ih (parts ++ [rstrip (strip l).dropLast]) tail r (by simp) hmid' hlast' htail
      rw [List.cons_append, concatenated_cons, if_pos hbs, hrec]
      have : (l :: l2 :: t').dropLast = l :: (l2 :: t').dropLast :=
        List.dropLast_cons_of_ne_nil (by simp)
      rw [this]
      simp [List.append_assoc]

/-- C5: (1) continuation joining fails with the `MalformedArtifactError`
exactly when the (nonempty) input's final physical line still ends, after
stripping, with the backslash marker; (2) on input that decomposes into
blocks — runs of marker-terminated lines closed by a marker-free line — it
yields one logical line per block: the parts with markers stripped, joined by
single spaces. -/
theorem concatenated_spec :
    (∀ lines : List Str,
      concatenated [] lines = .error () ↔
        ∃ l, lines.getLast? = some l ∧ endsWithBS (strip l) = true) ∧
    (∀ blocks : List (List Str),
      (∀ b ∈ blocks, b ≠ [] ∧ (∀ l ∈ b.dropLast, endsWithBS (strip l) = true) ∧
        endsWithBS (strip (b.getLastD [])) = false) →
      concatenated [] blocks.flatten = .ok (blocks.map blockJoin)) := by
  constructor
  · intro lines
    rw [concatenated_error_aux lines []]
    simp
  · intro blocks
    induction blocks with
    | nil => intro _; simp [concatenated]
    | cons b bs ih =>
      intro hw
      have hb := hw b (by simp)
      have htail := ih fun x hx => hw x (List.mem_cons_of_mem b hx)
      rw [List.flatten_cons]
      have := concatenated_block b [] bs.flatten (bs.map blockJoin) hb.1 hb.2.1 hb.2.2 htail
      rw [this]
      simp [blockJoin]

/-- C5 witness: a concrete two-block artifact joins into two logical lines. -/
theorem concatenated_spec_witness :
    concatenated [] [["x \\".data, "y".data], ["z".data]].flatten =
      .ok ([["x \\".data, "y".data], ["z".data]].map blockJoin) :=
  concatenated_spec.2 [["x \\".data, "y".data], ["z".data]] (by decide)

/-! # C1: `merged_packages` -/

theorem merge_loop_nil (res : List (Str × Str)) (errs : List (Str × Str × Str)) :
    merge_loop [] res errs = (res, errs) := rfl

theorem merge_loop_cons (n v : Str) (rest : List (Str × Str)) (res : List (Str × Str))
    (errs : List (Str × Str × Str)) :
    merge_loop ((n, v) :: rest) res errs =
      (match alookup n res with
       | some v0 =>
          if v0 = v then merge_loop rest res errs
          else merge_loop rest res (if (n, v, v0) ∈ errs then errs else errs ++ [(n, v, v0)])
       | none => merge_loop rest (res ++ [(n, v)]) errs) := rfl

theorem merge_loop_found_eq {n v0 : Str} (v : Str) (rest : List (Str × Str))
    (res : List (Str × Str)) (errs : List (Str × Str × Str))
    (halo : alookup n res = some v0) (hv : v0 = v) :
    merge_loop ((n, v) :: rest) res errs = merge_loop rest res errs := by
  rw [merge_loop_cons, halo]
  exact if_pos hv

theorem merge_loop_conflict_eq {n v0 : Str} (v : Str) (rest : List (Str × Str))
    (res : List (Str × Str)) (errs : List (Str × Str × Str))
    (halo : alookup n res = some v0) (hv : ¬v0 = v) :
    merge_loop ((n, v) :: rest) res errs =
      merge_loop rest res (if (n, v, v0) ∈ errs then errs else errs ++ [(n, v, v0)]) := by
  rw [merge_loop_cons, halo]
  exact if_neg hv

theorem merge_loop_new_eq {n : Str} (v : Str) (rest : List (Str × Str))
    (res : List (Str × Str)) (errs : List (Str × Str × Str))
    (halo : alookup n res = none) :
    merge_loop ((n, v) :: rest) res errs = merge_loop rest (res ++ [(n, v)]) errs := by
  rw [merge_loop_cons, halo]

theorem mem_insertSet {x e : Str × Str × Str} {errs : List (Str × Str × Str)} :
    x ∈ (if e ∈ errs then errs else errs ++ [e]) ↔ x = e ∨ x ∈ errs := by
  by_cases h : e ∈ errs
  · rw [if_pos h]
    constructor
    · exact fun hx => Or.inr hx
    · rintro (rfl | hx)
      · exact h
      · exact hx
  · rw [if_neg h]
    simp only [List.mem_append, List.mem_singleton]
    tauto

theorem alookup_skip_dup {k n v : Str} {res rest : List (Str × Str)} {v0 : Str}
    (halo : alookup n res = some v0) :
    alookup k (res ++ (n, v) :: rest) = alookup k (res ++ rest) := by
  cases hx : alookup k res with
  | some w => rw [alookup_append_of_some hx, alookup_append_of_some hx]
  | none =>
    have hk : ¬n = k := by
      intro hnk
      rw [hnk] at halo
      rw [halo] at hx
      exact Option.noConfusion hx
    rw [alookup_append_of_none hx, alookup_append_of_none hx, alookup_cons, if_neg hk]

theorem merge_loop_result (l : List (Str × Str)) : ∀ res errs, keysNodup res →
    keysNodup (merge_loop l res errs).1 ∧
    ∀ k, alookup k (merge_loop l res errs).1 = alookup k (res ++ l) := by
  induction l with
  | nil =>
    intro res errs h
    rw [merge_loop_nil]
    exact ⟨h, fun k => by rw [List.append_nil]⟩
  | cons p rest ih =>
    obtain ⟨n, v⟩ := p
    intro res errs h
    cases halo : alookup n res with
    | some v0 =>
      by_cases hv : v0 = v
      · rw [merge_loop_found_eq v rest res errs halo hv]
        obtain ⟨h1, h2⟩ := ih res errs h
        exact ⟨h1, fun k => (h2 k).trans (alookup_skip_dup halo).symm⟩
      · rw [merge_loop_conflict_eq v rest res errs halo hv]
        obtain ⟨h1, h2⟩ := ih res _ h
        exact ⟨h1, fun k => (h2 k).trans (alookup_skip_dup halo).symm⟩
    | none =>
      have hmem : n ∉ res.map Prod.fst := alookup_eq_none.1 halo
      have h' : keysNodup (res ++ [(n, v)]) := by
        unfold keysNodup
        rw [List.map_append]
        simp only [List.map_cons, List.map_nil]
        rw [List.nodup_append]
        refine ⟨h, List.nodup_singleton n, ?_⟩
        intro a ha hb
        rw [List.mem_singleton] at hb
        subst hb
        exact hmem ha
      rw [merge_loop_new_eq v rest res errs halo]
      obtain ⟨h1, h2⟩ := ih (res ++ [(n, v)]) errs h'
      refine ⟨h1, fun k => (h2 k).trans ?_⟩
      rw [List.append_assoc]
      rfl

theorem merge_loop_errors (l : List (Str × Str)) : ∀ res errs, keysNodup res →
    ∀ x, x ∈ (merge_loop l res errs).2 ↔
      x ∈ errs ∨ ∃ k v w, x = (k, v, w) ∧ (k, v) ∈ l ∧ alookup k (res ++ l) = some w ∧ v ≠ w := by
  induction l with
  | nil =>
    intro res errs _ x
    rw [merge_loop_nil]
    simp
  | cons p rest ih =>
    obtain ⟨n, v⟩ := p
    intro res errs h x
    cases halo : alookup n res with
    | some v0 =>
      have hlook : ∀ k, alookup k (res ++ (n, v) :: rest) = alookup k (res ++ rest) :=
        fun k => alookup_skip_dup halo
      have hlookn : alookup n (res ++ (n, v) :: rest) = some v0 := by
        rw [hlook n]
        exact alookup_append_of_some halo
      by_cases hv : v0 = v
      · rw [merge_loop_found_eq v rest res errs halo hv]
        rw [ih res errs h x]
        constructor
        · rintro (hx | ⟨k, v', w, rfl, hkm, hkl, hne⟩)
          · exact Or.inl hx
          · exact Or.inr ⟨k, v', w, rfl, List.mem_cons_of_mem _ hkm, (hlook k).symm ▸ hkl, hne⟩
        · rintro (hx | ⟨k, v', w, rfl, hkm, hkl, hne⟩)
          · exact Or.inl hx
          · rcases List.mem_cons.1 hkm with heq | hkm'
            · obtain ⟨rfl, rfl⟩ := Prod.mk.injEq .. ▸ heq
              rw [hlookn] at hkl
              obtain rfl := Option.some.inj hkl
              subst hv
              exact absurd rfl hne
            · exact Or.inr ⟨k, v', w, rfl, hkm', (hlook k) ▸ hkl, hne⟩
      · rw [merge_loop_conflict_eq v rest res errs halo hv]
        rw [ih res _ h x]
        rw [mem_insertSet]
        constructor
        · rintro ((rfl | hx) | ⟨k, v', w, rfl, hkm, hkl, hne⟩)
          · exact Or.inr ⟨n, v, v0, rfl, List.mem_cons_self _ _, hlookn, fun hvv => hv hvv.symm⟩
          · exact Or.inl hx
          · exact Or.inr ⟨k, v', w, rfl, List.mem_cons_of_mem _ hkm, (hlook k).symm ▸ hkl, hne⟩
        · rintro (hx | ⟨k, v', w, rfl, hkm, hkl, hne⟩)
          · exact Or.inl (Or.inr hx)
          · rcases List.mem_cons.1 hkm with heq | hkm'
            · obtain ⟨rfl, rfl⟩ := Prod.mk.injEq .. ▸ heq
              rw [hlookn] at hkl
              obtain rfl := Option.some.inj hkl
              exact Or.inl (Or.inl rfl)
            · exact Or.inr ⟨k, v', w, rfl, hkm', (hlook k) ▸ hkl, hne⟩
    | none =>
      have hmem : n ∉ res.map Prod.fst := alookup_eq_none.1 halo
      have h' : keysNodup (res ++ [(n, v)]) := by
        unfold keysNodup
        rw [List.map_append]
        simp only [List.map_cons, List.map_nil]
        rw [List.nodup_append]
        refine ⟨h, List.nodup_singleton n, ?_⟩
        intro a ha hb
        rw [List.mem_singleton] at hb
        subst hb
        exact hmem ha
      have hassoc : res ++ [(n, v)] ++ rest = res ++ (n, v) :: rest := by
        rw [List.append_assoc]
        rfl
      have hlookn : alookup n (res ++ (n, v) :: rest) = some v := by
        rw [alookup_append_of_none halo, alookup_cons, if_pos rfl]
      rw [merge_loop_new_eq v rest res errs halo]
      rw [ih (res ++ [(n, v)]) errs h' x]
      rw [hassoc]
      constructor
      · rintro (hx | ⟨k, v', w, rfl, hkm, hkl, hne⟩)
        · exact Or.inl hx
        · exact Or.inr ⟨k, v', w, rfl, List.mem_cons_of_mem _ hkm, hkl, hne⟩
      · rintro (hx | ⟨k, v', w, rfl, hkm, hkl, hne⟩)
        · exact Or.inl hx
        · rcases List.mem_cons.1 hkm with heq | hkm'
          · obtain ⟨rfl, rfl⟩ := Prod.mk.injEq .. ▸ heq
            rw [hlookn] at hkl
            obtain rfl := Option.some.inj hkl
            exact absurd rfl hne
          · exact Or.inr ⟨k, v', w, rfl, hkm', hkl, hne⟩

theorem keysNodup_nil {β : Type} : keysNodup ([] : List (Str × β)) := List.nodup_nil

theorem merged_ok_aux (combined : List (Str × Str))
    (hco : ∀ k v1 v2, (k, v1) ∈ combined → (k, v2) ∈ combined → v1 = v2) :
    (merge_loop combined [] []).2 = [] ∧
    ∀ k v, ((k, v) ∈ (merge_loop combined [] []).1 ↔ (k, v) ∈ combined) := by
  constructor
  · rcases hEx : (merge_loop combined [] []).2 with _ | ⟨x, xs⟩
    · rfl
    · exfalso
      have hx : x ∈ (merge_loop combined [] []).2 := by
        rw [hEx]
        exact List.mem_cons_self _ _
      rw [merge_loop_errors combined [] [] keysNodup_nil x] at hx
      rcases hx with h0 | ⟨k, v, w, rfl, hkm, hkl, hne⟩
      · exact absurd h0 (List.not_mem_nil x)
      · rw [List.nil_append] at hkl
        exact hne (hco k v w hkm (alookup_some_mem hkl))
  · intro k v
    obtain ⟨hnd, hlk⟩ := merge_loop_result combined [] [] keysNodup_nil
    rw [alookup_mem_iff hnd, hlk k, List.nil_append]
    constructor
    · exact fun h => alookup_some_mem h
    · intro hm
      obtain ⟨w, hw⟩ := mem_alookup_isSome hm
      rw [hw]
      rw [hco k w v (alookup_some_mem hw) hm]

theorem merged_err_aux (combined : List (Str × Str)) (k v1 v2 : Str)
    (h1 : (k, v1) ∈ combined) (h2 : (k, v2) ∈ combined) (hne : v1 ≠ v2) :
    ∃ a b, (k, a, b) ∈ (merge_loop combined [] []).2 ∧ a ≠ b ∧
      (k, a) ∈ combined ∧ (k, b) ∈ combined := by
  obtain ⟨w, hw⟩ := mem_alookup_isSome h1
  have hwm : (k, w) ∈ combined := alookup_some_mem hw
  have hwl : alookup k ([] ++ combined) = some w := by rw [List.nil_append]; exact hw
  by_cases hv1 : v1 = w
  · have hv2 : v2 ≠ w := fun h => hne (hv1.trans h.symm)
    refine ⟨v2, w, ?_, hv2, h2, hwm⟩
    rw [merge_loop_errors combined [] [] keysNodup_nil]
    exact Or.inr ⟨k, v2, w, rfl, h2, hwl, hv2⟩
  · refine ⟨v1, w, ?_, hv1, h1, hwm⟩
    rw [merge_loop_errors combined [] [] keysNodup_nil]
    exact Or.inr ⟨k, v1, w, rfl, h1, hwl, hv1⟩

theorem merged_err_sound (combined : List (Str × Str)) (x : Str × Str × Str)
    (hx : x ∈ (merge_loop combined [] []).2) :
    ∃ k a b, x = (k, a, b) ∧ a ≠ b ∧ (k, a) ∈ combined ∧ (k, b) ∈ combined := by
  rw [merge_loop_errors combined [] [] keysNodup_nil] at hx
  rcases hx with h0 | ⟨k, v, w, rfl, hkm, hkl, hne⟩
  · exact absurd h0 (List.not_mem_nil x)
  · rw [List.nil_append] at hkl
    exact ⟨k, v, w, rfl, hne, hkm, alookup_some_mem hkl⟩

/-- C1: `merged_packages` over tables with pairwise disjoint package names
returns their disjoint union; over tables that agree on every shared package
name returns the map of agreed values; and as soon as one shared package name
carries two different versions it raises the `VersionConflictError`, its
report containing a genuine conflicting (package, version, version) pair for
every conflicted package — no version is ever picked silently. -/
theorem merged_packages_spec (env_packages : String → List (Str × Str)) (names : List String)
    (hnd : ∀ n ∈ names, keysNodup (env_packages n)) :
    ((∀ n1 ∈ names, ∀ n2 ∈ names, ∀ k v1 v2,
        (k, v1) ∈ env_packages n1 → (k, v2) ∈ env_packages n2 → n1 = n2) →
      ∃ r, merged_packages env_packages names = .ok r ∧
        ∀ k v, ((k, v) ∈ r ↔ ∃ n ∈ names, (k, v) ∈ env_packages n)) ∧
    ((∀ n1 ∈ names, ∀ n2 ∈ names, ∀ k v1 v2,
        (k, v1) ∈ env_packages n1 → (k, v2) ∈ env_packages n2 → v1 = v2) →
      ∃ r, merged_packages env_packages names = .ok r ∧
        ∀ k v, ((k, v) ∈ r ↔ ∃ n ∈ names, (k, v) ∈ env_packages n)) ∧
    ((∃ k, ∃ n1 ∈ names, ∃ n2 ∈ names, ∃ v1 v2,
        (k, v1) ∈ env_packages n1 ∧ (k, v2) ∈ env_packages n2 ∧ v1 ≠ v2) →
      ∃ errs, merged_packages env_packages names = .error errs ∧
        (∀ k, (∃ n1 ∈ names, ∃ n2 ∈ names, ∃ v1 v2,
            (k, v1) ∈ env_packages n1 ∧ (k, v2) ∈ env_packages n2 ∧ v1 ≠ v2) →
          ∃ a b, (k, a, b) ∈ errs ∧ a ≠ b ∧
            (∃ n ∈ names, (k, a) ∈ env_packages n) ∧
            (∃ n ∈ names, (k, b) ∈ env_packages n)) ∧
        (∀ k a b, (k, a, b) ∈ errs → a ≠ b ∧
          (∃ n ∈ names, (k, a) ∈ env_packages n) ∧
          (∃ n ∈ names, (k, b) ∈ env_packages n))) := by
  have hmemc : ∀ x : Str × Str,
      x ∈ List.insertionSort pairLe (names.flatMap fun n => env_packages n) ↔
        ∃ n ∈ names, x ∈ env_packages n := by
    intro x
    rw [(List.perm_insertionSort pairLe (names.flatMap fun n => env_packages n)).mem_iff]
    exact List.mem_flatMap
  have hunf : merged_packages env_packages names =
      (if (merge_loop (List.insertionSort pairLe (names.flatMap fun n => env_packages n))
            [] []).2 = []
       then .ok (merge_loop (List.insertionSort pairLe
          (names.flatMap fun n => env_packages n)) [] []).1
       else .error (List.insertionSort tripLe (merge_loop (List.insertionSort pairLe
          (names.flatMap fun n => env_packages n)) [] []).2)) := rfl
  have hOk : (∀ k v1 v2,
      (k, v1) ∈ List.insertionSort pairLe (names.flatMap fun n => env_packages n) →
      (k, v2) ∈ List.insertionSort pairLe (names.flatMap fun n => env_packages n) → v1 = v2) →
      ∃ r, merged_packages env_packages names = .ok r ∧
        ∀ k v, ((k, v) ∈ r ↔ ∃ n ∈ names, (k, v) ∈ env_packages n) := by
    intro hco
    obtain ⟨hE, hmem⟩ := merged_ok_aux _ hco
    refine ⟨_, by rw [hunf, if_pos hE], ?_⟩
    intro k v
    rw [hmem k v, hmemc]
  refine ⟨?_, ?_, ?_⟩
  · intro hdisj
    refine hOk ?_
    intro k v1 v2 h1 h2
    rw [hmemc] at h1 h2
    obtain ⟨n1, hn1, hm1⟩ := h1
    obtain ⟨n2, hn2, hm2⟩ := h2
    obtain rfl := hdisj n1 hn1 n2 hn2 k v1 v2 hm1 hm2
    exact keysNodup_mem_unique (hnd n1 hn1) hm1 hm2
  · intro hagree
    refine hOk ?_
    intro k v1 v2 h1 h2
    rw [hmemc] at h1 h2
    obtain ⟨n1, hn1, hm1⟩ := h1
    obtain ⟨n2, hn2, hm2⟩ := h2
    exact hagree n1 hn1 n2 hn2 k v1 v2 hm1 hm2
  · rintro ⟨k0, n1, hn1, n2, hn2, v1, v2, hm1, hm2, hne⟩
    have h1c : (k0, v1) ∈ List.insertionSort pairLe (names.flatMap fun n => env_packages n) :=
      (hmemc _).2 ⟨n1, hn1, hm1⟩
    have h2c : (k0, v2) ∈ List.insertionSort pairLe (names.flatMap fun n => env_packages n) :=
      (hmemc _).2 ⟨n2, hn2, hm2⟩
    obtain ⟨a, b, habm, habne, ham, hbm⟩ := merged_err_aux _ k0 v1 v2 h1c h2c hne
    have hEne : (merge_loop (List.insertionSort pairLe
        (names.flatMap fun n => env_packages n)) [] []).2 ≠ [] :=
      List.ne_nil_of_mem habm
    refine ⟨_, by rw [hunf, if_neg hEne], ?_, ?_⟩
    · rintro k ⟨m1, hmm1, m2, hmm2, w1, w2, hw1, hw2, hwne⟩
      obtain ⟨a', b', habm', habne', ham', hbm'⟩ :=
        merged_err_aux _ k w1 w2 ((hmemc _).2 ⟨m1, hmm1, hw1⟩) ((hmemc _).2 ⟨m2, hmm2, hw2⟩) hwne
      refine ⟨a', b', ?_, habne', (hmemc _).1 ham', (hmemc _).1 hbm'⟩
      rw [(List.perm_insertionSort tripLe _).mem_iff]
      exact habm'
    · intro k a' b' hab
      rw [(List.perm_insertionSort tripLe _).mem_iff] at hab
      obtain ⟨k', a'', b'', heq, hne'', ham'', hbm''⟩ := merged_err_sound _ _ hab
      obtain ⟨rfl, rfl, rfl⟩ := Prod.mk.injEq .. ▸ heq
      exact ⟨hne'', (hmemc _).1 ham'', (hmemc _).1 hbm''⟩

/-- C1 witness: two concrete tables disagreeing on package `y` make the merge
fail with a fully reported conflict list. -/
theorem merged_packages_spec_witness :
    ∃ errs, merged_packages
        (fun n => if n = "a" then [("x".data, "1".data), ("y".data, "2".data)]
          else [("y".data, "5".data), ("z".data, "3".data)]) ["a", "b"] = .error errs ∧
      (∀ k, (∃ n1 ∈ ["a", "b"], ∃ n2 ∈ ["a", "b"], ∃ v1 v2,
          (k, v1) ∈ (fun n => if n = "a" then [("x".data, "1".data), ("y".data, "2".data)]
            else [("y".data, "5".data), ("z".data, "3".data)]) n1 ∧
          (k, v2) ∈ (fun n => if n = "a" then [("x".data, "1".data), ("y".data, "2".data)]
            else [("y".data, "5".data), ("z".data, "3".data)]) n2 ∧ v1 ≠ v2) →
        ∃ a b, (k, a, b) ∈ errs ∧ a ≠ b ∧
          (∃ n ∈ ["a", "b"], (k, a) ∈
            (fun n => if n = "a" then [("x".data, "1".data), ("y".data, "2".data)]
              else [("y".data, "5".data), ("z".data, "3".data)]) n) ∧
          (∃ n ∈ ["a", "b"], (k, b) ∈
            (fun n => if n = "a" then [("x".data, "1".data), ("y".data, "2".data)]
              else [("y".data, "5".data), ("z".data, "3".data)]) n)) ∧
      (∀ k a b, (k, a, b) ∈ errs → a ≠ b ∧
        (∃ n ∈ ["a", "b"], (k, a) ∈
          (fun n => if n = "a" then [("x".data, "1".data), ("y".data, "2".data)]
            else [("y".data, "5".data), ("z".data, "3".data)]) n) ∧
        (∃ n ∈ ["a", "b"], (k, b) ∈
          (fun n => if n = "a" then [("x".data, "1".data), ("y".data, "2".data)]
            else [("y".data, "5".data), ("z".data, "3".data)]) n)) :=
  (merged_packages_spec _ ["a", "b"] (by decide)).2.2
    ⟨"y".data, "a", by decide, "b", by decide, "2".data, "5".data, by decide, by decide, by decide⟩

/-! # Candidate-list machinery for the backtracking parsers -/

theorem cdown_succ (n : Nat) : cdown (n + 1) = (n + 1) :: cdown n := rfl

theorem mem_cdown {j n : Nat} : j ∈ cdown n ↔ 1 ≤ j ∧ j ≤ n := by
  induction n with
  | zero =>
    simp only [cdown, List.not_mem_nil, false_iff]
    omega
  | succ m ih =>
    rw [cdown_succ]
    simp only [List.mem_cons, ih]
    omega

theorem cdown_pairwise (n : Nat) : (cdown n).Pairwise (fun a b => b < a) := by
  induction n with
  | zero => exact List.Pairwise.nil
  | succ m ih =>
    rw [cdown_succ]
    refine List.Pairwise.cons ?_ ih
    intro j hj
    exact Nat.lt_succ_of_le (mem_cdown.1 hj).2

theorem cdown_split {i n : Nat} (h1 : 1 ≤ i) (h2 : i ≤ n) :
    ∃ l1, cdown n = l1 ++ i :: cdown (i - 1) ∧ ∀ j ∈ l1, i < j := by
  induction n with
  | zero => omega
  | succ m ih =>
    by_cases hi : i = m + 1
    · subst hi
      exact ⟨[], by rw [cdown_succ]; rfl, fun j hj => absurd hj (List.not_mem_nil j)⟩
    · have h2' : i ≤ m := by omega
      obtain ⟨l1, hl, hgt⟩ := ih h2'
      refine ⟨(m + 1) :: l1, ?_, ?_⟩
      · rw [cdown_succ, hl]
        rfl
      · intro j hj
        rcases List.mem_cons.1 hj with rfl | hj'
        · omega
        · exact hgt j hj'

theorem findSome?_first_some {α β : Type} {f : α → Option β} {l1 l2 : List α} {a : α} {b : β}
    (hfail : ∀ x ∈ l1, f x = none) (hs : f a = some b) :
    (l1 ++ a :: l2).findSome? f = some b := by
  induction l1 with
  | nil =>
    rw [List.nil_append, List.findSome?_cons, hs]
  | cons x t ih =>
    rw [List.cons_append, List.findSome?_cons, hfail x (List.mem_cons_self _ _)]
    exact ih fun y hy => hfail y (List.mem_cons_of_mem _ hy)

theorem findSome?_some_split {α β : Type} {f : α → Option β} {l : List α} {b : β}
    (h : l.findSome? f = some b) :
    ∃ l1 a l2, l = l1 ++ a :: l2 ∧ f a = some b ∧ ∀ x ∈ l1, f x = none := by
  induction l with
  | nil => exact Option.noConfusion h
  | cons x t ih =>
    cases hx : f x with
    | some c =>
      rw [List.findSome?_cons, hx] at h
      obtain rfl := Option.some.inj h
      exact ⟨[], x, t, rfl, hx, by simp⟩
    | none =>
      rw [List.findSome?_cons, hx] at h
      obtain ⟨l1, a, l2, hl, hs, hf⟩ := ih h
      refine ⟨x :: l1, a, l2, by rw [hl]; rfl, hs, ?_⟩
      intro y hy
      rcases List.mem_cons.1 hy with rfl | hy'
      · exact hx
      · exact hf y hy'

theorem findSome?_cdown_eq {β : Type} {f : Nat → Option β} {n i : Nat} {b : β}
    (h1 : 1 ≤ i) (h2 : i ≤ n) (hs : f i = some b)
    (hfail : ∀ j, i < j → j ≤ n → f j = none) :
    (cdown n).findSome? f = some b := by
  obtain ⟨l1, hl, hgt⟩ := cdown_split h1 h2
  rw [hl]
  refine findSome?_first_some ?_ hs
  intro x hx
  have hxn : x ∈ cdown n := by
    rw [hl]
    exact List.mem_append_left _ hx
  exact hfail x (hgt x hx) (mem_cdown.1 hxn).2

theorem findSome?_cdown_structure {β : Type} {f : Nat → Option β} {n : Nat} {b : β}
    (h : (cdown n).findSome? f = some b) :
    ∃ i, 1 ≤ i ∧ i ≤ n ∧ f i = some b ∧ ∀ j, i < j → j ≤ n → f j = none := by
  obtain ⟨l1, a, l2, hl, hs, hf⟩ := findSome?_some_split h
  have ham : a ∈ cdown n := by
    rw [hl]
    exact List.mem_append_right _ (List.mem_cons_self _ _)
  obtain ⟨ha1, ha2⟩ := mem_cdown.1 ham
  refine ⟨a, ha1, ha2, hs, ?_⟩
  intro j hj1 hj2
  have hjm : j ∈ cdown n := mem_cdown.2 ⟨by omega, hj2⟩
  rw [hl] at hjm
  rcases List.mem_append.1 hjm with hj | hj
  · exact hf j hj
  · rcases List.mem_cons.1 hj with rfl | hj'
    · omega
    · exfalso
      have hp := cdown_pairwise n
      rw [hl] at hp
      have hlt : j < a := List.rel_of_pairwise_cons (List.pairwise_append.1 hp).2.1 hj'
      omega

theorem findSome?_cdown_filter_eq {β : Type} {f : Nat → Option β} {P : Nat → Bool} {n i : Nat}
    {b : β} (h1 : 1 ≤ i) (h2 : i ≤ n) (hP : P i = true) (hs : f i = some b)
    (hfail : ∀ j, i < j → j ≤ n → P j = true → f j = none) :
    ((cdown n).filter P).findSome? f = some b := by
  obtain ⟨l1, hl, hgt⟩ := cdown_split h1 h2
  rw [hl, List.filter_append, List.filter_cons_of_pos hP]
  refine findSome?_first_some ?_ hs
  intro x hx
  obtain ⟨hx1, hx2⟩ := List.mem_filter.1 hx
  have hxn : x ∈ cdown n := by
    rw [hl]
    exact List.mem_append_left _ hx1
  exact hfail x (hgt x hx1) (mem_cdown.1 hxn).2 hx2

theorem findSome?_cdown_filter_structure {β : Type} {f : Nat → Option β} {P : Nat → Bool}
    {n : Nat} {b : β} (h : ((cdown n).filter P).findSome? f = some b) :
    ∃ i, 1 ≤ i ∧ i ≤ n ∧ P i = true ∧ f i = some b ∧
      ∀ j, i < j → j ≤ n → P j = true → f j = none := by
  obtain ⟨l1, a, l2, hl, hs, hf⟩ := findSome?_some_split h
  have ham : a ∈ (cdown n).filter P := by
    rw [hl]
    exact List.mem_append_right _ (List.mem_cons_self _ _)
  obtain ⟨ham', haP⟩ := List.mem_filter.1 ham
  obtain ⟨ha1, ha2⟩ := mem_cdown.1 ham'
  refine ⟨a, ha1, ha2, haP, hs, ?_⟩
  intro j hj1 hj2 hjP
  have hjm : j ∈ (cdown n).filter P :=
    List.mem_filter.2 ⟨mem_cdown.2 ⟨by omega, hj2⟩, hjP⟩
  rw [hl] at hjm
  rcases List.mem_append.1 hjm with hj | hj
  · exact hf j hj
  · rcases List.mem_cons.1 hj with rfl | hj'
    · omega
    · exfalso
      have hp := (cdown_pairwise n).filter P
      rw [hl] at hp
      have hlt : j < a := List.rel_of_pairwise_cons (List.pairwise_append.1 hp).2.1 hj'
      omega

/-! # Character-run lemmas -/

theorem dropWhile_eq_self_of_all {p : Char → Bool} {s : Str} (h : ∀ c ∈ s, p c = false) :
    s.dropWhile p = s := by
  cases s with
  | nil => rfl
  | cons c t =>
    rw [List.dropWhile_cons, h c (List.mem_cons_self _ _)]
    rfl

theorem strip_of_nonspace {s : Str} (h : ∀ c ∈ s, nonspace c = true) : strip s = s := by
  have h' : ∀ c ∈ s, pySpace c = false := by
    intro c hc
    have := h c hc
    unfold nonspace at this
    cases hx : pySpace c
    · rfl
    · rw [hx] at this
      exact Bool.noConfusion this
  unfold strip rstrip lstrip
  rw [dropWhile_eq_self_of_all (fun c hc => h' c (List.mem_reverse.1 hc)), List.reverse_reverse,
    dropWhile_eq_self_of_all h']

theorem take_eq_take_takeWhile (p : Char → Bool) :
    ∀ (s : Str) (k : Nat), k ≤ (s.takeWhile p).length → s.take k = (s.takeWhile p).take k := by
  intro s
  induction s with
  | nil => intro k _; rfl
  | cons c t ih =>
    intro k hk
    cases hp : p c
    · rw [List.takeWhile_cons_of_neg (by rw [hp]; exact Bool.noConfusion)] at hk
      simp only [List.length_nil] at hk
      obtain rfl := Nat.le_zero.1 hk
      rfl
    · rw [List.takeWhile_cons_of_pos hp] at hk
      rw [List.takeWhile_cons_of_pos hp]
      cases k with
      | zero => rfl
      | succ m =>
        simp only [List.length_cons, Nat.succ_le_succ_iff] at hk
        rw [List.take_succ_cons, List.take_succ_cons, ih m hk]

theorem mem_take_of_le_takeWhile {p : Char → Bool} {s : Str} {k : Nat}
    (hk : k ≤ (s.takeWhile p).length) : ∀ c ∈ s.take k, p c = true := by
  intro c hc
  rw [take_eq_take_takeWhile p s k hk] at hc
  exact List.mem_takeWhile_imp (List.take_subset _ _ hc)

theorem takeWhile_length_le {p : Char → Bool} (s : Str) : (s.takeWhile p).length ≤ s.length :=
  (List.takeWhile_prefix p).length_le

theorem take_ne_nil_of_le_takeWhile {p : Char → Bool} {s : Str} {k : Nat} (h1 : 1 ≤ k)
    (hk : k ≤ (s.takeWhile p).length) : s.take k ≠ [] := by
  have hlen : (s.take k).length = k := by
    rw [List.length_take]
    exact Nat.min_eq_left (hk.trans (takeWhile_length_le s))
  intro hnil
  rw [hnil] at hlen
  simp at hlen
  omega

/-! # Structure of the parsed grammars -/

theorem parseVHC_structure {s v h c : Str} (hp : parseVHC s = some (v, h, c)) :
    ∃ k, 1 ≤ k ∧ k ≤ (s.takeWhile nonspace).length ∧ v = s.take k ∧
      afterVersion (s.drop k) = some (h, c) ∧
      ∀ j, k < j → j ≤ (s.takeWhile nonspace).length → afterVersion (s.drop j) = none := by
  unfold parseVHC at hp
  obtain ⟨k, h1, h2, hs, hfail⟩ := findSome?_cdown_structure hp
  obtain ⟨hc, hav, heq⟩ := Option.map_eq_some'.1 hs
  injection heq with e1 e23
  injection e23 with e2 e3
  refine ⟨k, h1, h2, e1.symm, ?_, ?_⟩
  · rw [hav, ← e2, ← e3]
  · intro j hj1 hj2
    exact Option.map_eq_none'.1 (hfail j hj1 hj2)

theorem parseVHC_eq_some {s : Str} {k : Nat} {hc : Str × Str} (h1 : 1 ≤ k)
    (h2 : k ≤ (s.takeWhile nonspace).length) (hav : afterVersion (s.drop k) = some hc)
    (hfail : ∀ j, k < j → j ≤ (s.takeWhile nonspace).length → afterVersion (s.drop j) = none) :
    parseVHC s = some (s.take k, hc.1, hc.2) := by
  unfold parseVHC
  refine findSome?_cdown_eq h1 h2 ?_ ?_
  · rw [hav]
    rfl
  · intro j hj1 hj2
    rw [hfail j hj1 hj2]
    rfl

theorem parseVHC_eq_none {s : Str}
    (hfail : ∀ j, 1 ≤ j → j ≤ (s.takeWhile nonspace).length → afterVersion (s.drop j) = none) :
    parseVHC s = none := by
  unfold parseVHC
  rw [List.findSome?_eq_none_iff]
  intro j hj
  obtain ⟨hj1, hj2⟩ := mem_cdown.1 hj
  rw [hfail j hj1 hj2]
  rfl

theorem re_dependency_structure {s : Str} {d : Dep} (h : re_dependency s = some d) :
    ∃ i v hs c, 1 ≤ i ∧ i ≤ (s.takeWhile nonspace).length ∧
      ("==".data).isPrefixOf (s.drop i) = true ∧
      parseVHC (s.drop (i + 2)) = some (v, hs, c) ∧
      d = { package := s.take i, version := strip v, hashes := strip hs,
            comment := strip c, is_vcs := false, line := s } ∧
      ∀ j, i < j → j ≤ (s.takeWhile nonspace).length →
        ("==".data).isPrefixOf (s.drop j) = true → parseVHC (s.drop (j + 2)) = none := by
  unfold re_dependency pkgCandidates at h
  obtain ⟨i, h1, h2, hP, hs', hfail⟩ := findSome?_cdown_filter_structure h
  obtain ⟨vhc, hpv, heq⟩ := Option.map_eq_some'.1 hs'
  obtain ⟨v, hh, c⟩ := vhc
  subst heq
  refine ⟨i, v, hh, c, h1, h2, hP, hpv, rfl, ?_⟩
  intro j hj1 hj2 hjP
  exact Option.map_eq_none'.1 (hfail j hj1 hj2 hjP)

theorem re_dependency_eq_some {s : Str} {i : Nat} {v hs c : Str} (h1 : 1 ≤ i)
    (h2 : i ≤ (s.takeWhile nonspace).length) (hP : ("==".data).isPrefixOf (s.drop i) = true)
    (hpv : parseVHC (s.drop (i + 2)) = some (v, hs, c))
    (hfail : ∀ j, i < j → j ≤ (s.takeWhile nonspace).length →
      ("==".data).isPrefixOf (s.drop j) = true → parseVHC (s.drop (j + 2)) = none) :
    re_dependency s = some
      { package := s.take i, version := strip v, hashes := strip hs,
        comment := strip c, is_vcs := false, line := s } := by
  unfold re_dependency pkgCandidates
  refine findSome?_cdown_filter_eq h1 h2 hP ?_ ?_
  · rw [hpv]
    rfl
  · intro j hj1 hj2 hjP
    rw [hfail j hj1 hj2 hjP]
    rfl

theorem re_dependency_fields {s : Str} {d : Dep} (h : re_dependency s = some d) :
    d.is_vcs = false ∧ d.line = s ∧
    d.package ≠ [] ∧ (∀ ch ∈ d.package, nonspace ch = true) ∧
    d.version ≠ [] ∧ (∀ ch ∈ d.version, nonspace ch = true) := by
  obtain ⟨i, v, hs, c, h1, h2, hP, hpv, rfl, hfail⟩ := re_dependency_structure h
  obtain ⟨k, hk1, hk2, rfl, hav, hvfail⟩ := parseVHC_structure hpv
  have hvns : ∀ ch ∈ (s.drop (i + 2)).take k, nonspace ch = true :=
    mem_take_of_le_takeWhile hk2
  have hvst : strip ((s.drop (i + 2)).take k) = (s.drop (i + 2)).take k :=
    strip_of_nonspace hvns
  refine ⟨rfl, rfl, take_ne_nil_of_le_takeWhile h1 h2, mem_take_of_le_takeWhile h2, ?_, ?_⟩
  · simp only
    rw [hvst]
    exact take_ne_nil_of_le_takeWhile hk1 hk2
  · simp only
    rw [hvst]
    exact hvns

theorem re_vcs_after_fields {s line : Str} {d : Dep} (h : re_vcs_after s line = some d) :
    d.version = [] ∧ d.hashes = [] ∧ d.is_vcs = true ∧ d.line = line := by
  unfold re_vcs_after at h
  obtain ⟨j, hj, hjf⟩ := List.exists_of_findSome?_eq_some h
  by_cases hc : 6 ≤ j ∧ ("#egg=".data).isPrefixOf ((s.dropWhile pySpace).drop (j - 5)) = true
  · rw [if_pos hc] at hjf
    obtain ⟨p, hp, hpf⟩ := List.exists_of_findSome?_eq_some hjf
    obtain ⟨q, hq, hqf⟩ := List.exists_of_findSome?_eq_some hpf
    obtain ⟨c, hc1, hc2⟩ := Option.map_eq_some'.1 hqf
    subst hc2
    exact ⟨rfl, rfl, rfl, rfl⟩
  · rw [if_neg hc] at hjf
    exact Option.noConfusion hjf

theorem re_vcs_fields {s : Str} {d : Dep} (h : re_vcs s = some d) :
    d.version = [] ∧ d.hashes = [] ∧ d.is_vcs = true ∧ d.line = s := by
  unfold re_vcs at h
  cases hx : (if ("-e".data).isPrefixOf s then re_vcs_after (s.drop 2) s else none) with
  | some d' =>
    rw [hx] at h
    obtain rfl := Option.some.inj h
    by_cases hp : ("-e".data).isPrefixOf s = true
    · rw [if_pos hp] at hx
      exact re_vcs_after_fields hx
    · rw [if_neg hp] at hx
      exact Option.noConfusion hx
  | none =>
    rw [hx] at h
    exact re_vcs_after_fields h

theorem parseDep_cases {s : Str} {d : Dep} (h : parseDep s = some d) :
    re_dependency s = some d ∨ (re_dependency s = none ∧ re_vcs s = some d) := by
  unfold parseDep at h
  cases hx : re_dependency s with
  | some d' =>
    rw [hx] at h
    exact Or.inl (congrArg some (Option.some.inj h))
  | none =>
    rw [hx] at h
    exact Or.inr ⟨rfl, h⟩

theorem parseDep_pinned {s : Str} {d : Dep} (h : parseDep s = some d) (hnv : d.is_vcs = false) :
    re_dependency s = some d := by
  rcases parseDep_cases h with h' | ⟨_, h'⟩
  · exact h'
  · have := (re_vcs_fields h').2.2.1
    rw [hnv] at this
    exact Bool.noConfusion this

theorem parseDep_vcs {s : Str} {d : Dep} (h : parseDep s = some d) (hv : d.is_vcs = true) :
    re_dependency s = none ∧ re_vcs s = some d ∧ d.version = [] ∧ d.hashes = [] := by
  rcases parseDep_cases h with h' | ⟨h0, h'⟩
  · have := (re_dependency_fields h').1
    rw [hv] at this
    exact Bool.noConfusion this
  · obtain ⟨hv1, hv2, _, _⟩ := re_vcs_fields h'
    exact ⟨h0, h', hv1, hv2⟩

/-! # `fix_pin` case equations -/

theorem fix_pin_invalid {compat : Str → Bool} {env : Env} {line : Str}
    (h : parseDep line = none) :
    fix_pin compat env line = .ok (some (strip line), env) := by
  simp only [fix_pin, h]

theorem fix_pin_ignored_sentinel {compat : Str → Bool} {env : Env} {line : Str} {d : Dep}
    (h : parseDep line = some d) (hig : alookup d.package env.ignore = some none) :
    fix_pin compat env line = .ok (none, env) := by
  simp only [fix_pin, h, hig]

theorem fix_pin_ignored_version {compat : Str → Bool} {env : Env} {line : Str} {d : Dep}
    {iv : Str} (h : parseDep line = some d)
    (hig : alookup d.package env.ignore = some (some iv)) :
    fix_pin compat env line =
      if d.version ≠ [] ∧ d.version ≠ iv then .error (d.package, d.version, iv)
      else .ok (none, env) := by
  simp only [fix_pin, h, hig]

theorem fix_pin_not_ignored {compat : Str → Bool} {env : Env} {line : Str} {d : Dep}
    (h : parseDep line = some d) (hig : alookup d.package env.ignore = none) :
    fix_pin compat env line =
      .ok (some ((if env.forbid_post || compat d.package
          then { d with version := drop_post d.version } else d).serialize compat),
        { env with packages := aset d.package d.version env.packages }) := by
  simp only [fix_pin, h, hig]

/-! # C3: the ignore-set policy of `fix_pin` on pinned lines -/

/-- C3: a valid pinned line whose package is in the ignore table is dropped
(nothing emitted, the packages table untouched); if the recorded ignored
version differs from the line's version the `VersionConflictError` is raised
instead, unless the recorded version is the `None` sentinel, which disables
conflict detection entirely. -/
theorem fix_pin_ignored_spec (compat : Str → Bool) (env : Env) (line : Str) (d : Dep)
    (iv : Option Str) (hp : parseDep line = some d) (hnv : d.is_vcs = false)
    (hig : alookup d.package env.ignore = some iv) :
    (iv = none → fix_pin compat env line = .ok (none, env)) ∧
    (∀ v0, iv = some v0 → d.version = v0 → fix_pin compat env line = .ok (none, env)) ∧
    (∀ v0, iv = some v0 → d.version ≠ v0 →
      fix_pin compat env line = .error (d.package, d.version, v0)) := by
  refine ⟨?_, ?_, ?_⟩
  · rintro rfl
    exact fix_pin_ignored_sentinel hp hig
  · rintro v0 rfl rfl
    rw [fix_pin_ignored_version hp hig]
    rw [if_neg]
    intro hcon
    exact hcon.2 rfl
  · rintro v0 rfl hne
    rw [fix_pin_ignored_version hp hig]
    rw [if_pos]
    exact ⟨(re_dependency_fields (parseDep_pinned hp hnv)).2.2.2.2.1, hne⟩

/-- C3 witness: the pinned line `a==1` against an ignore entry `a ↦ 2` raises
the conflict error with the reported triple. -/
theorem fix_pin_ignored_spec_witness :
    fix_pin (fun _ => false) ⟨[("a".data, some "2".data)], false, []⟩ ("a==1".data) =
      .error ("a".data, "1".data, "2".data) :=
  (fix_pin_ignored_spec (fun _ => false) ⟨[("a".data, some "2".data)], false, []⟩
      ("a==1".data) ⟨"a".data, "1".data, [], [], false, "a==1".data⟩ (some "2".data)
      (by decide) rfl (by decide)).2.2 "2".data rfl (by decide)

/-! # C9 (corrected): pass-through of unrecognized lines -/

/-- C9 counterexample: the logical line `"a "` (producible by continuation
joining, e.g. from `"a \"` followed by a blank line) matches neither grammar,
yet `fix_pin` returns it *stripped* — `"a"` — not unchanged. -/
theorem fix_pin_passthrough_cex :
    concatenated [] ["a \\".data, "".data] = .ok ["a ".data] ∧
    parseDep "a ".data = none ∧
    fix_pin (fun _ => false) ⟨[], false, []⟩ "a ".data =
      .ok (some "a".data, ⟨[], false, []⟩) ∧
    some "a".data ≠ some "a ".data := by
  refine ⟨by decide, by decide, ?_, by decide⟩
  rw [fix_pin_invalid (by decide)]
  decide

/-- C9 (amended): a line matching neither grammar is passed through *stripped
of surrounding whitespace* (hence unchanged whenever it has none, as is the
case for every single-part logical line), records nothing, and raises no
error. -/
theorem fix_pin_passthrough_amended (compat : Str → Bool) (env : Env) (line : Str)
    (h : parseDep line = none) :
    fix_pin compat env line = .ok (some (strip line), env) ∧
    (strip line = line → fix_pin compat env line = .ok (some line, env)) := by
  refine ⟨fix_pin_invalid h, ?_⟩
  intro hs
  rw [fix_pin_invalid h, hs]

/-- C9 witness: a comment line passes through unchanged. -/
theorem fix_pin_passthrough_amended_witness :
    fix_pin (fun _ => false) ⟨[], false, []⟩ "# via pip".data =
      .ok (some "# via pip".data, ⟨[], false, []⟩) :=
  (fix_pin_passthrough_amended (fun _ => false) ⟨[], false, []⟩ "# via pip".data
    (by decide)).2 (by decide)

/-! # C10: source-controlled lines -/

/-- C10: a line parsed by the source-controlled grammar carries an empty
version and no hashes; `fix_pin` drops it without any conflict check when its
package is ignored (whatever version the ignore table records), and otherwise
records the package with the empty version string. -/
theorem vcs_line_spec (compat : Str → Bool) (env : Env) (line : Str) (d : Dep)
    (hp : parseDep line = some d) (hv : d.is_vcs = true) :
    d.version = [] ∧ d.hashes = [] ∧
    (∀ iv, alookup d.package env.ignore = some iv → fix_pin compat env line = .ok (none, env)) ∧
    (alookup d.package env.ignore = none →
      ∃ out, fix_pin compat env line =
        .ok (some out, { env with packages := aset d.package [] env.packages })) := by
  obtain ⟨_, _, hver, hhash⟩ := parseDep_vcs hp hv
  refine ⟨hver, hhash, ?_, ?_⟩
  · rintro (_ | iv) hig
    · exact fix_pin_ignored_sentinel hp hig
    · rw [fix_pin_ignored_version hp hig]
      rw [if_neg]
      intro hcon
      exact hcon.1 hver
  · intro hig
    refine ⟨(if env.forbid_post || compat d.package
      then { d with version := drop_post d.version } else d).serialize compat, ?_⟩
    rw [fix_pin_not_ignored hp hig, hver]

/-! # C7: `recursive_refs` -/

theorem refs_by_name_cases {envs : List Conf} {a : String} {rs : List String}
    (h : refs_by_name envs a = some rs) :
    ∃ conf ∈ envs, conf.name = a ∧ conf.refs = rs := by
  unfold refs_by_name at h
  obtain ⟨conf, hconf, hmap⟩ := Option.map_eq_some'.1 h
  have hp := List.find?_some hconf
  simp only at hp
  exact ⟨conf, List.mem_of_find?_eq_some hconf, eq_of_beq hp, hmap⟩

theorem recursive_refs_succ {envs : List Conf} {fuel : Nat} {name : String} {rs : List String}
    (h : refs_by_name envs name = some rs) :
    recursive_refs envs (fuel + 1) name =
      rs.toFinset ∪ rs.toFinset.biUnion (fun r => recursive_refs envs fuel r) := by
  simp only [recursive_refs, h]

theorem refstep_rank {envs : List Conf} {rank : String → Nat}
    (hrank : ∀ a rs, refs_by_name envs a = some rs → ∀ b ∈ rs, rank b < rank a)
    {a b : String} (h : Relation.TransGen (RefStep envs) a b) : rank b < rank a := by
  induction h with
  | single hs =>
    obtain ⟨rs, hrs, hb⟩ := hs
    exact hrank _ _ hrs _ hb
  | tail _ hs ih =>
    obtain ⟨rs, hrs, hb⟩ := hs
    exact lt_trans (hrank _ _ hrs _ hb) ih

/-- C7: on an acyclic reference graph (witnessed by a rank function that
strictly decreases along references) that is closed and contains `name`,
`recursive_refs` computes, for sufficient fuel, exactly the set of
environments reachable by one or more reference steps from `name` — and in
particular never contains `name` itself. -/
theorem recursive_refs_closure (envs : List Conf) (rank : String → Nat)
    (hrank : ∀ a rs, refs_by_name envs a = some rs → ∀ b ∈ rs, rank b < rank a)
    (hclosed : ∀ a rs, refs_by_name envs a = some rs → ∀ b ∈ rs, (refs_by_name envs b).isSome)
    (name : String) (hname : (refs_by_name envs name).isSome) (fuel : Nat)
    (hfuel : rank name < fuel) :
    (∀ x, x ∈ recursive_refs envs fuel name ↔ Relation.TransGen (RefStep envs) name x) ∧
    name ∉ recursive_refs envs fuel name := by
  have main : ∀ fuel name, (refs_by_name envs name).isSome → rank name < fuel →
      ∀ x, x ∈ recursive_refs envs fuel name ↔ Relation.TransGen (RefStep envs) name x := by
    intro fuel
    induction fuel with
    | zero =>
      intro name _ hf
      omega
    | succ m ih =>
      intro name hn hf x
      obtain ⟨rs, hrs⟩ := Option.isSome_iff_exists.1 hn
      rw [recursive_refs_succ hrs]
      simp only [Finset.mem_union, Finset.mem_biUnion, List.mem_toFinset]
      constructor
      · rintro (hx | ⟨r, hr, hx⟩)
        · exact Relation.TransGen.single ⟨rs, hrs, hx⟩
        · have hr' : (refs_by_name envs r).isSome := hclosed _ _ hrs _ hr
          have hfr : rank r < m := by
            have := hrank _ _ hrs _ hr
            omega
          exact Relation.TransGen.head ⟨rs, hrs, hr⟩ ((ih r hr' hfr x).1 hx)
      · intro htg
        obtain ⟨b, hb, hrtg⟩ := Relation.TransGen.head'_iff.1 htg
        obtain ⟨rs', hrs', hbm⟩ := hb
        obtain rfl := Option.some.inj (hrs.symm.trans hrs')
        rcases Relation.reflTransGen_iff_eq_or_transGen.1 hrtg with rfl | htg'
        · exact Or.inl hbm
        · have hb' : (refs_by_name envs b).isSome := hclosed _ _ hrs _ hbm
          have hfb : rank b < m := by
            have := hrank _ _ hrs _ hbm
            omega
          exact Or.inr ⟨b, hbm, (ih b hb' hfb x).2 htg'⟩
  refine ⟨main fuel name hname hfuel, ?_⟩
  intro hmem
  have := refstep_rank hrank ((main fuel name hname hfuel name).1 hmem)
  omega

/-- C7 witness: in the chain local → test → base, `base` is a recursive ref
of `local` and `local` is not its own recursive ref. -/
theorem recursive_refs_closure_witness :
    "base" ∈ recursive_refs [⟨"base", []⟩, ⟨"test", ["base"]⟩, ⟨"local", ["test"]⟩] 3 "local" ∧
    "local" ∉ recursive_refs [⟨"base", []⟩, ⟨"test", ["base"]⟩, ⟨"local", ["test"]⟩] 3 "local" := by
  have hr : ∀ a rs, refs_by_name [⟨"base", []⟩, ⟨"test", ["base"]⟩, ⟨"local", ["test"]⟩] a =
      some rs → ∀ b ∈ rs,
      (fun n => if n = "local" then 2 else if n = "test" then 1 else 0) b <
        (fun n => if n = "local" then 2 else if n = "test" then 1 else 0) a := by
    intro a rs h b hb
    obtain ⟨conf, hm, hname, hrefs⟩ := refs_by_name_cases h
    subst hname
    subst hrefs
    simp only [List.mem_cons, List.not_mem_nil, or_false] at hm
    rcases hm with rfl | rfl | rfl
    · simp at hb
    · simp only [List.mem_singleton] at hb
      subst hb
      decide
    · simp only [List.mem_singleton] at hb
      subst hb
      decide
  have hc : ∀ a rs, refs_by_name [⟨"base", []⟩, ⟨"test", ["base"]⟩, ⟨"local", ["test"]⟩] a =
      some rs → ∀ b ∈ rs,
      (refs_by_name [⟨"base", []⟩, ⟨"test", ["base"]⟩, ⟨"local", ["test"]⟩] b).isSome := by
    intro a rs h b hb
    obtain ⟨conf, hm, hname, hrefs⟩ := refs_by_name_cases h
    subst hname
    subst hrefs
    simp only [List.mem_cons, List.not_mem_nil, or_false] at hm
    rcases hm with rfl | rfl | rfl
    · simp at hb
    · simp only [List.mem_singleton] at hb
      subst hb
      decide
    · simp only [List.mem_singleton] at hb
      subst hb
      decide
  have h := recursive_refs_closure [⟨"base", []⟩, ⟨"test", ["base"]⟩, ⟨"local", ["test"]⟩]
    (fun n => if n = "local" then 2 else if n = "test" then 1 else 0) hr hc "local"
    (by decide) 3 (by decide)
  refine ⟨(h.1 "base").2 ?_, h.2⟩
  refine Relation.TransGen.head (b := "test") ⟨["test"], by decide, by decide⟩ ?_
  exact Relation.TransGen.single ⟨["base"], by decide, by decide⟩

/-! # C8: `reference_cluster` -/

theorem cluster_pass_nil (c : Finset String) : cluster_pass [] c = (c, []) := rfl

theorem cluster_pass_cons (e : Finset String) (rest : List (Finset String)) (c : Finset String) :
    cluster_pass (e :: rest) c =
      (if c ∩ e ≠ ∅ then cluster_pass rest (c ∪ e)
       else ((cluster_pass rest c).1, e :: (cluster_pass rest c).2)) := rfl

theorem cluster_pass_subset (edges : List (Finset String)) :
    ∀ c, c ⊆ (cluster_pass edges c).1 := by
  induction edges with
  | nil => intro c; rw [cluster_pass_nil]
  | cons e rest ih =>
    intro c
    rw [cluster_pass_cons]
    by_cases h : c ∩ e ≠ ∅
    · rw [if_pos h]
      exact (Finset.subset_union_left).trans (ih (c ∪ e))
    · rw [if_neg h]
      exact ih c

theorem cluster_loop_succ (m : Nat) (edges : List (Finset String)) (c : Finset String) :
    cluster_loop (m + 1) edges c =
      (if (cluster_pass edges c).1 = c then c
       else cluster_loop m (cluster_pass edges c).2 (cluster_pass edges c).1) := rfl

theorem cluster_pass_length (edges : List (Finset String)) :
    ∀ c, (cluster_pass edges c).2.length ≤ edges.length ∧
      ((cluster_pass edges c).2.length = edges.length → (cluster_pass edges c).1 = c) := by
  induction edges with
  | nil => intro c; exact ⟨Nat.le_refl _, fun _ => rfl⟩
  | cons e rest ih =>
    intro c
    rw [cluster_pass_cons]
    by_cases h : c ∩ e ≠ ∅
    · rw [if_pos h]
      have h1 := (ih (c ∪ e)).1
      refine ⟨h1.trans (by simp only [List.length_cons]; omega), ?_⟩
      intro heq
      exfalso
      simp only [List.length_cons] at heq
      omega
    · rw [if_neg h]
      have h1 := (ih c).1
      refine ⟨by simp only [List.length_cons]; omega, ?_⟩
      intro heq
      simp only [List.length_cons] at heq
      exact (ih c).2 (by omega)

theorem cluster_pass_fixpoint (edges : List (Finset String)) :
    ∀ c, (cluster_pass edges c).1 = c → ∀ e ∈ edges, c ∩ e = ∅ ∨ e ⊆ c := by
  induction edges with
  | nil => intro c _ e he; exact absurd he (List.not_mem_nil e)
  | cons e rest ih =>
    intro c hfix e' he'
    rw [cluster_pass_cons] at hfix
    by_cases h : c ∩ e ≠ ∅
    · rw [if_pos h] at hfix
      have hsub : c ∪ e ⊆ c := by
        have hx := cluster_pass_subset rest (c ∪ e)
        rw [hfix] at hx
        exact hx
      have hce : c ∪ e = c :=
        Finset.Subset.antisymm hsub Finset.subset_union_left
      rw [hce] at hfix
      rcases List.mem_cons.1 he' with rfl | he''
      · refine Or.inr ?_
        have hx : e' ⊆ c ∪ e' := Finset.subset_union_right
        rw [hce] at hx
        exact hx
      · exact ih c hfix e' he''
    · rw [if_neg h] at hfix
      have hfix' : (cluster_pass rest c).1 = c := hfix
      rcases List.mem_cons.1 he' with rfl | he''
      · exact Or.inl (by simpa using h)
      · exact ih c hfix' e' he''

theorem cluster_pass_kept_mem (edges : List (Finset String)) :
    ∀ c, ∀ e ∈ (cluster_pass edges c).2, e ∈ edges := by
  induction edges with
  | nil => intro c e he; exact absurd he (List.not_mem_nil e)
  | cons e rest ih =>
    intro c e' he'
    rw [cluster_pass_cons] at he'
    by_cases h : c ∩ e ≠ ∅
    · rw [if_pos h] at he'
      exact List.mem_cons_of_mem _ (ih _ _ he')
    · rw [if_neg h] at he'
      rcases List.mem_cons.1 he' with rfl | he''
      · exact List.mem_cons_self _ _
      · exact List.mem_cons_of_mem _ (ih _ _ he'')

theorem cluster_pass_absorb (edges : List (Finset String)) :
    ∀ c, ∀ e ∈ edges, e ∈ (cluster_pass edges c).2 ∨ e ⊆ (cluster_pass edges c).1 := by
  induction edges with
  | nil => intro c e he; exact absurd he (List.not_mem_nil e)
  | cons e rest ih =>
    intro c e' he'
    rw [cluster_pass_cons]
    by_cases h : c ∩ e ≠ ∅
    · rw [if_pos h]
      rcases List.mem_cons.1 he' with rfl | he''
      · exact Or.inr ((Finset.subset_union_right).trans (cluster_pass_subset rest _))
      · exact ih (c ∪ e) e' he''
    · rw [if_neg h]
      rcases List.mem_cons.1 he' with rfl | he''
      · exact Or.inl (List.mem_cons_self _ _)
      · rcases ih c e' he'' with hk | hs
        · exact Or.inl (List.mem_cons_of_mem _ hk)
        · exact Or.inr hs

theorem cluster_pass_sound {P : String → Prop} (edges0 : List (Finset String))
    (hPabs : ∀ (c : Finset String), ∀ e ∈ edges0, (∀ x ∈ c, P x) → (c ∩ e).Nonempty →
      ∀ x ∈ c ∪ e, P x)
    (edges : List (Finset String)) :
    ∀ c, (∀ e ∈ edges, e ∈ edges0) → (∀ x ∈ c, P x) →
      ∀ x ∈ (cluster_pass edges c).1, P x := by
  induction edges with
  | nil => intro c _ hc; exact hc
  | cons e rest ih =>
    intro c hsub hc
    rw [cluster_pass_cons]
    by_cases h : c ∩ e ≠ ∅
    · rw [if_pos h]
      exact ih (c ∪ e) (fun e' he' => hsub e' (List.mem_cons_of_mem _ he'))
        (hPabs c e (hsub e (List.mem_cons_self _ _)) hc
          (Finset.nonempty_iff_ne_empty.2 h))
    · rw [if_neg h]
      exact ih c (fun e' he' => hsub e' (List.mem_cons_of_mem _ he')) hc

theorem cluster_loop_spec {P : String → Prop} (edges0 : List (Finset String))
    (hPabs : ∀ (c : Finset String), ∀ e ∈ edges0, (∀ x ∈ c, P x) → (c ∩ e).Nonempty →
      ∀ x ∈ c ∪ e, P x) :
    ∀ fuel edges c, edges.length < fuel → (∀ e ∈ edges, e ∈ edges0) → (∀ x ∈ c, P x) →
      (∀ e ∈ edges0, e ∈ edges ∨ e ⊆ c) →
      c ⊆ cluster_loop fuel edges c ∧ (∀ x ∈ cluster_loop fuel edges c, P x) ∧
        (∀ e ∈ edges0, e ∩ cluster_loop fuel edges c ≠ ∅ → e ⊆ cluster_loop fuel edges c) := by
  intro fuel
  induction fuel with
  | zero => intro edges c h; omega
  | succ m ih =>
    intro edges c hlen hsub hc hinv
    rw [cluster_loop_succ]
    by_cases hfix : (cluster_pass edges c).1 = c
    · rw [if_pos hfix]
      refine ⟨Finset.Subset.refl c, hc, ?_⟩
      intro e he hne
      rcases hinv e he with hee | hes
      · rcases cluster_pass_fixpoint edges c hfix e hee with h0 | h1
        · exact absurd (by rw [Finset.inter_comm]; exact h0) hne
        · exact h1
      · exact hes
    · rw [if_neg hfix]
      have hlt : (cluster_pass edges c).2.length < edges.length := by
        have h1 := (cluster_pass_length edges c).1
        have h2 := (cluster_pass_length edges c).2
        rcases Nat.lt_or_ge (cluster_pass edges c).2.length edges.length with h | h
        · exact h
        · exact absurd (h2 (Nat.le_antisymm h1 h)) hfix
      have hrec := ih (cluster_pass edges c).2 (cluster_pass edges c).1 (by omega)
        (fun e he => hsub e (cluster_pass_kept_mem edges c e he))
        (cluster_pass_sound edges0 hPabs edges c hsub hc)
        (by
          intro e he
          rcases hinv e he with hee | hes
          · exact cluster_pass_absorb edges c e hee
          · exact Or.inr (hes.trans (cluster_pass_subset edges c)))
      exact ⟨(cluster_pass_subset edges c).trans hrec.1, hrec.2.1, hrec.2.2⟩

theorem reflTransGen_symm_of {α : Type} {r : α → α → Prop} (hs : ∀ a b, r a b → r b a)
    {a b : α} (h : Relation.ReflTransGen r a b) : Relation.ReflTransGen r b a := by
  induction h with
  | refl => exact Relation.ReflTransGen.refl
  | tail _ hstep ih =>
    exact Relation.ReflTransGen.trans (Relation.ReflTransGen.single (hs _ _ hstep)) ih

theorem reference_cluster_conn (envs : List Conf) (name : String) :
    ∀ x, x ∈ reference_cluster envs name ↔
      Relation.ReflTransGen (EdgeAdj (cluster_edges envs)) name x := by
  have hPabs : ∀ (c : Finset String), ∀ e ∈ cluster_edges envs,
      (∀ x ∈ c, Relation.ReflTransGen (EdgeAdj (cluster_edges envs)) name x) →
      (c ∩ e).Nonempty →
      ∀ x ∈ c ∪ e, Relation.ReflTransGen (EdgeAdj (cluster_edges envs)) name x := by
    intro c e he hc hne x hx
    rcases Finset.mem_union.1 hx with hx | hx
    · exact hc x hx
    · obtain ⟨z, hz⟩ := hne
      obtain ⟨hzc, hze⟩ := Finset.mem_inter.1 hz
      exact Relation.ReflTransGen.tail (hc z hzc) ⟨e, he, hze, hx⟩
  have hspec := cluster_loop_spec (cluster_edges envs) hPabs
    ((cluster_edges envs).length + 1) (cluster_edges envs) {name}
    (Nat.lt_succ_self _) (fun e he => he)
    (by
      intro x hx
      obtain rfl := Finset.mem_singleton.1 hx
      exact Relation.ReflTransGen.refl)
    (fun e he => Or.inl he)
  intro x
  constructor
  · exact fun hx => hspec.2.1 x hx
  · intro hconn
    unfold reference_cluster
    induction hconn with
    | refl =>
      exact hspec.1 (Finset.mem_singleton_self name)
    | tail _ hstep ih =>
      obtain ⟨e, he, hb, hx⟩ := hstep
      have hne : e ∩ reference_cluster envs name ≠ ∅ := by
        rw [← Finset.nonempty_iff_ne_empty]
        exact ⟨_, Finset.mem_inter.2 ⟨hb, ih⟩⟩
      exact hspec.2.2 e he hne hx

/-- C8: `reference_cluster` computes an equivalence-class style set: for every
member `m` of `name`'s cluster, `m`'s own cluster is the same set (symmetry
and idempotence). -/
theorem reference_cluster_idempotent (envs : List Conf) (name : String) :
    ∀ m ∈ reference_cluster envs name, reference_cluster envs m = reference_cluster envs name := by
  intro m hm
  have hconn := (reference_cluster_conn envs name m).1 hm
  have hadj : ∀ a b, EdgeAdj (cluster_edges envs) a b → EdgeAdj (cluster_edges envs) b a := by
    rintro a b ⟨e, he, ha, hb⟩
    exact ⟨e, he, hb, ha⟩
  apply Finset.ext
  intro x
  rw [reference_cluster_conn envs m x, reference_cluster_conn envs name x]
  constructor
  · exact fun h => Relation.ReflTransGen.trans hconn h
  · exact fun h => Relation.ReflTransGen.trans (reflTransGen_symm_of hadj hconn) h

/-- C8 witness: in base ← test ← local, `local` lies in `test`'s cluster and
the two clusters coincide. -/
theorem reference_cluster_idempotent_witness :
    reference_cluster [⟨"base", []⟩, ⟨"test", ["base"]⟩, ⟨"local", ["test"]⟩] "local" =
      reference_cluster [⟨"base", []⟩, ⟨"test", ["base"]⟩, ⟨"local", ["test"]⟩] "test" :=
  reference_cluster_idempotent [⟨"base", []⟩, ⟨"test", ["base"]⟩, ⟨"local", ["test"]⟩]
    "test" "local" (by decide)

/-! # C2: `order_by_refs` -/

theorem filterMap_eq_map_of_some {α β : Type} {f : α → Option β} {g : α → β} :
    ∀ {l : List α}, (∀ a ∈ l, f a = some (g a)) → l.filterMap f = l.map g := by
  intro l
  induction l with
  | nil => intro _; rfl
  | cons x t ih =>
    intro h
    have hhead : (x :: t).filterMap f = g x :: t.filterMap f := by
      rw [List.filterMap_cons, h x (List.mem_cons_self _ _)]
    rw [hhead, ih fun a ha => h a (List.mem_cons_of_mem _ ha), List.map_cons]

theorem exists_min_rank (rank : String → Nat) :
    ∀ {l : List String}, l ≠ [] → ∃ m ∈ l, ∀ x ∈ l, rank m ≤ rank x := by
  intro l
  induction l with
  | nil => intro h; exact absurd rfl h
  | cons a t ih =>
    intro _
    rcases t with _ | ⟨b, t'⟩
    · refine ⟨a, List.mem_cons_self _ _, ?_⟩
      intro x hx
      rcases List.mem_cons.1 hx with rfl | hx'
      · exact Nat.le_refl _
      · simp at hx'
    · obtain ⟨m, hm, hmin⟩ := ih (by simp)
      by_cases hr : rank a ≤ rank m
      · refine ⟨a, List.mem_cons_self _ _, ?_⟩
        intro x hx
        rcases List.mem_cons.1 hx with rfl | hx'
        · exact Nat.le_refl _
        · exact hr.trans (hmin x hx')
      · refine ⟨m, List.mem_cons_of_mem _ hm, ?_⟩
        intro x hx
        rcases List.mem_cons.1 hx with rfl | hx'
        · omega
        · exact hmin x hx'

theorem length_filter_lt {p : String → Bool} {l : List String} {m : String}
    (hm : m ∈ l) (hpm : p m = false) : (l.filter p).length < l.length := by
  induction l with
  | nil => simp at hm
  | cons a t ih =>
    rcases List.mem_cons.1 hm with rfl | hm'
    · rw [List.filter_cons_of_neg (by rw [hpm]; exact Bool.noConfusion)]
      exact Nat.lt_succ_of_le (List.length_filter_le p t)
    · by_cases hpa : p a = true
      · rw [List.filter_cons_of_pos hpa]
        simpa using Nat.succ_lt_succ (ih hm')
      · rw [List.filter_cons_of_neg hpa]
        exact (ih hm').trans (Nat.lt_succ_self _)

theorem kahn_zero (deps : String → List String) (emitted remaining : List String) :
    kahn deps 0 emitted remaining = if remaining = [] then some emitted else none := rfl

theorem kahn_succ (deps : String → List String) (fuel : Nat)
    (emitted remaining : List String) :
    kahn deps (fuel + 1) emitted remaining =
      (if remaining = [] then some emitted
       else if readySet deps emitted remaining = [] then none
       else kahn deps fuel
        (emitted ++ List.insertionSort (fun a b : String => strLt a.data b.data)
          (readySet deps emitted remaining))
        (remaining.filter fun n => !(readySet deps emitted remaining).contains n)) := rfl

theorem mem_readySet {deps : String → List String} {emitted remaining : List String}
    {n : String} :
    n ∈ readySet deps emitted remaining ↔ n ∈ remaining ∧ ∀ d ∈ deps n, d ∈ emitted := by
  unfold readySet
  rw [List.mem_filter]
  simp only [List.all_eq_true]
  constructor
  · rintro ⟨h1, h2⟩
    exact ⟨h1, fun d hd => List.elem_iff.1 (h2 d hd)⟩
  · rintro ⟨h1, h2⟩
    exact ⟨h1, fun d hd => List.elem_iff.2 (h2 d hd)⟩

theorem kahn_spec (deps : String → List String) (rank : String → Nat) (names : List String)
    (hnames : names.Nodup)
    (hrank : ∀ n ∈ names, ∀ d ∈ deps n, rank d < rank n)
    (hclosed : ∀ n ∈ names, ∀ d ∈ deps n, d ∈ names) :
    ∀ fuel emitted remaining, remaining.length ≤ fuel →
      (emitted ++ remaining).Perm names →
      (∀ n ∈ emitted, ∀ d ∈ deps n,
        d ∈ emitted ∧ List.indexOf d emitted < List.indexOf n emitted) →
      ∃ result, kahn deps fuel emitted remaining = some result ∧
        result.Perm names ∧
        (∀ n ∈ result, ∀ d ∈ deps n,
          d ∈ result ∧ List.indexOf d result < List.indexOf n result) := by
  intro fuel
  induction fuel with
  | zero =>
    intro emitted remaining hlen hperm hinv
    obtain rfl : remaining = [] := List.eq_nil_of_length_eq_zero (Nat.le_zero.1 hlen)
    rw [kahn_zero, if_pos rfl]
    rw [List.append_nil] at hperm
    exact ⟨emitted, rfl, hperm, hinv⟩
  | succ fuel ih =>
    intro emitted remaining hlen hperm hinv
    rw [kahn_succ]
    by_cases hrem : remaining = []
    · subst hrem
      rw [if_pos rfl]
      rw [List.append_nil] at hperm
      exact ⟨emitted, rfl, hperm, hinv⟩
    · rw [if_neg hrem]
      have hnodup : (emitted ++ remaining).Nodup := hperm.symm.nodup hnames
      obtain ⟨hnde, hndr, hdisj⟩ := List.nodup_append.1 hnodup
      have hready : ∃ m, m ∈ readySet deps emitted remaining := by
        obtain ⟨m, hm, hmin⟩ := exists_min_rank rank hrem
        refine ⟨m, mem_readySet.2 ⟨hm, ?_⟩⟩
        intro d hd
        have hmn : m ∈ names := hperm.subset (List.mem_append_right _ hm)
        have hdn : d ∈ names := hclosed m hmn d hd
        rcases List.mem_append.1 (hperm.symm.subset hdn) with h | h
        · exact h
        · exact absurd (hrank m hmn d hd) (by have := hmin d h; omega)
      obtain ⟨m0, hm0⟩ := hready
      rw [if_neg (List.ne_nil_of_mem hm0)]
      have hsortperm : (List.insertionSort (fun a b : String => strLt a.data b.data)
          (readySet deps emitted remaining)).Perm (readySet deps emitted remaining) :=
        List.perm_insertionSort _ _
      have hfiltereq : (remaining.filter fun n => !(readySet deps emitted remaining).contains n)
          = remaining.filter fun n =>
              !((deps n).all fun d => emitted.contains d) := by
        apply List.filter_congr
        intro n hn
        cases hp : (deps n).all fun d => emitted.contains d
        · have : n ∉ readySet deps emitted remaining := by
            intro hcon
            unfold readySet at hcon
            have := (List.mem_filter.1 hcon).2
            rw [hp] at this
            exact Bool.noConfusion this
          have : (readySet deps emitted remaining).contains n = false := by
            cases hq : (readySet deps emitted remaining).contains n
            · rfl
            · exact absurd (List.elem_iff.1 hq) this
          rw [this]
        · have : n ∈ readySet deps emitted remaining := by
            unfold readySet
            exact List.mem_filter.2 ⟨hn, hp⟩
          have : (readySet deps emitted remaining).contains n = true := List.elem_iff.2 this
          rw [this]
      have hbatchperm : ((List.insertionSort (fun a b : String => strLt a.data b.data)
            (readySet deps emitted remaining)) ++
          (remaining.filter fun n => !(readySet deps emitted remaining).contains n)).Perm
            remaining := by
        rw [hfiltereq]
        refine (hsortperm.append_right _).trans ?_
        exact List.filter_append_perm _ remaining
      have hperm' : ((emitted ++ List.insertionSort (fun a b : String => strLt a.data b.data)
            (readySet deps emitted remaining)) ++
          (remaining.filter fun n => !(readySet deps emitted remaining).contains n)).Perm
            names := by
        rw [List.append_assoc]
        exact ((hbatchperm.append_left emitted).trans hperm)
      have hlen' : (remaining.filter fun n =>
          !(readySet deps emitted remaining).contains n).length ≤ fuel := by
        have hlt : (remaining.filter fun n =>
            !(readySet deps emitted remaining).contains n).length < remaining.length := by
          refine length_filter_lt (mem_readySet.1 hm0).1 ?_
          rw [Bool.not_eq_false']
          exact List.elem_iff.2 hm0
        omega
      have hinv' : ∀ n ∈ emitted ++ List.insertionSort (fun a b : String => strLt a.data b.data)
          (readySet deps emitted remaining), ∀ d ∈ deps n,
          d ∈ emitted ++ List.insertionSort (fun a b : String => strLt a.data b.data)
            (readySet deps emitted remaining) ∧
          List.indexOf d (emitted ++ List.insertionSort (fun a b : String => strLt a.data b.data)
            (readySet deps emitted remaining)) <
          List.indexOf n (emitted ++ List.insertionSort (fun a b : String => strLt a.data b.data)
            (readySet deps emitted remaining)) := by
        intro n hn d hd
        rcases List.mem_append.1 hn with hne | hnb
        · obtain ⟨hde, hidx⟩ := hinv n hne d hd
          refine ⟨List.mem_append_left _ hde, ?_⟩
          rw [List.indexOf_append_of_mem hde, List.indexOf_append_of_mem hne]
          exact hidx
        · have hnb' : n ∈ readySet deps emitted remaining := hsortperm.subset hnb
          obtain ⟨hnr, hdeps⟩ := mem_readySet.1 hnb'
          have hde : d ∈ emitted := hdeps d hd
          have hnotm : n ∉ emitted := fun hcon => hdisj hcon hnr
          refine ⟨List.mem_append_left _ hde, ?_⟩
          rw [List.indexOf_append_of_mem hde, List.indexOf_append_of_not_mem hnotm]
          have := List.indexOf_lt_length.2 hde
          omega
      exact ih _ _ hlen' hperm' hinv'

theorem find?_name_eq_self {envs : List Conf} (hnd : (envs.map Conf.name).Nodup) {conf : Conf}
    (hm : conf ∈ envs) : envs.find? (fun e => e.name == conf.name) = some conf := by
  induction envs with
  | nil => simp at hm
  | cons e rest ih =>
    have hnd' : (rest.map Conf.name).Nodup := (List.nodup_cons.1 hnd).2
    have hhead : e.name ∉ rest.map Conf.name := (List.nodup_cons.1 hnd).1
    by_cases he : (e.name == conf.name) = true
    · rcases List.mem_cons.1 hm with rfl | hm'
      · exact List.find?_cons_of_pos _ he
      · exact absurd (eq_of_beq he ▸ List.mem_map.2 ⟨conf, hm', rfl⟩) hhead
    · rcases List.mem_cons.1 hm with rfl | hm'
      · exact absurd (beq_self_eq_true conf.name) he
      · have hstep : List.find? (fun e => e.name == conf.name) (e :: rest) =
            List.find? (fun e => e.name == conf.name) rest :=
          List.find?_cons_of_neg _ he
        rw [hstep]
        exact ih hnd' hm'

/-- C2: on an acyclic reference graph (rank function decreasing along
references, references closed over the discovered names, names unique),
`order_by_refs` returns a permutation of the environment configurations in
which every referenced environment appears strictly before each of its
referrers. -/
theorem order_by_refs_topological (envs : List Conf) (rank : String → Nat)
    (hnd : (envs.map Conf.name).Nodup)
    (hrank : ∀ conf ∈ envs, ∀ r ∈ conf.refs, rank r < rank conf.name)
    (hclosed : ∀ conf ∈ envs, ∀ r ∈ conf.refs, r ∈ envs.map Conf.name) :
    ∃ ordered, order_by_refs envs = some ordered ∧ ordered.Perm envs ∧
      ∀ conf ∈ envs, ∀ r ∈ conf.refs,
        List.indexOf r (ordered.map Conf.name) <
          List.indexOf conf.name (ordered.map Conf.name) := by
  have htop : ∀ conf ∈ envs, topology envs conf.name = conf.refs := by
    intro conf hm
    unfold topology
    rw [find?_name_eq_self hnd hm]
    rfl
  have hrank' : ∀ n ∈ envs.map Conf.name, ∀ d ∈ topology envs n, rank d < rank n := by
    intro n hn d hd
    obtain ⟨conf, hconf, rfl⟩ := List.mem_map.1 hn
    rw [htop conf hconf] at hd
    exact hrank conf hconf d hd
  have hclosed' : ∀ n ∈ envs.map Conf.name, ∀ d ∈ topology envs n, d ∈ envs.map Conf.name := by
    intro n hn d hd
    obtain ⟨conf, hconf, rfl⟩ := List.mem_map.1 hn
    rw [htop conf hconf] at hd
    exact hclosed conf hconf d hd
  obtain ⟨result, hk, hperm, hprop⟩ := kahn_spec (topology envs) rank (envs.map Conf.name)
    hnd hrank' hclosed' (envs.length + 1) [] (envs.map Conf.name)
    (by rw [List.length_map]; omega) (by rw [List.nil_append])
    (by intro n hn; exact absurd hn (List.not_mem_nil n))
  have hres_sub : ∀ n ∈ result, n ∈ envs.map Conf.name := fun n hn => hperm.subset hn
  have hfm : result.filterMap (fun n => envs.find? fun e => e.name == n) =
      result.map fun n => (envs.find? fun e => e.name == n).getD ⟨n, []⟩ := by
    apply filterMap_eq_map_of_some
    intro n hn
    obtain ⟨conf, hconf, rfl⟩ := List.mem_map.1 (hres_sub n hn)
    rw [find?_name_eq_self hnd hconf]
    rfl
  have hgname : ∀ n ∈ result,
      ((envs.find? fun e => e.name == n).getD ⟨n, []⟩).name = n := by
    intro n hn
    obtain ⟨conf, hconf, rfl⟩ := List.mem_map.1 (hres_sub n hn)
    rw [find?_name_eq_self hnd hconf]
    rfl
  have hmapname : (result.filterMap fun n => envs.find? fun e => e.name == n).map Conf.name
      = result := by
    rw [hfm, List.map_map]
    have : ∀ n ∈ result,
        (Conf.name ∘ fun n => (envs.find? fun e => e.name == n).getD ⟨n, []⟩) n = id n :=
      fun n hn => hgname n hn
    rw [List.map_congr_left this, List.map_id]
  refine ⟨result.filterMap fun n => envs.find? fun e => e.name == n, ?_, ?_, ?_⟩
  · unfold order_by_refs
    rw [hk]
    rfl
  · have h1 : (result.map fun n => (envs.find? fun e => e.name == n).getD ⟨n, []⟩).Perm
        ((envs.map Conf.name).map fun n => (envs.find? fun e => e.name == n).getD ⟨n, []⟩) :=
      hperm.map _
    have h2 : (envs.map Conf.name).map (fun n => (envs.find? fun e => e.name == n).getD ⟨n, []⟩)
        = envs := by
      rw [List.map_map]
      have : ∀ conf ∈ envs,
          ((fun n => (envs.find? fun e => e.name == n).getD ⟨n, []⟩) ∘ Conf.name) conf
            = id conf := by
        intro conf hconf
        have := find?_name_eq_self hnd hconf
        simp only [Function.comp_apply, this, Option.getD_some, id_eq]
      rw [List.map_congr_left this, List.map_id]
    rw [hfm]
    rw [h2] at h1
    exact h1
  · intro conf hconf r hr
    rw [hmapname]
    have hnm : conf.name ∈ result := hperm.symm.subset (List.mem_map.2 ⟨conf, hconf, rfl⟩)
    have hd : r ∈ topology envs conf.name := by
      rw [htop conf hconf]
      exact hr
    exact (hprop conf.name hnm r hd).2

/-- C2 witness: base ← test ← local orders as [base, test, local] with every
reference before its referrer. -/
theorem order_by_refs_topological_witness :
    ∃ ordered, order_by_refs
        [⟨"local", ["test"]⟩, ⟨"base", []⟩, ⟨"test", ["base"]⟩] = some ordered ∧
      ordered.Perm [⟨"local", ["test"]⟩, ⟨"base", []⟩, ⟨"test", ["base"]⟩] ∧
      ∀ conf ∈ [Conf.mk "local" ["test"], ⟨"base", []⟩, ⟨"test", ["base"]⟩],
        ∀ r ∈ conf.refs,
        List.indexOf r (ordered.map Conf.name) <
          List.indexOf conf.name (ordered.map Conf.name) := by
  refine order_by_refs_topological _
    (fun n => if n = "local" then 2 else if n = "test" then 1 else 0) (by decide) ?_ ?_
  · intro conf hm r hrr
    simp only [List.mem_cons, List.not_mem_nil, or_false] at hm
    rcases hm with rfl | rfl | rfl
    · simp only [List.mem_singleton] at hrr
      subst hrr
      decide
    · simp at hrr
    · simp only [List.mem_singleton] at hrr
      subst hrr
      decide
  · intro conf hm r hrr
    simp only [List.mem_cons, List.not_mem_nil, or_false] at hm
    rcases hm with rfl | rfl | rfl
    · simp only [List.mem_singleton] at hrr
      subst hrr
      decide
    · simp at hrr
    · simp only [List.mem_singleton] at hrr
      subst hrr
      decide

/-- C10 witness: an editable VCS line (whose egg name loses its last letter to
the mandatory postfix group) is recorded with the empty version. -/
theorem vcs_line_spec_witness :
    ∃ out, fix_pin (fun _ => false) ⟨[], false, []⟩ "-e x#egg=abc".data =
      .ok (some out,
        { ignore := [], forbid_post := false,
          packages := aset "ab".data [] [] }) :=
  (vcs_line_spec (fun _ => false) ⟨[], false, []⟩ "-e x#egg=abc".data
    ⟨"ab".data, [], [], [], true, "-e x#egg=abc".data⟩ (by decide) rfl).2.2.2 (by decide)

/-! # C4: the serialize / re-parse round trip -/

/-! ## String toolkit -/

theorem takeWhile_append_all {p : Char → Bool} {a : Str} (b : Str) (h : ∀ c ∈ a, p c = true) :
    (a ++ b).takeWhile p = a ++ b.takeWhile p := by
  induction a with
  | nil => rfl
  | cons c t ih =>
    rw [List.cons_append, List.takeWhile_cons_of_pos (h c (List.mem_cons_self _ _)),
      ih (fun c hc => h c (List.mem_cons_of_mem _ hc)), List.cons_append]

theorem dropWhile_append_all {p : Char → Bool} {a : Str} (b : Str) (h : ∀ c ∈ a, p c = true) :
    (a ++ b).dropWhile p = b.dropWhile p := by
  induction a with
  | nil => rfl
  | cons c t ih =>
    rw [List.cons_append, List.dropWhile_cons_of_pos (h c (List.mem_cons_self _ _)),
      ih (fun c hc => h c (List.mem_cons_of_mem _ hc))]

theorem takeWhile_nil_of_head {p : Char → Bool} {b : Str} {c : Char}
    (hb : b.head? = some c) (hc : p c = false) : b.takeWhile p = [] := by
  cases b with
  | nil => rfl
  | cons x t =>
    obtain rfl : x = c := by injection hb
    exact List.takeWhile_cons_of_neg (by rw [hc]; exact Bool.noConfusion)

theorem dropWhile_self_of_head {p : Char → Bool} {b : Str} {c : Char}
    (hb : b.head? = some c) (hc : p c = false) : b.dropWhile p = b := by
  cases b with
  | nil => rfl
  | cons x t =>
    obtain rfl : x = c := by injection hb
    exact List.dropWhile_cons_of_neg (by rw [hc]; exact Bool.noConfusion)

theorem dropWhile_head_false {p : Char → Bool} {s : Str} {c : Char}
    (h : (s.dropWhile p).head? = some c) : p c = false := by
  have hm := List.head?_dropWhile_not p s
  rw [h] at hm
  exact hm

theorem rstrip_append_all {sp : Str} (x : Str) (h : ∀ c ∈ sp, pySpace c = true) :
    rstrip (x ++ sp) = rstrip x := by
  unfold rstrip
  rw [List.reverse_append, dropWhile_append_all _ (fun c hc => h c (List.mem_reverse.1 hc))]

theorem rstrip_eq_self {x : Str} {c : Char} (h : x.getLast? = some c) (hc : pySpace c = false) :
    rstrip x = x := by
  unfold rstrip
  rw [dropWhile_self_of_head (by rw [List.head?_reverse, h]) hc, List.reverse_reverse]

theorem lstrip_eq_self {x : Str} {c : Char} (h : x.head? = some c) (hc : pySpace c = false) :
    lstrip x = x := dropWhile_self_of_head h hc

theorem rstrip_of_strip_fixed {x : Str} (hx : strip x = x) : rstrip x = x := by
  have hlen : (x.reverse.dropWhile pySpace).length = x.reverse.length := by
    have hle := (List.dropWhile_suffix (l := x.reverse) pySpace).length_le
    have hge : x.length ≤ (rstrip x).length := by
      conv_lhs => rw [← hx]
      unfold strip lstrip
      exact (List.dropWhile_suffix pySpace).length_le
    unfold rstrip at hge
    rw [List.length_reverse] at hge
    rw [List.length_reverse]
    have ha : x.reverse.length = x.length := List.length_reverse x
    omega
  have h2 := (List.dropWhile_suffix (l := x.reverse) pySpace).eq_of_length hlen
  unfold rstrip
  rw [h2, List.reverse_reverse]

theorem strip_fixed_last {x : Str} (hx : strip x = x) (hne : x ≠ []) :
    ∃ c, x.getLast? = some c ∧ pySpace c = false := by
  have hr := rstrip_of_strip_fixed hx
  have hrev : x.reverse.dropWhile pySpace = x.reverse := by
    have := congrArg List.reverse hr
    unfold rstrip at this
    rwa [List.reverse_reverse] at this
  cases hh : x.reverse.head? with
  | none =>
    rw [List.head?_eq_none_iff, List.reverse_eq_nil_iff] at hh
    exact absurd hh hne
  | some c =>
    refine ⟨c, ?_, ?_⟩
    · rw [← List.head?_reverse]
      exact hh
    · apply dropWhile_head_false (s := x.reverse)
      rw [hrev]
      exact hh

theorem strip_fixed_head {x : Str} (hx : strip x = x) (hne : x ≠ []) :
    ∃ c, x.head? = some c ∧ pySpace c = false := by
  have hr := rstrip_of_strip_fixed hx
  have hl : lstrip x = x := by
    conv_lhs => rw [← hr]
    exact hx
  cases hh : x.head? with
  | none =>
    rw [List.head?_eq_none_iff] at hh
    exact absurd hh hne
  | some c =>
    refine ⟨c, rfl, ?_⟩
    apply dropWhile_head_false (s := x)
    unfold lstrip at hl
    rw [hl]
    exact hh

theorem splitWSGo_nil_eq (acc : Str) :
    splitWSGo [] acc = if acc = [] then [] else [acc.reverse] := rfl

theorem splitWSGo_cons_eq (c : Char) (t acc : Str) :
    splitWSGo (c :: t) acc =
      if pySpace c then (if acc = [] then splitWSGo t [] else acc.reverse :: splitWSGo t [])
      else splitWSGo t (c :: acc) := rfl

theorem splitWSGo_acc_ne (z : Str) : ∀ acc : Str, acc ≠ [] →
    splitWSGo z acc = (acc.reverse ++ z.takeWhile nonspace) :: splitWS (z.dropWhile nonspace) := by
  induction z with
  | nil =>
    intro acc hacc
    rw [splitWSGo_nil_eq, if_neg hacc, List.takeWhile_nil, List.dropWhile_nil, List.append_nil]
    rfl
  | cons c t ih =>
    intro acc hacc
    rw [splitWSGo_cons_eq]
    by_cases hc : pySpace c = true
    · have hnc : nonspace c = false := by unfold nonspace; rw [hc]; rfl
      rw [if_pos hc, if_neg hacc,
        List.takeWhile_cons_of_neg (by rw [hnc]; exact Bool.noConfusion),
        List.dropWhile_cons_of_neg (by rw [hnc]; exact Bool.noConfusion), List.append_nil]
      show _ = _ :: splitWSGo (c :: t) []
      rw [splitWSGo_cons_eq, if_pos hc, if_pos rfl]
    · have hc' : pySpace c = false := by
        cases h2 : pySpace c
        · rfl
        · exact absurd h2 hc
      have hnc : nonspace c = true := by unfold nonspace; rw [hc']; rfl
      rw [if_neg hc, ih (c :: acc) (List.cons_ne_nil c acc),
        List.takeWhile_cons_of_pos hnc, List.dropWhile_cons_of_pos hnc, List.reverse_cons,
        List.append_assoc, List.singleton_append]

theorem splitWS_nil : splitWS [] = [] := rfl

theorem splitWS_cons_space {c : Char} (t : Str) (hc : pySpace c = true) :
    splitWS (c :: t) = splitWS t := by
  unfold splitWS
  rw [splitWSGo_cons_eq, if_pos hc, if_pos rfl]

theorem splitWS_cons_word {c : Char} (t : Str) (hc : pySpace c = false) :
    splitWS (c :: t) = (c :: t.takeWhile nonspace) :: splitWS (t.dropWhile nonspace) := by
  show splitWSGo (c :: t) [] = _
  rw [splitWSGo_cons_eq, if_neg (by rw [hc]; exact Bool.noConfusion),
    splitWSGo_acc_ne t [c] (List.cons_ne_nil c [])]
  rfl

theorem splitWS_leading_spaces {sp : Str} (z : Str) (h : ∀ c ∈ sp, pySpace c = true) :
    splitWS (sp ++ z) = splitWS z := by
  induction sp with
  | nil => rfl
  | cons c t ih =>
    rw [List.cons_append, splitWS_cons_space _ (h c (List.mem_cons_self _ _)),
      ih (fun c hc => h c (List.mem_cons_of_mem _ hc))]

theorem splitWSGo_spaces_nil {sp : Str} (h : ∀ c ∈ sp, pySpace c = true) :
    splitWSGo sp [] = [] := by
  induction sp with
  | nil => rfl
  | cons c t ih =>
    rw [splitWSGo_cons_eq, if_pos (h c (List.mem_cons_self _ _)), if_pos rfl]
    exact ih (fun c hc => h c (List.mem_cons_of_mem _ hc))

theorem splitWSGo_spaces_acc {sp : Str} (h : ∀ c ∈ sp, pySpace c = true) (acc : Str)
    (hacc : acc ≠ []) : splitWSGo sp acc = [acc.reverse] := by
  cases sp with
  | nil => rw [splitWSGo_nil_eq, if_neg hacc]
  | cons c t =>
    rw [splitWSGo_cons_eq, if_pos (h c (List.mem_cons_self _ _)), if_neg hacc,
      splitWSGo_spaces_nil (fun c hc => h c (List.mem_cons_of_mem _ hc))]

theorem splitWSGo_append_spaces {sp : Str} (h : ∀ c ∈ sp, pySpace c = true) :
    ∀ (x acc : Str), splitWSGo (x ++ sp) acc = splitWSGo x acc := by
  intro x
  induction x with
  | nil =>
    intro acc
    rw [List.nil_append, splitWSGo_nil_eq]
    by_cases hacc : acc = []
    · rw [if_pos hacc]
      subst hacc
      exact splitWSGo_spaces_nil h
    · rw [if_neg hacc]
      exact splitWSGo_spaces_acc h acc hacc
  | cons c t ih =>
    intro acc
    rw [List.cons_append, splitWSGo_cons_eq, splitWSGo_cons_eq]
    by_cases hc : pySpace c = true
    · rw [if_pos hc, if_pos hc]
      by_cases hacc : acc = []
      · rw [if_pos hacc, if_pos hacc, ih]
      · rw [if_neg hacc, if_neg hacc, ih]
    · rw [if_neg hc, if_neg hc, ih]

theorem splitWS_append_spaces {sp : Str} (x : Str) (h : ∀ c ∈ sp, pySpace c = true) :
    splitWS (x ++ sp) = splitWS x := splitWSGo_append_spaces h x []

theorem splitWS_strip (s : Str) : splitWS (strip s) = splitWS s := by
  have h2 : splitWS (rstrip s) = splitWS s := by
    have hs : s = rstrip s ++ (s.reverse.takeWhile pySpace).reverse := by
      unfold rstrip
      rw [← List.reverse_append, List.takeWhile_append_dropWhile, List.reverse_reverse]
    conv_rhs => rw [hs]
    rw [splitWS_append_spaces _ (fun c hc => List.mem_takeWhile_imp (List.mem_reverse.1 hc))]
  unfold strip
  conv_rhs => rw [← h2]
  conv_rhs =>
    rw [← List.takeWhile_append_dropWhile (p := pySpace) (l := rstrip s)]
  rw [splitWS_leading_spaces _ (fun c hc => List.mem_takeWhile_imp hc)]
  rfl

theorem splitWSGo_words : ∀ (s acc : Str), (∀ c ∈ acc, nonspace c = true) →
    ∀ w ∈ splitWSGo s acc, w ≠ [] ∧ ∀ c ∈ w, nonspace c = true := by
  intro s
  induction s with
  | nil =>
    intro acc hacc w hw
    rw [splitWSGo_nil_eq] at hw
    by_cases h : acc = []
    · rw [if_pos h] at hw
      exact absurd hw (List.not_mem_nil w)
    · rw [if_neg h, List.mem_singleton] at hw
      subst hw
      exact ⟨by simpa using h, fun c hc => hacc c (List.mem_reverse.1 hc)⟩
  | cons c t ih =>
    intro acc hacc w hw
    rw [splitWSGo_cons_eq] at hw
    by_cases hc : pySpace c = true
    · rw [if_pos hc] at hw
      by_cases h : acc = []
      · rw [if_pos h] at hw
        exact ih [] (fun c hc0 => absurd hc0 (List.not_mem_nil c)) w hw
      · rw [if_neg h] at hw
        rcases List.mem_cons.1 hw with rfl | hw2
        · exact ⟨by simpa using h, fun c hc0 => hacc c (List.mem_reverse.1 hc0)⟩
        · exact ih [] (fun c hc0 => absurd hc0 (List.not_mem_nil c)) w hw2
    · rw [if_neg hc] at hw
      refine ih (c :: acc) ?_ w hw
      intro x hx
      rcases List.mem_cons.1 hx with rfl | hx2
      · have hx3 : pySpace x = false := by
          cases h4 : pySpace x
          · rfl
          · exact absurd h4 hc
        unfold nonspace
        rw [hx3]
        rfl
      · exact hacc x hx2

theorem splitWS_words {s : Str} : ∀ w ∈ splitWS s, w ≠ [] ∧ ∀ c ∈ w, nonspace c = true :=
  splitWSGo_words s [] (fun c hc => absurd hc (List.not_mem_nil c))

theorem joinSpace_single (a : Str) : joinSpace [a] = a := by
  unfold joinSpace
  simp [List.intercalate]

theorem joinSpace_cons (a b : Str) (l : List Str) :
    joinSpace (a :: b :: l) = a ++ ' ' :: joinSpace (b :: l) := by
  unfold joinSpace
  simp [List.intercalate, List.intersperse]

theorem splitWS_joinSpace (toks : List Str)
    (h : ∀ t ∈ toks, t ≠ [] ∧ ∀ c ∈ t, nonspace c = true) :
    splitWS (joinSpace toks) = toks := by
  induction toks with
  | nil => rfl
  | cons a rest ih =>
    obtain ⟨ha1, ha2⟩ := h a (List.mem_cons_self _ _)
    obtain ⟨c, t, rfl⟩ : ∃ c t, a = c :: t := by
      cases a with
      | nil => exact absurd rfl ha1
      | cons c t => exact ⟨c, t, rfl⟩
    have hc : pySpace c = false := by
      have := ha2 c (List.mem_cons_self _ _)
      unfold nonspace at this
      cases h4 : pySpace c
      · rfl
      · rw [h4] at this
        exact Bool.noConfusion this
    cases rest with
    | nil =>
      rw [joinSpace_single, splitWS_cons_word _ hc,
        List.takeWhile_eq_self_iff.2 (fun x hx => ha2 x (List.mem_cons_of_mem _ hx)),
        List.dropWhile_eq_nil_iff.2 (fun x hx => ha2 x (List.mem_cons_of_mem _ hx))]
      rfl
    | cons b rest2 =>
      rw [joinSpace_cons, List.cons_append, splitWS_cons_word _ hc,
        takeWhile_append_all _ (fun x hx => ha2 x (List.mem_cons_of_mem _ hx)),
        dropWhile_append_all _ (fun x hx => ha2 x (List.mem_cons_of_mem _ hx)),
        List.takeWhile_cons_of_neg (p := nonspace) (by
          show ¬ nonspace ' ' = true
          decide),
        List.dropWhile_cons_of_neg (p := nonspace) (by
          show ¬ nonspace ' ' = true
          decide), List.append_nil]
      rw [show splitWS (' ' :: joinSpace (b :: rest2)) = splitWS (joinSpace (b :: rest2)) from
        splitWS_cons_space _ (by decide)]
      rw [ih (fun t ht => h t (List.mem_cons_of_mem _ ht))]

theorem strip_space_word {sp1 y : Str} {cl ch : Char} (h1 : ∀ c ∈ sp1, pySpace c = true)
    (hlast : y.getLast? = some cl) (hcl : pySpace cl = false)
    (hhead : y.head? = some ch) (hch : pySpace ch = false) :
    strip (sp1 ++ y) = y := by
  have hl : (sp1 ++ y).getLast? = some cl := by
    rw [List.getLast?_append, hlast]
    rfl
  unfold strip
  rw [rstrip_eq_self hl hcl]
  unfold lstrip
  rw [dropWhile_append_all _ h1]
  exact dropWhile_self_of_head hhead hch

theorem pySpace_eq_false {c : Char} (h : nonspace c = true) : pySpace c = false := by
  unfold nonspace at h
  cases h2 : pySpace c
  · rfl
  · rw [h2] at h
    exact Bool.noConfusion h

theorem nonspace_eq_true {c : Char} (h : pySpace c = false) : nonspace c = true := by
  unfold nonspace
  rw [h]
  rfl

theorem splitNLGo_nil_eq (acc : Str) : splitNLGo [] acc = [acc.reverse] := rfl

theorem splitNLGo_cons_eq (c : Char) (t acc : Str) :
    splitNLGo (c :: t) acc =
      if c == '\n' then acc.reverse :: splitNLGo t [] else splitNLGo t (c :: acc) := rfl

theorem splitNLGo_no_nl (a : Str) : ∀ acc, '\n' ∉ a → splitNLGo a acc = [acc.reverse ++ a] := by
  induction a with
  | nil =>
    intro acc _
    rw [splitNLGo_nil_eq, List.append_nil]
  | cons c t ih =>
    intro acc h
    have hc : ¬ (c == '\n') = true := by
      rw [beq_iff_eq]
      intro h2
      exact h (h2 ▸ List.mem_cons_self _ _)
    rw [splitNLGo_cons_eq, if_neg hc, ih (c :: acc) (fun h2 => h (List.mem_cons_of_mem _ h2)),
      List.reverse_cons, List.append_assoc, List.singleton_append]

theorem splitNL_no_nl {a : Str} (h : '\n' ∉ a) : splitNL a = [a] := by
  have h2 := splitNLGo_no_nl a [] h
  rw [List.reverse_nil, List.nil_append] at h2
  exact h2

theorem splitNLGo_append_nl (a : Str) : ∀ acc rest, '\n' ∉ a →
    splitNLGo (a ++ '\n' :: rest) acc = (acc.reverse ++ a) :: splitNLGo rest [] := by
  induction a with
  | nil =>
    intro acc rest _
    rw [List.nil_append, splitNLGo_cons_eq, if_pos (beq_iff_eq.2 rfl), List.append_nil]
  | cons c t ih =>
    intro acc rest h
    have hc : ¬ (c == '\n') = true := by
      rw [beq_iff_eq]
      intro h2
      exact h (h2 ▸ List.mem_cons_self _ _)
    rw [List.cons_append, splitNLGo_cons_eq, if_neg hc,
      ih (c :: acc) rest (fun h2 => h (List.mem_cons_of_mem _ h2)),
      List.reverse_cons, List.append_assoc, List.singleton_append]

theorem splitNL_append_nl {a : Str} (rest : Str) (h : '\n' ∉ a) :
    splitNL (a ++ '\n' :: rest) = a :: splitNL rest := by
  have h2 := splitNLGo_append_nl a [] rest h
  rw [List.reverse_nil, List.nil_append] at h2
  exact h2

theorem intercalate_cons_cons (sep : Str) (a b : Str) (l : List Str) :
    List.intercalate sep (a :: b :: l) = a ++ sep ++ List.intercalate sep (b :: l) := by
  simp [List.intercalate, List.intersperse]

/-- Running `concatenated` over the physical lines of a serialized multi-line
dependency (items joined by the continuation separator, the whole preceded by
an all-space indent) yields exactly the single logical line joining the items
with spaces — provided the final item does not itself end in a backslash. -/
theorem concat_ser (items : List Str) : ∀ (parts : List Str) (pre : Str),
    (∀ t ∈ items, '\n' ∉ t ∧ strip t = t ∧ t ≠ []) →
    endsWithBS (items.getLastD []) = false →
    (∀ c ∈ pre, pySpace c = true) → '\n' ∉ pre → items ≠ [] →
    concatenated parts (splitNL (pre ++ List.intercalate (" \\\n    ".data) items)) =
      .ok [joinSpace (parts ++ items)] := by
  induction items with
  | nil => intro _ _ _ _ _ _ hne; exact absurd rfl hne
  | cons t rest ih =>
    intro parts pre hitems hlast hpre hprenl _
    obtain ⟨htnl, htstrip, htne⟩ := hitems t (List.mem_cons_self _ _)
    obtain ⟨ch, hch, hch2⟩ := strip_fixed_head htstrip htne
    obtain ⟨cl, hcl, hcl2⟩ := strip_fixed_last htstrip htne
    cases rest with
    | nil =>
      rw [show List.intercalate (" \\\n    ".data) [t] = t from by simp [List.intercalate]]
      rw [splitNL_no_nl (by
        intro hmem
        rcases List.mem_append.1 hmem with h2 | h2
        · exact hprenl h2
        · exact htnl h2)]
      rw [concatenated_cons, strip_space_word hpre hcl hcl2 hch hch2]
      rw [List.getLastD_cons, List.getLastD_nil] at hlast
      rw [if_neg (by rw [hlast]; exact Bool.noConfusion), concatenated_nil, if_pos rfl]
    | cons b rest2 =>
      have hre : pre ++ List.intercalate (" \\\n    ".data) (t :: b :: rest2) =
          (pre ++ (t ++ " \\".data)) ++
            '\n' :: ("    ".data ++ List.intercalate (" \\\n    ".data) (b :: rest2)) := by
        rw [intercalate_cons_cons,
          show (" \\\n    ".data : Str) = " \\".data ++ '\n' :: "    ".data from rfl]
        simp [List.append_assoc]
      rw [hre, splitNL_append_nl _ (by
        intro hmem
        rcases List.mem_append.1 hmem with h2 | h2
        · exact hprenl h2
        · rcases List.mem_append.1 h2 with h3 | h3
          · exact htnl h3
          · revert h3
            decide)]
      have hblast : (t ++ " \\".data).getLast? = some '\\' := by
        rw [List.getLast?_append]
        rfl
      rw [concatenated_cons,
        strip_space_word hpre hblast (by decide)
          (by rw [List.head?_append_of_ne_nil _ htne]; exact hch) hch2]
      rw [if_pos (by unfold endsWithBS; rw [hblast]; rfl)]
      have hdl : (t ++ " \\".data).dropLast = t ++ [' '] := by
        rw [show t ++ " \\".data = (t ++ [' ']) ++ ['\\'] from by
          rw [show (" \\".data : Str) = [' '] ++ ['\\'] from rfl, ← List.append_assoc]]
        exact List.dropLast_concat
      rw [hdl, rstrip_append_all _ (by decide), rstrip_eq_self hcl hcl2]
      rw [ih (parts ++ [t]) "    ".data (fun x hx => hitems x (List.mem_cons_of_mem _ hx))
        (by
          rw [List.getLastD_cons, List.getLastD_cons] at hlast
          rw [List.getLastD_cons]
          exact hlast)
        (by decide) (by decide) (List.cons_ne_nil b rest2)]
      rw [List.append_assoc, List.singleton_append]

theorem hash_not_prefix_of_head {s : Str} {c : Char} (hs : s.head? = some c) (hc : c ≠ '-') :
    ("--hash=".data).isPrefixOf s = false := by
  cases s with
  | nil => exact Option.noConfusion hs
  | cons x t =>
    have hx : x = c := Option.some.inj hs
    show (('-' == x) && ("-hash=".data).isPrefixOf t) = false
    rw [beq_eq_false_iff_ne.2 (fun h2 => hc (by rw [← hx]; exact h2.symm)), Bool.false_and]

theorem hash_token_head {t : Str} (h : ("--hash=".data).isPrefixOf t = true) :
    t.head? = some '-' := by
  rw [List.isPrefixOf_iff_prefix] at h
  obtain ⟨u, rfl⟩ := h
  rfl

theorem endOrComment_nil : endOrComment [] = some [] := rfl

theorem endOrComment_hash {s : Str} (h : s.head? = some '#') : endOrComment s = some s := by
  unfold endOrComment
  rw [if_neg, if_pos h]
  intro h2
  rw [h2] at h
  exact Option.noConfusion h

theorem hashIters_succ (fuel : Nat) (s : Str) :
    hashIters (fuel + 1) s =
      if ("--hash=".data).isPrefixOf s then
        (cdown ((s.drop 7).takeWhile nonspace).length).findSome? fun k =>
          match hashIters fuel (((s.drop 7).drop k).drop
              ((((s.drop 7).drop k).takeWhile pySpace).length)) with
          | some (m, c) =>
            some (7 + k + ((((s.drop 7).drop k).takeWhile pySpace).length) + m, c)
          | none =>
            (endOrComment (((s.drop 7).drop k).drop
                ((((s.drop 7).drop k).takeWhile pySpace).length))).map
              fun c => (7 + k + ((((s.drop 7).drop k).takeWhile pySpace).length), c)
      else none := rfl

theorem hashIters_nil {fuel : Nat} : hashIters fuel [] = none := by
  cases fuel with
  | zero => rfl
  | succ f => rw [hashIters_succ, if_neg (by decide)]

theorem hashIters_none_of_head {fuel : Nat} {s : Str} {c : Char} (hs : s.head? = some c)
    (hc : c ≠ '-') : hashIters fuel s = none := by
  cases fuel with
  | zero => rfl
  | succ f =>
    rw [hashIters_succ,
      if_neg (by rw [hash_not_prefix_of_head hs hc]; exact Bool.noConfusion)]

theorem afterVersion_eq (s : Str) :
    afterVersion s =
      match hashIters ((s.dropWhile pySpace).length + 1) (s.dropWhile pySpace) with
      | some (m, c) => some ((s.dropWhile pySpace).take m, c)
      | none => (endOrComment (s.dropWhile pySpace)).map fun c => ([], c) := rfl

theorem afterVersion_nil : afterVersion [] = some ([], []) := rfl

theorem afterVersion_comment {sp c0 : Str} (hsp : ∀ x ∈ sp, pySpace x = true)
    (hc : c0.head? = some '#') :
    afterVersion (sp ++ c0) = some ([], c0) := by
  rw [afterVersion_eq, dropWhile_append_all _ hsp, dropWhile_self_of_head hc (by decide),
    hashIters_none_of_head hc (by decide), endOrComment_hash hc]
  rfl

theorem findSome?_cdown_head {β : Type} {f : Nat → Option β} {n : Nat} {b : β}
    (hn : 1 ≤ n) (hf : f n = some b) : (cdown n).findSome? f = some b := by
  obtain ⟨m, rfl⟩ : ∃ m, n = m + 1 := ⟨n - 1, by omega⟩
  rw [cdown_succ, List.findSome?_cons, hf]

theorem joinSpace_head {b : Str} (l : List Str) (hb : b ≠ []) :
    (joinSpace (b :: l)).head? = b.head? := by
  cases l with
  | nil => rw [joinSpace_single]
  | cons x t => rw [joinSpace_cons, List.head?_append_of_ne_nil _ hb]

theorem joinSpace_cons_length (a b : Str) (l : List Str) :
    (joinSpace (a :: b :: l)).length = a.length + 1 + (joinSpace (b :: l)).length := by
  rw [joinSpace_cons, List.length_append, List.length_cons]
  omega

/-- Evaluating the hash-group matcher on a space-joined list of hash tokens
followed by an optional comment: the group consumes all the tokens (and the
single space before a comment) and returns the comment. -/
theorem hashIters_eval (toks : List Str) : ∀ (c0 tail : Str) (d : Nat) (fuel : Nat),
    (∀ t ∈ toks, ("--hash=".data).isPrefixOf t = true ∧ 8 ≤ t.length ∧
      ∀ ch ∈ t, nonspace ch = true) →
    (c0 = [] ∧ tail = [] ∧ d = 0 ∨ c0.head? = some '#' ∧ tail = ' ' :: c0 ∧ d = 1) →
    toks ≠ [] → toks.length < fuel →
    hashIters fuel (joinSpace toks ++ tail) =
      some ((joinSpace toks).length + d, c0) := by
  induction toks with
  | nil =>
    intro _ _ _ _ _ _ hne _
    exact absurd rfl hne
  | cons t rest ih =>
    intro c0 tail d fuel htoks hsh _ hfuel
    obtain ⟨htp, htl, htns⟩ := htoks t (List.mem_cons_self _ _)
    obtain ⟨u, hu⟩ := List.isPrefixOf_iff_prefix.1 htp
    obtain ⟨f, rfl⟩ : ∃ f, fuel = f + 1 := ⟨fuel - 1, by omega⟩
    have hlen7 : 7 + u.length = t.length := by
      have h2 := congrArg List.length hu
      rw [List.length_append, show ("--hash=".data : Str).length = 7 from rfl] at h2
      omega
    have hulen : 1 ≤ u.length := by omega
    have huns : ∀ ch ∈ u, nonspace ch = true := by
      intro ch hch
      exact htns ch (by rw [← hu]; exact List.mem_append_right _ hch)
    have htailns : tail.takeWhile nonspace = [] := by
      rcases hsh with ⟨_, rfl, _⟩ | ⟨_, rfl, _⟩
      · rfl
      · exact List.takeWhile_cons_of_neg (by decide)
    have hsp1 : (tail.takeWhile pySpace).length = d := by
      rcases hsh with ⟨rfl, rfl, rfl⟩ | ⟨hh, rfl, rfl⟩
      · rfl
      · rw [List.takeWhile_cons_of_pos (by decide), takeWhile_nil_of_head hh (by decide)]
        rfl
    have hdt : tail.drop (tail.takeWhile pySpace).length = c0 := by
      rw [hsp1]
      rcases hsh with ⟨rfl, rfl, rfl⟩ | ⟨_, rfl, rfl⟩
      · rfl
      · rfl
    have hinner : hashIters f c0 = none := by
      rcases hsh with ⟨rfl, _, _⟩ | ⟨hh, _, _⟩
      · exact hashIters_nil
      · exact hashIters_none_of_head hh (by decide)
    have hend : endOrComment c0 = some c0 := by
      rcases hsh with ⟨rfl, _, _⟩ | ⟨hh, _, _⟩
      · rfl
      · exact endOrComment_hash hh
    cases rest with
    | nil =>
      rw [joinSpace_single]
      have hpre : ("--hash=".data).isPrefixOf (t ++ tail) = true := by
        rw [List.isPrefixOf_iff_prefix, ← hu, List.append_assoc]
        exact List.prefix_append _ _
      have hs7 : (t ++ tail).drop 7 = u ++ tail := by
        rw [← hu, List.append_assoc, show (7 : Nat) = ("--hash=".data : Str).length from rfl,
          List.drop_left]
      rw [hashIters_succ, if_pos hpre, hs7]
      have hrun : (u ++ tail).takeWhile nonspace = u := by
        rw [takeWhile_append_all _ huns, htailns, List.append_nil]
      rw [hrun]
      refine findSome?_cdown_head hulen ?_
      simp only [List.drop_left]
      rw [hdt, hsp1, hinner, hend]
      show some (7 + u.length + d, c0) = some (t.length + d, c0)
      rw [hlen7]
    | cons b rest2 =>
      obtain ⟨hbp, hbl, _⟩ := htoks b (List.mem_cons_of_mem _ (List.mem_cons_self _ _))
      have hbne : b ≠ [] := by
        intro h2
        rw [h2] at hbl
        simp at hbl
      have hjne : joinSpace (b :: rest2) ≠ [] := by
        intro h2
        have h3 := joinSpace_head rest2 hbne
        rw [h2] at h3
        rw [hash_token_head hbp] at h3
        exact Option.noConfusion h3
      have hre : joinSpace (t :: b :: rest2) ++ tail =
          "--hash=".data ++ (u ++ ' ' :: (joinSpace (b :: rest2) ++ tail)) := by
        rw [joinSpace_cons, ← hu]
        simp [List.append_assoc]
      rw [hre]
      have hpre : ("--hash=".data).isPrefixOf
          ("--hash=".data ++ (u ++ ' ' :: (joinSpace (b :: rest2) ++ tail))) = true := by
        rw [List.isPrefixOf_iff_prefix]
        exact List.prefix_append _ _
      have hs7 : ("--hash=".data ++ (u ++ ' ' :: (joinSpace (b :: rest2) ++ tail))).drop 7 =
          u ++ ' ' :: (joinSpace (b :: rest2) ++ tail) := by
        rw [show (7 : Nat) = ("--hash=".data : Str).length from rfl, List.drop_left]
      rw [hashIters_succ, if_pos hpre, hs7]
      have hZhead : (joinSpace (b :: rest2) ++ tail).head? = some '-' := by
        rw [List.head?_append_of_ne_nil _ hjne, joinSpace_head _ hbne]
        exact hash_token_head hbp
      have hrun : (u ++ ' ' :: (joinSpace (b :: rest2) ++ tail)).takeWhile nonspace = u := by
        rw [takeWhile_append_all _ huns, List.takeWhile_cons_of_neg (by decide), List.append_nil]
      rw [hrun]
      refine findSome?_cdown_head hulen ?_
      simp only [List.drop_left]
      have hspw : ((' ' :: (joinSpace (b :: rest2) ++ tail)).takeWhile pySpace).length = 1 := by
        rw [List.takeWhile_cons_of_pos (by decide), takeWhile_nil_of_head hZhead (by decide)]
        rfl
      rw [hspw,
        show (' ' :: (joinSpace (b :: rest2) ++ tail)).drop 1 =
          joinSpace (b :: rest2) ++ tail from rfl,
        ih c0 tail d f (fun x hx => htoks x (List.mem_cons_of_mem _ hx)) hsh
          (List.cons_ne_nil _ _) (by
            simp only [List.length_cons] at hfuel ⊢
            omega)]
      show some (7 + u.length + 1 + ((joinSpace (b :: rest2)).length + d), c0) =
        some ((joinSpace (t :: b :: rest2)).length + d, c0)
      rw [joinSpace_cons_length]
      have harith : 7 + u.length + 1 + ((joinSpace (b :: rest2)).length + d) =
          t.length + 1 + (joinSpace (b :: rest2)).length + d := by
        omega
      rw [harith]

theorem joinSpace_length_ge (toks : List Str) (h : ∀ t ∈ toks, 1 ≤ t.length) :
    toks.length ≤ (joinSpace toks).length := by
  induction toks with
  | nil => exact Nat.le_refl 0
  | cons a rest ih =>
    cases rest with
    | nil =>
      rw [joinSpace_single]
      simpa using h a (List.mem_cons_self _ _)
    | cons b r2 =>
      rw [joinSpace_cons_length, List.length_cons]
      have h2 := ih (fun t ht => h t (List.mem_cons_of_mem _ ht))
      have h3 := h a (List.mem_cons_self _ _)
      omega

/-- `afterVersion` on the tail a hash-carrying serialization places after the
version: a space, the space-joined hash tokens, and an optional comment. -/
theorem afterVersion_hashes (toks : List Str) (c0 tail : Str) (d : Nat)
    (htoks : ∀ t ∈ toks, ("--hash=".data).isPrefixOf t = true ∧ 8 ≤ t.length ∧
      ∀ ch ∈ t, nonspace ch = true)
    (hsh : c0 = [] ∧ tail = [] ∧ d = 0 ∨ c0.head? = some '#' ∧ tail = ' ' :: c0 ∧ d = 1)
    (hne : toks ≠ []) :
    afterVersion (' ' :: (joinSpace toks ++ tail)) =
      some (joinSpace toks ++ (if d = 1 then [' '] else []), c0) := by
  obtain ⟨t0, rest0, rfl⟩ : ∃ t0 r, toks = t0 :: r := by
    cases toks with
    | nil => exact absurd rfl hne
    | cons a b => exact ⟨a, b, rfl⟩
  obtain ⟨ht0p, ht0l, _⟩ := htoks t0 (List.mem_cons_self _ _)
  have ht0ne : t0 ≠ [] := by
    intro h2
    rw [h2] at ht0l
    simp at ht0l
  have hjne : joinSpace (t0 :: rest0) ≠ [] := by
    intro h2
    have h3 := joinSpace_head rest0 ht0ne
    rw [h2, hash_token_head ht0p] at h3
    exact Option.noConfusion h3
  have hs1 : (' ' :: (joinSpace (t0 :: rest0) ++ tail)).dropWhile pySpace =
      joinSpace (t0 :: rest0) ++ tail := by
    rw [List.dropWhile_cons_of_pos (by decide)]
    refine dropWhile_self_of_head (c := '-') ?_ (by decide)
    rw [List.head?_append_of_ne_nil _ hjne, joinSpace_head _ ht0ne]
    exact hash_token_head ht0p
  have hbound : (t0 :: rest0).length < (joinSpace (t0 :: rest0) ++ tail).length + 1 := by
    have h2 := joinSpace_length_ge (t0 :: rest0) (fun t ht => by
      have := (htoks t ht).2.1
      omega)
    rw [List.length_append]
    omega
  rw [afterVersion_eq, hs1,
    hashIters_eval (t0 :: rest0) c0 tail d ((joinSpace (t0 :: rest0) ++ tail).length + 1)
      htoks hsh hne hbound]
  show some ((joinSpace (t0 :: rest0) ++ tail).take ((joinSpace (t0 :: rest0)).length + d),
    c0) = _
  rcases hsh with ⟨rfl, rfl, rfl⟩ | ⟨_, rfl, rfl⟩
  · rw [List.append_nil, Nat.add_zero, List.take_length, if_neg (by omega), List.append_nil]
  · rw [List.take_append, List.take_succ_cons, List.take_zero, if_pos rfl]

theorem parseVHC_eq (s : Str) :
    parseVHC s = (cdown (s.takeWhile nonspace).length).findSome? fun k =>
      (afterVersion (s.drop k)).map fun hc => (s.take k, hc.1, hc.2) := rfl

theorem parseVHC_space_or_nil {t : Str}
    (h : t = [] ∨ ∃ ch, t.head? = some ch ∧ pySpace ch = true) : parseVHC t = none := by
  have hrun : t.takeWhile nonspace = [] := by
    rcases h with rfl | ⟨ch, hh, hsp⟩
    · rfl
    · exact takeWhile_nil_of_head hh (by unfold nonspace; rw [hsp]; rfl)
  rw [parseVHC_eq, hrun]
  rfl

theorem parseVHC_ne_none {s : Str} {k : Nat} (h1 : 1 ≤ k)
    (h2 : k ≤ (s.takeWhile nonspace).length) (hav : (afterVersion (s.drop k)).isSome = true) :
    parseVHC s ≠ none := by
  intro h0
  rw [parseVHC_eq, List.findSome?_eq_none_iff] at h0
  have h3 := h0 k (mem_cdown.2 ⟨h1, h2⟩)
  rw [Option.map_eq_none'] at h3
  rw [h3] at hav
  exact Bool.noConfusion hav

/-- `parseVHC` on a version of non-space characters followed by a tail that is
empty or starts with whitespace: the version group takes exactly the word. -/
theorem parseVHC_serialized {v tail0 : Str} {hc : Str × Str} (hv : v ≠ [])
    (hvns : ∀ ch ∈ v, nonspace ch = true)
    (htail : tail0 = [] ∨ ∃ ch, tail0.head? = some ch ∧ pySpace ch = true)
    (hav : afterVersion tail0 = some hc) :
    parseVHC (v ++ tail0) = some (v, hc.1, hc.2) := by
  have hrun : (v ++ tail0).takeWhile nonspace = v := by
    rw [takeWhile_append_all _ hvns]
    rcases htail with rfl | ⟨ch, hh, hsp⟩
    · rw [List.takeWhile_nil, List.append_nil]
    · rw [takeWhile_nil_of_head hh (by unfold nonspace; rw [hsp]; rfl), List.append_nil]
  have h1 : 1 ≤ v.length := by
    cases v with
    | nil => exact absurd rfl hv
    | cons a b => simp
  have hres := parseVHC_eq_some (s := v ++ tail0) (k := v.length) h1
    (by rw [hrun]) (by rw [List.drop_left]; exact hav)
    (by
      intro j hj1 hj2
      rw [hrun] at hj2
      omega)
  rwa [List.take_left] at hres

/-- Re-parsing a string of the shape the pinned serializer emits: a non-space
package, the literal `==`, a non-space version that neither embeds a
non-final `==` nor starts with a bare `=`, and a whitespace-led tail.  The
package group takes exactly the original package. -/
theorem re_dependency_serialized {p v q : Str} {r : Str × Str}
    (hp : p ≠ []) (hpns : ∀ ch ∈ p, nonspace ch = true)
    (hv : v ≠ []) (hvns : ∀ ch ∈ v, nonspace ch = true)
    (hA : ∀ v1 v2, v = v1 ++ "==".data ++ v2 → v2 = [])
    (hB : v.head? = some '=' → v.length = 1)
    (htail : q = [] ∨ ∃ ch, q.head? = some ch ∧ pySpace ch = true)
    (hav : afterVersion q = some r) :
    re_dependency ((p ++ "==".data) ++ (v ++ q)) =
      some { package := p, version := strip v, hashes := strip r.1,
             comment := strip r.2, is_vcs := false,
             line := (p ++ "==".data) ++ (v ++ q) } := by
  have h1 : 1 ≤ p.length := by
    cases p with
    | nil => exact absurd rfl hp
    | cons a b => simp
  have hX : ∀ n : Nat, ((p ++ "==".data) ++ (v ++ q)).drop (p.length + 2 + n) =
      (v ++ q).drop n := by
    intro n
    rw [show p.length + 2 + n = (p ++ "==".data).length + n from by
        rw [List.length_append]; rfl,
      List.drop_append]
  have hdp : ((p ++ "==".data) ++ (v ++ q)).drop p.length =
      "==".data ++ (v ++ q) := by
    rw [List.append_assoc, List.drop_left]
  have hd1 : ((p ++ "==".data) ++ (v ++ q)).drop (p.length + 1) =
      '=' :: (v ++ q) := by
    rw [← List.drop_drop, hdp]
    rfl
  have hrun : ((p ++ "==".data) ++ (v ++ q)).takeWhile nonspace =
      (p ++ "==".data) ++ v := by
    rw [List.append_assoc, takeWhile_append_all _ hpns,
      takeWhile_append_all _ (by decide : ∀ c ∈ ("==".data : Str), nonspace c = true),
      takeWhile_append_all _ hvns]
    rcases htail with rfl | ⟨ch, hh, hsp⟩
    · rw [List.takeWhile_nil, List.append_nil, List.append_assoc]
    · rw [takeWhile_nil_of_head hh (by unfold nonspace; rw [hsp]; rfl), List.append_nil,
        List.append_assoc]
  have hN : (((p ++ "==".data) ++ (v ++ q)).takeWhile nonspace).length =
      p.length + 2 + v.length := by
    rw [hrun, List.length_append, List.length_append]
    rfl
  have hres := re_dependency_eq_some (s := (p ++ "==".data) ++ (v ++ q))
    (i := p.length) h1
    (by rw [hN]; omega)
    (by
      rw [hdp, List.isPrefixOf_iff_prefix]
      exact List.prefix_append _ _)
    (by
      rw [show p.length + 2 = p.length + 2 + 0 from rfl, hX 0, List.drop_zero]
      exact parseVHC_serialized hv hvns htail hav)
    (by
      intro j hj1 hj2 hjP
      rw [hN] at hj2
      rcases Nat.lt_or_ge j (p.length + 2) with hj3 | hj3
      · obtain rfl : j = p.length + 1 := by omega
        rw [hd1, List.isPrefixOf_iff_prefix] at hjP
        obtain ⟨w, hw⟩ := hjP
        have hwt : '=' :: w = v ++ q := congrArg List.tail hw
        have hvh : v.head? = some '=' := by
          rw [← List.head?_append_of_ne_nil v hv, ← hwt]
          rfl
        obtain ⟨a, rfl⟩ := List.length_eq_one.1 (hB hvh)
        obtain rfl : a = '=' := Option.some.inj hvh
        rw [show p.length + 1 + 2 = p.length + 2 + 1 from by omega, hX 1]
        exact parseVHC_space_or_nil htail
      · obtain ⟨j', rfl⟩ : ∃ j', j = p.length + 2 + j' := ⟨j - (p.length + 2), by omega⟩
        have hj' : j' ≤ v.length := by omega
        rw [hX j', List.drop_append_of_le_length hj', List.isPrefixOf_iff_prefix] at hjP
        obtain ⟨w, hw⟩ := hjP
        rw [show p.length + 2 + j' + 2 = p.length + 2 + (j' + 2) from by omega, hX (j' + 2)]
        by_cases hj2v : j' + 2 ≤ v.length
        · have htake : (v.drop j').take 2 = "==".data := by
            have h4 := congrArg (List.take 2) hw
            rw [show List.take 2 ("==".data ++ w) = "==".data from by
                rw [List.take_append_of_le_length
                  (by rw [show ("==".data : Str).length = 2 from rfl])]
                rfl] at h4
            rw [List.take_append_of_le_length (by
              rw [List.length_drop]
              omega)] at h4
            exact h4.symm
          have hsplit : v = v.take j' ++ "==".data ++ v.drop (j' + 2) := by
            rw [List.append_assoc]
            conv_lhs => rw [← List.take_append_drop j' v]
            congr 1
            conv_lhs => rw [← List.take_append_drop 2 (v.drop j')]
            rw [htake, List.drop_drop]
          have hnil := hA (v.take j') (v.drop (j' + 2)) hsplit
          rw [List.drop_append_of_le_length hj2v, hnil, List.nil_append]
          exact parseVHC_space_or_nil htail
        · have htl : q.head? = some '=' := by
            have h4 := congrArg (List.drop (v.drop j').length) hw
            rw [List.drop_left] at h4
            have h5 : (v.drop j').length = v.length - j' := List.length_drop _ _
            rcases (by omega : v.length - j' = 0 ∨ v.length - j' = 1) with h6 | h6
            · rw [h5, h6, List.drop_zero] at h4
              rw [← h4]
              rfl
            · rw [h5, h6] at h4
              rw [← h4]
              rfl
          rcases htail with rfl | ⟨ch, hh, hsp⟩
          · exact Option.noConfusion htl
          · rw [hh] at htl
            obtain rfl : ch = '=' := Option.some.inj htl
            exact absurd hsp (by decide))
  have htk : List.take p.length ((p ++ "==".data) ++ (v ++ q)) = p := by
    rw [List.append_assoc, List.take_left]
  rwa [htk] at hres

theorem splitWS_eq_cons {y : Str} {c : Char} (hh : y.head? = some c) (hc : nonspace c = true) :
    splitWS y = (y.takeWhile nonspace) :: splitWS (y.dropWhile nonspace) := by
  cases y with
  | nil => exact Option.noConfusion hh
  | cons x t =>
    have hx : x = c := Option.some.inj hh
    rw [List.takeWhile_cons_of_pos (by rw [hx]; exact hc),
      List.dropWhile_cons_of_pos (by rw [hx]; exact hc),
      splitWS_cons_word _ (by rw [hx]; exact pySpace_eq_false hc)]

theorem strip_subset {s : Str} : ∀ ch ∈ strip s, ch ∈ s := by
  intro ch hch
  have h1 : ch ∈ rstrip s := (List.dropWhile_suffix pySpace).subset hch
  unfold rstrip at h1
  rw [List.mem_reverse] at h1
  have h2 : ch ∈ s.reverse := (List.dropWhile_suffix pySpace).subset h1
  exact List.mem_reverse.1 h2

theorem strip_last_nonspace {s : Str} {c : Char} (h : (strip s).getLast? = some c) :
    pySpace c = false := by
  have hne : strip s ≠ [] := by
    intro h2
    rw [h2] at h
    exact Option.noConfusion h
  have hsuf : strip s <:+ rstrip s := List.dropWhile_suffix pySpace
  obtain ⟨t, ht⟩ := hsuf
  have h2 : (rstrip s).getLast? = some c := by
    rw [← ht, List.getLast?_append, h]
    rfl
  have h3 : (s.reverse.dropWhile pySpace).head? = some c := by
    have h4 : ((s.reverse.dropWhile pySpace).reverse).getLast? = some c := h2
    rwa [List.getLast?_reverse] at h4
  exact dropWhile_head_false h3

theorem strip_idem (s : Str) : strip (strip s) = strip s := by
  cases hne : strip s with
  | nil => rfl
  | cons a t =>
    rw [← hne]
    have hh : (strip s).head? = some a := by rw [hne]; rfl
    have hhs : pySpace a = false := dropWhile_head_false hh
    obtain ⟨cl, hcl⟩ : ∃ cl, (strip s).getLast? = some cl := by
      rw [hne]
      cases h2 : (a :: t).getLast? with
      | none =>
        rw [List.getLast?_eq_none_iff] at h2
        exact List.noConfusion h2
      | some x => exact ⟨x, rfl⟩
    have hcls := strip_last_nonspace hcl
    show lstrip (rstrip (strip s)) = strip s
    rw [rstrip_eq_self hcl hcls, lstrip_eq_self hh hhs]

theorem rstrip_head {c0 : Str} {x : Char} (hh : c0.head? = some x) (hx : pySpace x = false) :
    (rstrip c0).head? = some x := by
  have hpre : rstrip c0 <+: c0 := by
    rw [show c0 = c0.reverse.reverse from (List.reverse_reverse c0).symm]
    unfold rstrip
    rw [List.reverse_reverse, List.reverse_prefix]
    exact List.dropWhile_suffix pySpace
  have hne : rstrip c0 ≠ [] := by
    intro h2
    unfold rstrip at h2
    rw [List.reverse_eq_nil_iff, List.dropWhile_eq_nil_iff] at h2
    have hx2 : x ∈ c0 := by
      cases c0 with
      | nil => exact Option.noConfusion hh
      | cons a t =>
        have : a = x := Option.some.inj hh
        rw [← this]
        exact List.mem_cons_self _ _
    have := h2 x (List.mem_reverse.2 hx2)
    rw [hx] at this
    exact Bool.noConfusion this
  obtain ⟨t, ht⟩ := hpre
  have h5 : (rstrip c0).head? = c0.head? := by
    conv_rhs => rw [← ht]
    rw [List.head?_append_of_ne_nil _ hne]
  rw [h5, hh]

theorem strip_head {c0 : Str} {x : Char} (hh : c0.head? = some x) (hx : pySpace x = false) :
    (strip c0).head? = some x := by
  have h1 := rstrip_head hh hx
  show (lstrip (rstrip c0)).head? = some x
  rw [lstrip_eq_self h1 hx]
  exact h1

theorem endOrComment_cases {s c : Str} (h : endOrComment s = some c) :
    c = [] ∨ (c = s ∧ c.head? = some '#') := by
  unfold endOrComment at h
  by_cases h1 : s = []
  · rw [if_pos h1] at h
    exact Or.inl (Option.some.inj h).symm
  · rw [if_neg h1] at h
    by_cases h2 : s.head? = some '#'
    · rw [if_pos h2] at h
      obtain rfl := (Option.some.inj h).symm
      exact Or.inr ⟨rfl, h2⟩
    · rw [if_neg h2] at h
      exact Option.noConfusion h

theorem takeWhile_nil_of_all {p : Char → Bool} {l : Str} (h : ∀ c ∈ l, p c = false) :
    l.takeWhile p = [] := by
  cases l with
  | nil => rfl
  | cons a t =>
    exact List.takeWhile_cons_of_neg
      (by rw [h a (List.mem_cons_self _ _)]; exact Bool.noConfusion)

theorem head?_take {s : Str} {m : Nat} (hm : 1 ≤ m) : (s.take m).head? = s.head? := by
  cases s with
  | nil => rw [List.take_nil]
  | cons a t =>
    obtain ⟨m', rfl⟩ : ∃ m', m = m' + 1 := ⟨m - 1, by omega⟩
    rw [List.take_succ_cons]
    rfl

theorem drop_length_takeWhile (p : Char → Bool) (l : Str) :
    l.drop (l.takeWhile p).length = l.dropWhile p := by
  have h := List.takeWhile_append_dropWhile (p := p) (l := l)
  calc l.drop (l.takeWhile p).length
      = (l.takeWhile p ++ l.dropWhile p).drop (l.takeWhile p).length := by rw [h]
    _ = l.dropWhile p := List.drop_left _ _

/-- Structure of a successful hash-group match: the consumed text splits into
non-space words, each a `--hash=` token of length at least 8; the returned
comment is empty or `#`-headed, with all its characters drawn from the
input. -/
theorem hashIters_split {fuel : Nat} : ∀ {s : Str} {m : Nat} {c : Str},
    hashIters fuel s = some (m, c) →
    m ≤ s.length ∧ splitWS (s.take m) ≠ [] ∧
    (∀ w ∈ splitWS (s.take m), ("--hash=".data).isPrefixOf w = true ∧ 8 ≤ w.length) ∧
    (c = [] ∨ c.head? = some '#') ∧ (∀ ch ∈ c, ch ∈ s) := by
  induction fuel with
  | zero =>
    intro s m c h
    exact Option.noConfusion h
  | succ f ih =>
    intro s m c h
    rw [hashIters_succ] at h
    by_cases hpre : ("--hash=".data).isPrefixOf s = true
    case neg =>
      rw [if_neg hpre] at h
      exact Option.noConfusion h
    rw [if_pos hpre] at h
    obtain ⟨k, hkmem, hkf⟩ := List.exists_of_findSome?_eq_some h
    obtain ⟨hk1, hk2⟩ := mem_cdown.1 hkmem
    obtain ⟨w0, hw0⟩ := List.isPrefixOf_iff_prefix.1 hpre
    have hu0 : s.drop 7 = w0 := by
      rw [← hw0, show (7 : Nat) = ("--hash=".data : Str).length from rfl, List.drop_left]
    have hs7len : s.length = 7 + w0.length := by
      rw [← hw0, List.length_append]
      rfl
    rw [hu0] at hkf hk2
    have hw0len : k ≤ w0.length := hk2.trans (takeWhile_length_le w0)
    have htok_ns : ∀ ch ∈ w0.take k, nonspace ch = true := mem_take_of_le_takeWhile hk2
    have htok_len : (w0.take k).length = k := by
      rw [List.length_take]
      omega
    have hsps : ∀ ch ∈ (w0.drop k).takeWhile pySpace, pySpace ch = true :=
      fun ch hch => List.mem_takeWhile_imp hch
    have hsple : (((w0.drop k).takeWhile pySpace).length) ≤ (w0.drop k).length :=
      takeWhile_length_le _
    have hs2len : (w0.drop k).length = w0.length - k := List.length_drop _ _
    have htksp : (w0.drop k).take (((w0.drop k).takeWhile pySpace).length) =
        (w0.drop k).takeWhile pySpace := by
      rw [take_eq_take_takeWhile pySpace _ _ (le_refl _), List.take_length]
    have hs3eq : (w0.drop k).drop (((w0.drop k).takeWhile pySpace).length) =
        (w0.drop k).dropWhile pySpace := drop_length_takeWhile pySpace (w0.drop k)
    have hs3head : ∀ x : Char,
        ((w0.drop k).drop (((w0.drop k).takeWhile pySpace).length)).head? = some x →
        nonspace x = true := by
      intro x hx
      rw [hs3eq] at hx
      exact nonspace_eq_true (dropWhile_head_false hx)
    have hlitne : ("--hash=".data : Str) ≠ [] := by decide
    have hw1ne : ("--hash=".data ++ w0.take k) ≠ [] := by
      intro h6
      rw [List.append_eq_nil] at h6
      exact hlitne h6.1
    have hyhead : ∀ z2 : Str, (("--hash=".data ++ w0.take k) ++ z2).head? = some '-' := by
      intro z2
      rw [List.head?_append_of_ne_nil _ hw1ne, List.head?_append_of_ne_nil _ hlitne]
      rfl
    have hw1ns : ∀ ch ∈ "--hash=".data ++ w0.take k, nonspace ch = true := by
      intro ch hch
      rcases List.mem_append.1 hch with h5 | h5
      · exact (by decide : ∀ x ∈ ("--hash=".data : Str), nonspace x = true) ch h5
      · exact htok_ns ch h5
    cases hin : hashIters f
        ((w0.drop k).drop (((w0.drop k).takeWhile pySpace).length)) with
    | some mc =>
      obtain ⟨m', c'⟩ := mc
      rw [hin] at hkf
      have h2 := Option.some.inj hkf
      obtain ⟨hm1, hm2⟩ : m = 7 + k + (((w0.drop k).takeWhile pySpace).length) + m' ∧
          c = c' := ⟨(congrArg Prod.fst h2).symm, (congrArg Prod.snd h2).symm⟩
      subst hm1
      subst hm2
      obtain ⟨ihm, ihne, ihw, ihc, ihsub⟩ := ih hin
      rw [List.length_drop] at ihm
      have htkm : s.take (7 + k + (((w0.drop k).takeWhile pySpace).length) + m') =
          ("--hash=".data ++ w0.take k) ++ ((w0.drop k).takeWhile pySpace ++
            ((w0.drop k).drop (((w0.drop k).takeWhile pySpace).length)).take m') := by
        rw [← hw0]
        rw [show 7 + k + (((w0.drop k).takeWhile pySpace).length) + m' =
          ("--hash=".data : Str).length +
            (k + ((((w0.drop k).takeWhile pySpace).length) + m')) from by
          rw [show ("--hash=".data : Str).length = 7 from rfl]
          omega]
        rw [List.take_append, List.take_add, List.take_add, htksp, List.append_assoc]
      refine ⟨?_, ?_, ?_, ihc, ?_⟩
      · rw [hs7len]
        omega
      · rw [htkm, splitWS_eq_cons (hyhead _) (by decide)]
        exact List.cons_ne_nil _ _
      · rw [htkm, splitWS_eq_cons (hyhead _) (by decide)]
        intro w hw
        rcases List.mem_cons.1 hw with rfl | hw2
        · constructor
          · rw [takeWhile_append_all _ hw1ns, List.isPrefixOf_iff_prefix, List.append_assoc]
            exact List.prefix_append _ _
          · rw [takeWhile_append_all _ hw1ns, List.length_append, List.length_append,
              show ("--hash=".data : Str).length = 7 from rfl, htok_len]
            omega
        · rw [dropWhile_append_all _ hw1ns] at hw2
          refine ihw w ?_
          cases hsp0 : (w0.drop k).takeWhile pySpace with
          | cons c1 t1 =>
            rw [hsp0] at hw2
            have hc1 : pySpace c1 = true := hsps c1 (by
              rw [hsp0]
              exact List.mem_cons_self _ _)
            have hc1n : nonspace c1 = false := by
              unfold nonspace
              rw [hc1]
              rfl
            rw [List.cons_append,
              List.dropWhile_cons_of_neg (by rw [hc1n]; exact Bool.noConfusion),
              ← List.cons_append,
              splitWS_leading_spaces _ (by
                intro x hx
                exact hsps x (by rw [hsp0]; exact hx))] at hw2
            exact hw2
          | nil =>
            rw [hsp0, List.nil_append] at hw2
            rw [hsp0] at hs3head
            simp only [List.length_nil, List.drop_zero] at hw2 hs3head ⊢
            cases hztest : (w0.drop k).take m' with
            | nil =>
              rw [hztest] at hw2
              simp only [List.dropWhile_nil] at hw2
              exact absurd hw2 (List.not_mem_nil w)
            | cons a t =>
              have hm'pos : 1 ≤ m' := by
                by_contra h6
                have h7 : m' = 0 := by omega
                rw [h7, List.take_zero] at hztest
                exact List.noConfusion hztest
              have hahead : nonspace a = true := by
                refine hs3head a ?_
                rw [← head?_take hm'pos, hztest]
                rfl
              rw [hztest, List.dropWhile_cons_of_pos hahead] at hw2
              rw [splitWS_eq_cons (y := a :: t) (c := a) rfl hahead,
                List.dropWhile_cons_of_pos hahead]
              exact List.mem_cons_of_mem _ hw2
      · intro ch hch
        have h5 := ihsub ch hch
        have h6 : ch ∈ w0.drop k := List.drop_subset _ _ h5
        have h7 : ch ∈ w0 := List.drop_subset _ _ h6
        rw [← hw0]
        exact List.mem_append_right _ h7
    | none =>
      rw [hin] at hkf
      cases hend : endOrComment
          ((w0.drop k).drop (((w0.drop k).takeWhile pySpace).length)) with
      | none =>
        rw [hend] at hkf
        exact Option.noConfusion hkf
      | some c'' =>
        rw [hend] at hkf
        have h2 := Option.some.inj hkf
        obtain ⟨hm1, hm2⟩ : m = 7 + k + (((w0.drop k).takeWhile pySpace).length) ∧
            c = c'' := ⟨(congrArg Prod.fst h2).symm, (congrArg Prod.snd h2).symm⟩
        subst hm1
        subst hm2
        have htkm : s.take (7 + k + (((w0.drop k).takeWhile pySpace).length)) =
            ("--hash=".data ++ w0.take k) ++ (w0.drop k).takeWhile pySpace := by
          rw [← hw0]
          rw [show 7 + k + (((w0.drop k).takeWhile pySpace).length) =
            ("--hash=".data : Str).length +
              (k + (((w0.drop k).takeWhile pySpace).length)) from by
            rw [show ("--hash=".data : Str).length = 7 from rfl]
            omega]
          rw [List.take_append, List.take_add, htksp, List.append_assoc]
        have hspsn : ∀ x ∈ (w0.drop k).takeWhile pySpace, nonspace x = false := by
          intro x hx
          unfold nonspace
          rw [hsps x hx]
          rfl
        have hsws : splitWS (s.take (7 + k + (((w0.drop k).takeWhile pySpace).length))) =
            [("--hash=".data ++ w0.take k)] := by
          rw [htkm, splitWS_eq_cons (hyhead _) (by decide),
            takeWhile_append_all _ hw1ns, dropWhile_append_all _ hw1ns,
            takeWhile_nil_of_all hspsn, dropWhile_eq_self_of_all hspsn, List.append_nil]
          show _ :: splitWSGo _ [] = _
          rw [splitWSGo_spaces_nil hsps]
        refine ⟨?_, ?_, ?_, ?_, ?_⟩
        · rw [hs7len]
          omega
        · rw [hsws]
          exact List.cons_ne_nil _ _
        · rw [hsws]
          intro w hw
          rw [List.mem_singleton] at hw
          subst hw
          constructor
          · rw [List.isPrefixOf_iff_prefix]
            exact List.prefix_append _ _
          · rw [List.length_append, show ("--hash=".data : Str).length = 7 from rfl,
              htok_len]
            omega
        · rcases endOrComment_cases hend with h5 | ⟨h5, h6⟩
          · exact Or.inl h5
          · exact Or.inr h6
        · intro ch hch
          rcases endOrComment_cases hend with h5 | ⟨h5, h6⟩
          · rw [h5] at hch
            exact absurd hch (List.not_mem_nil ch)
          · rw [h5] at hch
            have h7 : ch ∈ w0.drop k := List.drop_subset _ _ hch
            have h8 : ch ∈ w0 := List.drop_subset _ _ h7
            rw [← hw0]
            exact List.mem_append_right _ h8


theorem afterVersion_split {s : Str} {h0 c : Str} (h : afterVersion s = some (h0, c)) :
    (h0 = [] ∨ (splitWS h0 ≠ [] ∧
      ∀ w ∈ splitWS h0, ("--hash=".data).isPrefixOf w = true ∧ 8 ≤ w.length)) ∧
    (c = [] ∨ c.head? = some '#') ∧ (∀ ch ∈ c, ch ∈ s) := by
  rw [afterVersion_eq] at h
  cases hin : hashIters ((s.dropWhile pySpace).length + 1) (s.dropWhile pySpace) with
  | some mc =>
    obtain ⟨m, c'⟩ := mc
    rw [hin] at h
    have h2 := Option.some.inj h
    have hh0 : (s.dropWhile pySpace).take m = h0 := congrArg Prod.fst h2
    have hc : c' = c := congrArg Prod.snd h2
    obtain ⟨_, hne, hw, hcs, hsub⟩ := hashIters_split hin
    subst hh0
    subst hc
    refine ⟨Or.inr ⟨hne, hw⟩, hcs, ?_⟩
    intro ch hch
    exact (List.dropWhile_suffix pySpace).subset (hsub ch hch)
  | none =>
    rw [hin] at h
    cases hend : endOrComment (s.dropWhile pySpace) with
    | none =>
      rw [hend] at h
      exact Option.noConfusion h
    | some c'' =>
      rw [hend] at h
      have h2 := Option.some.inj h
      have hh0 : ([] : Str) = h0 := congrArg Prod.fst h2
      have hc : c'' = c := congrArg Prod.snd h2
      subst hc
      refine ⟨Or.inl hh0.symm, ?_, ?_⟩
      · rcases endOrComment_cases hend with h5 | ⟨_, h6⟩
        · exact Or.inl h5
        · exact Or.inr h6
      · intro ch hch
        rcases endOrComment_cases hend with h5 | ⟨h5, _⟩
        · rw [h5] at hch
          exact absurd hch (List.not_mem_nil ch)
        · rw [h5] at hch
          exact (List.dropWhile_suffix pySpace).subset hch

/-- The version group of a successful pinned parse never embeds `==` except at
its very end, and never starts with `=` unless it is exactly `"="` — otherwise
the greedy package group, which tries longer candidates first, would have
claimed the text. -/
theorem re_dependency_version_inv {s : Str} {d : Dep} (h : re_dependency s = some d) :
    (∀ v1 v2, d.version = v1 ++ "==".data ++ v2 → v2 = []) ∧
    (d.version.head? = some '=' → d.version.length = 1) := by
  obtain ⟨i, v, hs0, c, h1, h2, hP, hpv, rfl, hfail⟩ := re_dependency_structure h
  obtain ⟨k, hk1, hk2, rfl, hav, hvfail⟩ := parseVHC_structure hpv
  have hvns : ∀ ch ∈ (s.drop (i + 2)).take k, nonspace ch = true := mem_take_of_le_takeWhile hk2
  have hvst : strip ((s.drop (i + 2)).take k) = (s.drop (i + 2)).take k := strip_of_nonspace hvns
  have hklen : ((s.drop (i + 2)).take k).length = k := by
    rw [List.length_take]
    have h3 := hk2.trans (takeWhile_length_le _)
    omega
  obtain ⟨w, hw⟩ := List.isPrefixOf_iff_prefix.1 hP
  have hX : w = s.drop (i + 2) := by
    have h3 := congrArg (List.drop 2) hw
    rw [show List.drop 2 ("==".data ++ w) = w from by
        rw [show (2 : Nat) = ("==".data : Str).length from rfl, List.drop_left],
      List.drop_drop] at h3
    exact h3
  have hp_ns : ∀ ch ∈ s.take i, nonspace ch = true := mem_take_of_le_takeWhile h2
  have hsdecomp2 : s = s.take i ++ ("==".data ++ s.drop (i + 2)) := by
    conv_lhs => rw [← List.take_append_drop i s]
    rw [← hw, hX]
  have hXd : ∀ n : Nat, s.drop (i + 2 + n) = (s.drop (i + 2)).drop n := by
    intro n
    rw [List.drop_drop]
  have hdi1 : s.drop (i + 1) = '=' :: s.drop (i + 2) := by
    have h3 : s.drop (i + 1) = (s.drop i).drop 1 := by rw [List.drop_drop]
    rw [h3, ← hw, hX]
    rfl
  have htws : s.takeWhile nonspace =
      s.take i ++ ("==".data ++ (s.drop (i + 2)).takeWhile nonspace) := by
    conv_lhs => rw [hsdecomp2]
    rw [takeWhile_append_all _ hp_ns,
      takeWhile_append_all _ (by decide : ∀ x ∈ ("==".data : Str), nonspace x = true)]
  have hlen_take_i : (s.take i).length = i := by
    rw [List.length_take]
    have h3 := h2.trans (takeWhile_length_le s)
    omega
  have hN : (s.takeWhile nonspace).length =
      i + 2 + ((s.drop (i + 2)).takeWhile nonspace).length := by
    rw [htws, List.length_append, List.length_append, hlen_take_i,
      show ("==".data : Str).length = 2 from rfl]
    omega
  have hXsplit : s.drop (i + 2) =
      (s.drop (i + 2)).take k ++ ((s.drop (i + 2)).drop k) :=
    (List.take_append_drop k _).symm
  constructor
  · intro v1 v2 hsplit
    by_contra hv2ne
    have hsplit' : (s.drop (i + 2)).take k = v1 ++ "==".data ++ v2 := by
      have h3 : strip ((s.drop (i + 2)).take k) = v1 ++ "==".data ++ v2 := hsplit
      rwa [hvst] at h3
    have hlensum : v1.length + 2 + v2.length = k := by
      have h3 := congrArg List.length hsplit'
      rw [hklen, List.length_append, List.length_append,
        show ("==".data : Str).length = 2 from rfl] at h3
      omega
    have hv2len : 1 ≤ v2.length := by
      cases v2 with
      | nil => exact absurd rfl hv2ne
      | cons a b => simp
    have hv2ns : ∀ ch ∈ v2, nonspace ch = true := by
      intro ch hch
      refine hvns ch ?_
      rw [hsplit']
      exact List.mem_append_right _ hch
    have hdj : s.drop (i + 2 + v1.length) =
        ("==".data ++ v2) ++ (s.drop (i + 2)).drop k := by
      rw [hXd v1.length]
      conv_lhs => rw [hXsplit]
      rw [List.drop_append_of_le_length (by omega), hsplit', List.append_assoc,
        List.drop_left]
    have hdj2 : s.drop (i + 2 + v1.length + 2) = v2 ++ (s.drop (i + 2)).drop k := by
      rw [show i + 2 + v1.length + 2 = i + 2 + (v1.length + 2) from by omega, hXd]
      conv_lhs => rw [hXsplit]
      rw [List.drop_append_of_le_length (by omega), hsplit',
        show v1 ++ "==".data ++ v2 = (v1 ++ "==".data) ++ v2 from rfl,
        show v1.length + 2 = (v1 ++ "==".data).length from by
          rw [List.length_append]; rfl,
        List.drop_left]
    have hjfail := hfail (i + 2 + v1.length) (by omega)
      (by rw [hN]; omega)
      (by
        rw [hdj, List.isPrefixOf_iff_prefix, List.append_assoc]
        exact List.prefix_append _ _)
    rw [show i + 2 + v1.length + 2 = i + 2 + v1.length + 2 from rfl] at hjfail
    refine parseVHC_ne_none (s := s.drop (i + 2 + v1.length + 2)) (k := v2.length)
      hv2len ?_ ?_ hjfail
    · rw [hdj2, takeWhile_append_all _ hv2ns, List.length_append]
      omega
    · rw [hdj2, List.drop_left, hav]
      rfl
  · intro hhead
    by_contra hlen1
    have hhead' : ((s.drop (i + 2)).take k).head? = some '=' := by
      have h3 : (strip ((s.drop (i + 2)).take k)).head? = some '=' := hhead
      rwa [hvst] at h3
    have hlenk : ¬ (strip ((s.drop (i + 2)).take k)).length = 1 := hlen1
    rw [hvst, hklen] at hlenk
    have hk2' : 2 ≤ k := by omega
    obtain ⟨v', hv'⟩ : ∃ v', (s.drop (i + 2)).take k = '=' :: v' := by
      cases hT : (s.drop (i + 2)).take k with
      | nil =>
        rw [hT] at hhead'
        exact Option.noConfusion hhead'
      | cons a b =>
        rw [hT] at hhead'
        exact ⟨b, by rw [Option.some.inj hhead']⟩
    have hv'len : v'.length = k - 1 := by
      have h3 := congrArg List.length hv'
      rw [hklen, List.length_cons] at h3
      omega
    have hv'ns : ∀ ch ∈ v', nonspace ch = true := by
      intro ch hch
      refine hvns ch ?_
      rw [hv']
      exact List.mem_cons_of_mem _ hch
    have hdj : s.drop (i + 1) = '=' :: '=' :: (v' ++ (s.drop (i + 2)).drop k) := by
      rw [hdi1]
      conv_lhs => rw [hXsplit]
      rw [hv']
      rfl
    have hdj2 : s.drop (i + 1 + 2) = v' ++ (s.drop (i + 2)).drop k := by
      rw [show i + 1 + 2 = i + 2 + 1 from by omega, hXd]
      conv_lhs => rw [hXsplit]
      rw [List.drop_append_of_le_length (by omega), hv']
      rfl
    have hjfail := hfail (i + 1) (by omega) (by rw [hN]; omega)
      (by
        rw [hdj, List.isPrefixOf_iff_prefix]
        exact ⟨v' ++ (s.drop (i + 2)).drop k, rfl⟩)
    refine parseVHC_ne_none (s := s.drop (i + 1 + 2)) (k := v'.length)
      (by omega) ?_ ?_ hjfail
    · rw [hdj2, takeWhile_append_all _ hv'ns, List.length_append]
      omega
    · rw [hdj2, List.drop_left, hav]
      rfl

/-- The invariants of a successful pinned parse needed for the round trip:
the version invariants, the comment shape (stripped, `#`-headed, drawn from
the line), and the hash-capture shape (splits into `--hash=` words). -/
theorem re_dependency_full_inv {s : Str} {d : Dep} (h : re_dependency s = some d) :
    (∀ v1 v2, d.version = v1 ++ "==".data ++ v2 → v2 = []) ∧
    (d.version.head? = some '=' → d.version.length = 1) ∧
    (d.comment = [] ∨ d.comment.head? = some '#') ∧
    strip d.comment = d.comment ∧ (∀ ch ∈ d.comment, ch ∈ s) ∧
    (d.hashes ≠ [] → splitWS d.hashes ≠ []) ∧
    (∀ w ∈ splitWS d.hashes, ("--hash=".data).isPrefixOf w = true ∧ 8 ≤ w.length) := by
  obtain ⟨hA, hB⟩ := re_dependency_version_inv h
  obtain ⟨i, v, hs0, c, h1, h2, hP, hpv, rfl, hfail⟩ := re_dependency_structure h
  obtain ⟨k, hk1, hk2, rfl, hav, hvfail⟩ := parseVHC_structure hpv
  obtain ⟨hhs, hcs, hsub⟩ := afterVersion_split hav
  refine ⟨hA, hB, ?_, strip_idem c, ?_, ?_, ?_⟩
  · rcases hcs with h5 | h5
    · left
      show strip c = []
      rw [h5]
      rfl
    · right
      exact strip_head h5 (by decide)
  · intro ch hch
    have h5 : ch ∈ c := strip_subset ch hch
    have h6 := hsub ch h5
    have h7 : ch ∈ s.drop (i + 2) := List.drop_subset _ _ h6
    exact List.drop_subset _ _ h7
  · intro hne
    show splitWS (strip hs0) ≠ []
    rw [splitWS_strip]
    rcases hhs with h5 | ⟨h5, _⟩
    · exfalso
      refine hne ?_
      show strip hs0 = []
      rw [h5]
      rfl
    · exact h5
  · intro w hw
    have hw2 : w ∈ splitWS hs0 := by
      have h5 : w ∈ splitWS (strip hs0) := hw
      rwa [splitWS_strip] at h5
    rcases hhs with h5 | ⟨_, h6⟩
    · rw [h5] at hw2
      exact absurd hw2 (List.not_mem_nil w)
    · exact h6 w hw2

theorem parseDep_of_re_dependency {s : Str} {d : Dep} (h : re_dependency s = some d) :
    parseDep s = some d := by
  unfold parseDep
  rw [h]
  rfl

theorem without_editable_nonspace {p : Str} (h : ∀ c ∈ p, nonspace c = true) :
    without_editable p = p := by
  unfold without_editable
  by_cases h1 : containsSub ("git+git@".data) p = true
  · rw [if_pos h1]
  · rw [if_neg h1]
    by_cases h2 : ("-e ".data).isPrefixOf p = true
    · exfalso
      rw [List.isPrefixOf_iff_prefix] at h2
      obtain ⟨t, ht⟩ := h2
      have h3 : ' ' ∈ p := by
        rw [← ht]
        exact List.mem_append_left _ (by decide)
      have h4 := h _ h3
      exact absurd h4 (by decide)
    · rw [if_neg h2]

theorem serialize_eq (compat : Str → Bool) (d : Dep) (hnv : d.is_vcs = false)
    (hcomp : compat d.package = false) :
    d.serialize compat =
      if d.hashes ≠ [] then
        List.intercalate (" \\\n    ".data)
          (strip (without_editable d.package ++ "==".data ++ d.version ++ "  ".data) ::
            (splitWS d.hashes ++ if d.comment ≠ [] then [d.comment] else []))
      else rstrip (ljust 26 (without_editable d.package ++ "==".data ++ d.version ++
        "  ".data) ++ d.comment) := by
  unfold Dep.serialize
  rw [if_neg (by rw [hnv]; exact Bool.noConfusion),
    show (if compat d.package = true then "~=".data else "==".data) = "==".data from
      if_neg (by rw [hcomp]; exact Bool.noConfusion)]

theorem joinSpace_append_singleton (toks : List Str) (c0 : Str) (h : toks ≠ []) :
    joinSpace (toks ++ [c0]) = joinSpace toks ++ ' ' :: c0 := by
  induction toks with
  | nil => exact absurd rfl h
  | cons a rest ih =>
    cases rest with
    | nil =>
      rw [List.cons_append, List.nil_append, joinSpace_cons, joinSpace_single,
        joinSpace_single]
    | cons b r2 =>
      have ih2 := ih (List.cons_ne_nil b r2)
      rw [List.cons_append] at ih2
      rw [List.cons_append, List.cons_append, joinSpace_cons, ih2, joinSpace_cons]
      simp [List.append_assoc]

theorem getLastD_ne_nil {α : Type} {l : List α} (h : l ≠ []) (a b : α) :
    l.getLastD a = l.getLastD b := by
  cases l with
  | nil => exact absurd rfl h
  | cons x t => rw [List.getLastD_cons, List.getLastD_cons]

theorem ljust_decomp (n : Nat) (x : Str) : ∃ sp, ljust n (x ++ "  ".data) =
    x ++ sp ∧ (∀ c ∈ sp, pySpace c = true) ∧ sp.head? = some ' ' := by
  refine ⟨"  ".data ++ List.replicate (n - (x ++ "  ".data).length) ' ', ?_, ?_, rfl⟩
  · unfold ljust
    rw [List.append_assoc]
  · intro c hc
    rcases List.mem_append.1 hc with h5 | h5
    · exact (by decide : ∀ y ∈ ("  ".data : Str), pySpace y = true) c h5
    · rw [(List.mem_replicate.1 h5).2]
      decide

theorem joinSpace_cons_ne (a : Str) (l : List Str) (h : l ≠ []) :
    joinSpace (a :: l) = a ++ ' ' :: joinSpace l := by
  cases l with
  | nil => exact absurd rfl h
  | cons b r => exact joinSpace_cons a b r

/-- C4 counterexample: three independent failures of the round trip.
(1) A pinned-looking editable VCS line (`#egg=` name followed by `==version`)
parses as a VCS dependency, but its serialization — the stripped line without
the `-e ` flag — re-parses as a *pinned* dependency whose package is the whole
URL up to the `==`, not the original package.
(2) With a compatible-pattern match, serialize emits `~=`, which the line
grammar cannot parse at all.
(3) A hash-carrying line whose comment ends in a backslash serializes to a
multi-line string whose final physical line still ends in `\`, so continuation
joining raises `MalformedArtifactError` instead of producing a logical line. -/
theorem dependency_roundtrip_cex :
    (parseDep "-e git+https://h/r.git@1#egg=zulip==1.0".data =
        some { package := "zulip".data, version := [], hashes := [], comment := [],
               is_vcs := true, line := "-e git+https://h/r.git@1#egg=zulip==1.0".data } ∧
      (Dep.serialize (fun _ => false)
          { package := "zulip".data, version := [], hashes := [], comment := [],
            is_vcs := true, line := "-e git+https://h/r.git@1#egg=zulip==1.0".data } =
        "git+https://h/r.git@1#egg=zulip==1.0".data) ∧
      (parseDep ("git+https://h/r.git@1#egg=zulip==1.0".data)).map Dep.package =
        some "git+https://h/r.git@1#egg=zulip".data ∧
      (parseDep ("git+https://h/r.git@1#egg=zulip==1.0".data)).map Dep.is_vcs = some false) ∧
    (parseDep "aa==1.0".data =
        some { package := "aa".data, version := "1.0".data, hashes := [], comment := [],
               is_vcs := false, line := "aa==1.0".data } ∧
      Dep.serialize (fun _ => true)
          { package := "aa".data, version := "1.0".data, hashes := [], comment := [],
            is_vcs := false, line := "aa==1.0".data } = "aa~=1.0".data ∧
      parseDep "aa~=1.0".data = none) ∧
    (parseDep "a==1 --hash=x #c\\".data =
        some { package := "a".data, version := "1".data, hashes := "--hash=x".data,
               comment := "#c\\".data, is_vcs := false, line := "a==1 --hash=x #c\\".data } ∧
      concatenated [] (splitNL (Dep.serialize (fun _ => false)
          { package := "a".data, version := "1".data, hashes := "--hash=x".data,
            comment := "#c\\".data, is_vcs := false, line := "a==1 --hash=x #c\\".data })) =
        .error ()) := by
  decide

/-- C4 (amended): the round trip does hold for pinned dependency lines that
the compatible-pattern rewriting leaves alone.  Without hashes, the
serialized line re-parses to the same package and version, no hashes, and
the identical comment.  With hashes — provided the final serialized item
(the comment if present, else the last hash token) does not itself end in a
backslash — continuation joining of the serialized physical lines yields a
single logical line that re-parses to the same package and version, the same
whitespace-split hash-token list, and the identical comment. -/
theorem dependency_roundtrip_amended (line : Str) (d : Dep) (compat : Str → Bool)
    (hp : parseDep line = some d) (hnv : d.is_vcs = false)
    (hcomp : compat d.package = false) (hnl : '\n' ∉ line) :
    (d.hashes = [] →
      parseDep (d.serialize compat) =
        some { package := d.package, version := d.version, hashes := [],
               comment := d.comment, is_vcs := false, line := d.serialize compat }) ∧
    (d.hashes ≠ [] →
      endsWithBS (if d.comment = [] then (splitWS d.hashes).getLastD [] else d.comment)
          = false →
      ∃ joined d2, concatenated [] (splitNL (d.serialize compat)) = .ok [joined] ∧
        parseDep joined = some d2 ∧ d2.package = d.package ∧ d2.version = d.version ∧
        splitWS d2.hashes = splitWS d.hashes ∧ d2.comment = d.comment) := by
  have hre := parseDep_pinned hp hnv
  obtain ⟨hA, hB, hch, hcstrip, hcsub, hhne, hhw⟩ := re_dependency_full_inv hre
  obtain ⟨_, _, hpne, hpns, hvne, hvns⟩ := re_dependency_fields hre
  have hwe : without_editable d.package = d.package := without_editable_nonspace hpns
  obtain ⟨cl, hcl, hcl2⟩ : ∃ cl, d.version.getLast? = some cl ∧ pySpace cl = false := by
    cases hg : d.version.getLast? with
    | none =>
      rw [List.getLast?_eq_none_iff] at hg
      exact absurd hg hvne
    | some x =>
      exact ⟨x, rfl, pySpace_eq_false (hvns x (List.mem_of_mem_getLast? hg))⟩
  obtain ⟨ch0, hch0, hch0s⟩ : ∃ ch0, d.package.head? = some ch0 ∧ pySpace ch0 = false := by
    cases hq : d.package with
    | nil => exact absurd hq hpne
    | cons a t =>
      refine ⟨a, rfl, ?_⟩
      exact pySpace_eq_false (hpns a (by rw [hq]; exact List.mem_cons_self _ _))
  have hlastX : ((d.package ++ "==".data) ++ d.version).getLast? = some cl := by
    rw [List.getLast?_append, hcl]
    rfl
  have hheadX : ((d.package ++ "==".data) ++ d.version).head? = some ch0 := by
    rw [List.head?_append_of_ne_nil _ (List.append_ne_nil_of_left_ne_nil hpne _),
      List.head?_append_of_ne_nil _ hpne]
    exact hch0
  have hpvX : strip (without_editable d.package ++ "==".data ++ d.version ++ "  ".data) =
      (d.package ++ "==".data) ++ d.version := by
    rw [hwe]
    show lstrip (rstrip ((((d.package ++ "==".data) ++ d.version)) ++ "  ".data)) = _
    rw [rstrip_append_all _ (by decide), rstrip_eq_self hlastX hcl2]
    exact lstrip_eq_self hheadX hch0s
  have hXns : ∀ x ∈ (d.package ++ "==".data) ++ d.version, nonspace x = true := by
    intro x hx
    rcases List.mem_append.1 hx with h5 | h5
    · rcases List.mem_append.1 h5 with h6 | h6
      · exact hpns x h6
      · exact (by decide : ∀ y ∈ ("==".data : Str), nonspace y = true) x h6
    · exact hvns x h5
  have hXne : (d.package ++ "==".data) ++ d.version ≠ [] :=
    List.append_ne_nil_of_left_ne_nil (List.append_ne_nil_of_left_ne_nil hpne _) _
  constructor
  · intro hh0
    rw [serialize_eq compat d hnv hcomp, if_neg (not_not_intro hh0), hwe]
    obtain ⟨sp, hsp1, hsp2, hsp3⟩ := ljust_decomp 26 ((d.package ++ "==".data) ++ d.version)
    rw [hsp1]
    by_cases hcom : d.comment = []
    · rw [hcom, List.append_nil, rstrip_append_all _ hsp2, rstrip_eq_self hlastX hcl2]
      have hser := re_dependency_serialized (p := d.package) (v := d.version)
        (q := []) hpne hpns hvne hvns hA hB (Or.inl rfl) afterVersion_nil
      rw [List.append_nil, strip_of_nonspace hvns,
        show strip ([] : Str) = [] from rfl] at hser
      exact parseDep_of_re_dependency hser
    · have hch' : d.comment.head? = some '#' := by
        rcases hch with h5 | h5
        · exact absurd h5 hcom
        · exact h5
      obtain ⟨cl2, hcl2', hcl2s⟩ := strip_fixed_last hcstrip hcom
      have hrst : rstrip ((((d.package ++ "==".data) ++ d.version) ++ sp) ++ d.comment) =
          (((d.package ++ "==".data) ++ d.version) ++ sp) ++ d.comment := by
        refine rstrip_eq_self (c := cl2) ?_ hcl2s
        rw [List.getLast?_append, hcl2']
        rfl
      rw [hrst]
      have hassoc : (((d.package ++ "==".data) ++ d.version) ++ sp) ++ d.comment =
          (d.package ++ "==".data) ++ (d.version ++ (sp ++ d.comment)) := by
        simp [List.append_assoc]
      rw [hassoc]
      have hspne : sp ≠ [] := by
        intro h5
        rw [h5] at hsp3
        exact Option.noConfusion hsp3
      have hav := afterVersion_comment hsp2 hch'
      have hser := re_dependency_serialized (p := d.package) (v := d.version)
        (q := sp ++ d.comment) hpne hpns hvne hvns
        hA hB (Or.inr ⟨' ', by rw [List.head?_append_of_ne_nil _ hspne]; exact hsp3,
          by decide⟩) hav
      rw [strip_of_nonspace hvns, show strip ([] : Str) = [] from rfl, hcstrip] at hser
      exact parseDep_of_re_dependency hser
  · intro hh0 hbs
    rw [serialize_eq compat d hnv hcomp, if_pos hh0, hpvX]
    have htoksne : splitWS d.hashes ≠ [] := hhne hh0
    have htoks : ∀ t ∈ splitWS d.hashes, ("--hash=".data).isPrefixOf t = true ∧
        8 ≤ t.length ∧ ∀ x ∈ t, nonspace x = true := by
      intro t ht
      obtain ⟨h5, h6⟩ := hhw t ht
      exact ⟨h5, h6, (splitWS_words t ht).2⟩
    have hnonl : ∀ t : Str, (∀ x ∈ t, nonspace x = true) → '\n' ∉ t := by
      intro t hts2 hmem
      exact absurd (hts2 _ hmem) (by decide)
    have hcnl : '\n' ∉ d.comment := fun hmem => hnl (hcsub _ hmem)
    by_cases hcom : d.comment = []
    · rw [if_neg (not_not_intro hcom), List.append_nil]
      have hitems : ∀ t ∈ ((d.package ++ "==".data) ++ d.version) :: splitWS d.hashes,
          '\n' ∉ t ∧ strip t = t ∧ t ≠ [] := by
        intro t ht
        rcases List.mem_cons.1 ht with rfl | ht2
        · exact ⟨hnonl _ hXns, strip_of_nonspace hXns, hXne⟩
        · obtain ⟨_, _, hns5⟩ := htoks t ht2
          exact ⟨hnonl _ hns5, strip_of_nonspace hns5, (splitWS_words t ht2).1⟩
      have hlastbs : endsWithBS ((((d.package ++ "==".data) ++ d.version) ::
          splitWS d.hashes).getLastD []) = false := by
        rw [List.getLastD_cons, getLastD_ne_nil htoksne _ ([] : Str)]
        rw [if_pos hcom] at hbs
        exact hbs
      have hconc := concat_ser (((d.package ++ "==".data) ++ d.version) ::
        splitWS d.hashes) [] [] hitems hlastbs
        (fun c hc => absurd hc (List.not_mem_nil c)) (List.not_mem_nil _)
        (List.cons_ne_nil _ _)
      simp only [List.nil_append] at hconc
      have hav := afterVersion_hashes (splitWS d.hashes) [] [] 0 htoks
        (Or.inl ⟨rfl, rfl, rfl⟩) htoksne
      rw [List.append_nil, if_neg (by omega), List.append_nil] at hav
      have hser := re_dependency_serialized (p := d.package) (v := d.version)
        (q := ' ' :: joinSpace (splitWS d.hashes)) hpne hpns hvne hvns hA hB
        (Or.inr ⟨' ', rfl, by decide⟩) hav
      have hJ : joinSpace (((d.package ++ "==".data) ++ d.version) :: splitWS d.hashes) =
          (d.package ++ "==".data) ++ (d.version ++ ' ' :: joinSpace (splitWS d.hashes)) := by
        rw [joinSpace_cons_ne _ _ htoksne, List.append_assoc]
      refine ⟨joinSpace (((d.package ++ "==".data) ++ d.version) :: splitWS d.hashes),
        { package := d.package, version := strip d.version,
          hashes := strip (joinSpace (splitWS d.hashes)),
          comment := strip ([] : Str), is_vcs := false,
          line := (d.package ++ "==".data) ++
            (d.version ++ ' ' :: joinSpace (splitWS d.hashes)) },
        hconc, ?_, rfl, strip_of_nonspace hvns, ?_, ?_⟩
      · rw [hJ]
        exact parseDep_of_re_dependency hser
      · show splitWS (strip (joinSpace (splitWS d.hashes))) = splitWS d.hashes
        rw [splitWS_strip]
        exact splitWS_joinSpace _ (fun t ht => (splitWS_words t ht))
      · show strip ([] : Str) = d.comment
        rw [hcom]
        rfl
    · rw [if_pos hcom]
      have hch' : d.comment.head? = some '#' := by
        rcases hch with h5 | h5
        · exact absurd h5 hcom
        · exact h5
      have hitems : ∀ t ∈ ((d.package ++ "==".data) ++ d.version) ::
          (splitWS d.hashes ++ [d.comment]), '\n' ∉ t ∧ strip t = t ∧ t ≠ [] := by
        intro t ht
        rcases List.mem_cons.1 ht with rfl | ht2
        · exact ⟨hnonl _ hXns, strip_of_nonspace hXns, hXne⟩
        · rcases List.mem_append.1 ht2 with h5 | h5
          · obtain ⟨_, _, hns5⟩ := htoks t h5
            exact ⟨hnonl _ hns5, strip_of_nonspace hns5, (splitWS_words t h5).1⟩
          · rw [List.mem_singleton] at h5
            subst h5
            exact ⟨hcnl, hcstrip, hcom⟩
      have hlastbs : endsWithBS ((((d.package ++ "==".data) ++ d.version) ::
          (splitWS d.hashes ++ [d.comment])).getLastD []) = false := by
        rw [List.getLastD_cons, List.getLastD_concat]
        rw [if_neg hcom] at hbs
        exact hbs
      have hconc := concat_ser (((d.package ++ "==".data) ++ d.version) ::
        (splitWS d.hashes ++ [d.comment])) [] [] hitems hlastbs
        (fun c hc => absurd hc (List.not_mem_nil c)) (List.not_mem_nil _)
        (List.cons_ne_nil _ _)
      simp only [List.nil_append] at hconc
      have hav := afterVersion_hashes (splitWS d.hashes) d.comment (' ' :: d.comment) 1
        htoks (Or.inr ⟨hch', rfl, rfl⟩) htoksne
      rw [if_pos rfl] at hav
      have hser := re_dependency_serialized (p := d.package) (v := d.version)
        (q := ' ' :: (joinSpace (splitWS d.hashes) ++ ' ' :: d.comment))
        hpne hpns hvne hvns
        hA hB (Or.inr ⟨' ', rfl, by decide⟩) hav
      have hJ : joinSpace (((d.package ++ "==".data) ++ d.version) ::
          (splitWS d.hashes ++ [d.comment])) =
          (d.package ++ "==".data) ++
            (d.version ++ ' ' :: (joinSpace (splitWS d.hashes) ++ ' ' :: d.comment)) := by
        rw [joinSpace_cons_ne _ _ (List.append_ne_nil_of_left_ne_nil htoksne _),
          joinSpace_append_singleton _ _ htoksne, List.append_assoc]
      refine ⟨joinSpace (((d.package ++ "==".data) ++ d.version) ::
          (splitWS d.hashes ++ [d.comment])),
        { package := d.package, version := strip d.version,
          hashes := strip (joinSpace (splitWS d.hashes) ++ [' ']),
          comment := strip d.comment, is_vcs := false,
          line := (d.package ++ "==".data) ++
            (d.version ++ ' ' :: (joinSpace (splitWS d.hashes) ++ ' ' :: d.comment)) },
        hconc, ?_, rfl, strip_of_nonspace hvns, ?_, hcstrip⟩
      · rw [hJ]
        exact parseDep_of_re_dependency hser
      · show splitWS (strip (joinSpace (splitWS d.hashes) ++ [' '])) = splitWS d.hashes
        rw [splitWS_strip, splitWS_append_spaces _ (by decide)]
        exact splitWS_joinSpace _ (fun t ht => (splitWS_words t ht))

/-- C4 witness for the amended round trip: the pinned line
`a==1 --hash=sha256:x # via foo` serializes to two physical lines that join
back into one logical line re-parsing to the same fields. -/
theorem dependency_roundtrip_amended_witness :
    ∃ joined d2, concatenated [] (splitNL (Dep.serialize (fun _ => false)
        { package := "a".data, version := "1".data, hashes := "--hash=sha256:x".data,
          comment := "# via foo".data, is_vcs := false,
          line := "a==1 --hash=sha256:x # via foo".data })) = .ok [joined] ∧
      parseDep joined = some d2 ∧ d2.package = "a".data ∧ d2.version = "1".data ∧
      splitWS d2.hashes = splitWS "--hash=sha256:x".data ∧
      d2.comment = "# via foo".data :=
  (dependency_roundtrip_amended "a==1 --hash=sha256:x # via foo".data
    { package := "a".data, version := "1".data, hashes := "--hash=sha256:x".data,
      comment := "# via foo".data, is_vcs := false,
      line := "a==1 --hash=sha256:x # via foo".data }
    (fun _ => false) (by decide) rfl rfl (by decide)).2 (by decide) (by decide)

end PipCompileMulti
